import Mathlib

/-!
The template manager `open-template`: a verification development.

A shallow embedding of the template manager (`src/main.go`, `src/utils/filterTemplates.go`,
`src/utils/fileTree.go`) and machine-checked statements about it.

Modelling conventions.
* Go `string` values are Lean `String`s (sequences of Unicode code points); `len(s) > 0`
  is `s ≠ ""`.
* Go `int` values (`stage`, `cursor`, `searchCursor`, `currentOpIndex`, `treeDepth`) are `Int`;
  no arithmetic in the program gets near the 64-bit bounds (cursors move by one inside a list).
* A nil slice and an empty slice are both `[]`.
* A run-time panic (slice index out of range) is the result `none` of `Update`.
* Go `s[:len(s)-1]` drops the last byte of a string. That is its last character when the
  character is ASCII. Else the bytes left are not the encoding of a text: the string that
  stands for them is a field of `Env`, and the statements hold for every choice of it.
* Library and operating-system functions whose result the program only passes along
  (`strings.ToLower`, `filepath.Join`, `os.Getwd`, `os.Mkdir`, the file tree met by
  `filepath.Walk`) are fields of `Env`.
* The file system is a tree `FsNode` of directories and non-directories. A path is the list
  of its components, so `filepath.Join` of a directory and a relative path appends the
  components and `filepath.Rel` strips the directory's components. A directory lists its
  entries in the order in which `filepath.Walk` visits them. Of the permissions only the one
  to read (list a directory, open a file) is kept; `os.Lstat` of a listed entry succeeds.
* The spinner of the `bubbles` library is kept as a frame counter, and `View` is kept without
  the `lipgloss` styling of its text.
-/

namespace OpenTemplate

/-! ## Strings -/

/-- Go `strings.Contains(s, substr)`: `substr` occurs in `s` as a contiguous run. -/
def Contains (s substr : String) : Bool :=
  decide (substr.data <:+: s.data)

/-- Lower-casing of the ASCII letters, one instance of `strings.ToLower` used for examples. -/
def ToLowerASCII (s : String) : String :=
  ⟨s.data.map Char.toLower⟩

/-! ## `utils.FilterTemplates` (src/utils/filterTemplates.go) -/

/-- The loop of `FilterTemplates`: `result` grows by `append` for each matching name. -/
def filterLoop (ToLower : String → String) (lowerQuery : String) :
    List String → List String → List String
  | result, [] => result
  | result, tmpl :: rest =>
    if Contains (ToLower tmpl) lowerQuery then
      filterLoop ToLower lowerQuery (result ++ [tmpl]) rest
    else
      filterLoop ToLower lowerQuery result rest

/-- FilterTemplates returns the templates whose names contain the query (case-insensitive).
`ToLower` is `strings.ToLower`. -/
def FilterTemplates (ToLower : String → String) (templates : List String) (query : String) :
    List String :=
  if query = "" then
    templates
  else
    filterLoop ToLower (ToLower query) [] templates

/-- Go `unicode.IsSpace`: the white-space code points that `strings.TrimSpace` removes. -/
def isSpace (c : Char) : Bool :=
  let n := c.toNat
  (0x09 ≤ n && n ≤ 0x0D) || n = 0x20 || n = 0x85 || n = 0xA0 || n = 0x1680
    || (0x2000 ≤ n && n ≤ 0x200A) || n = 0x2028 || n = 0x2029 || n = 0x202F
    || n = 0x205F || n = 0x3000

/-- Go `strings.TrimSpace`: the string without its leading and trailing white space. -/
def TrimSpace (s : String) : String :=
  ⟨((s.data.dropWhile isSpace).reverse.dropWhile isSpace).reverse⟩

/-- Go `s[:len(s)-1]` for a non-empty string: the string without its last byte. The byte is
the last character when that is ASCII; else `cutLastByte s` stands for the bytes left, which
are not the encoding of a text. -/
def dropLast (cutLastByte : String → String) (s : String) : String :=
  match s.data.getLast? with
  | none => s
  | some c => if c.toNat < 128 then ⟨s.data.dropLast⟩ else cutLastByte s

/-- Go slice indexing `xs[i]` with an `int` index: `none` is the index-out-of-range panic. -/
def index {α : Type} (xs : List α) (i : Int) : Option α :=
  if i < 0 then none else xs.get? i.toNat

/-! ## Data types (src/main.go) -/

/-- The template folder, `const templateDir`. -/
def templateDir : String := "/Users/ayushkumar/programming/templates"

def stageSelectTemplate : Int := 0
def stageProjectName : Int := 1
def stageCopying : Int := 2
def stageDone : Int := 3

/-- A file or directory operation. `relPath` is kept as the list of path components below
the template root (the Go string is the components joined by the separator, see `pathString`);
`opType` is "mkdir" or "copy". -/
structure op where
  opType : String
  relPath : List String
deriving DecidableEq, Repr

/-- The Go string of a relative path: `.` for the root, else the components joined by `/`. -/
def pathString (rel : List String) : String :=
  if rel = [] then "." else "/".intercalate rel

/-- The application state, `type model struct`. The spinner is kept as its frame number;
`err` holds the text of the error. -/
structure model where
  stage : Int
  templates : List String
  cursor : Int
  searchMode : Bool
  searchQuery : String
  searchResults : List String
  searchCursor : Int
  inputBuffer : String
  projectName : String
  ops : List op
  currentOpIndex : Int
  currentLog : String
  spinner : Nat
  sourceDir : String
  destDir : String
  treeDepth : Int
  blink : Bool
  showHelp : Bool
  err : Option String
deriving DecidableEq, Repr

/-! ## The file tree and `buildOps` -/

/-- A file-system entry as `filepath.Walk` meets it: a non-directory with its bytes, or a
directory with its entries in the order `Walk` visits them (the order of `readDirNames`).
`readable` is false when opening the entry for reading fails (permission denied). -/
inductive FsNode where
  | file (readable : Bool) (data : List Nat)
  | dir (readable : Bool) (entries : List (String × FsNode))
deriving Repr

/-- The callback that `buildOps` hands to `filepath.Walk`: `rel` is `filepath.Rel(source, path)`
(the root is `[]`, Go `.`), `isDir` is `info.IsDir()`, `err` the error `Walk` reports for the
entry. -/
def walkFn (rel : List String) (isDir : Bool) (err : Option String) (ops : List op) :
    List op × Option String :=
  match err with
  | some e => (ops, some e)
  | none =>
    if rel = [] then (ops, none)
    else if isDir then (ops ++ [{ opType := "mkdir", relPath := rel }], none)
    else (ops ++ [{ opType := "copy", relPath := rel }], none)

mutual
/-- Go `filepath.walk`: the callback is called on the entry (for a directory, with the error
of reading its names), then the entries of a readable directory are walked in order; the
first error stops the walk. -/
def walk (rel : List String) : FsNode → List op → List op × Option String
  | .file _ _, ops => walkFn rel false none ops
  | .dir readable entries, ops =>
    let err : Option String := if readable then none else some "permission denied"
    match walkFn rel true err ops with
    | (ops1, err1) =>
      if err.isSome || err1.isSome then (ops1, err1)
      else walkEntries rel entries ops1
/-- The loop of `filepath.walk` over the names of a directory. -/
def walkEntries (rel : List String) : List (String × FsNode) → List op → List op × Option String
  | [], ops => (ops, none)
  | (name, node) :: rest, ops =>
    match walk (rel ++ [name]) node ops with
    | (ops1, some e) => (ops1, some e)
    | (ops1, none) => walkEntries rel rest ops1
end

/-- The function `buildOps`: walks the source directory and builds the list of operations.
`source` is what `os.Lstat` finds at the source path: a tree, or an error. -/
def buildOps (source : Except String FsNode) : List op × Option String :=
  match source with
  | .error e => walkFn [] false (some e) []
  | .ok root => walk [] root []

/-- Whether the entry is a directory, `info.IsDir()`. -/
def FsNode.isDir : FsNode → Bool
  | .file _ _ => false
  | .dir _ _ => true

mutual
/-- Path resolution: the entry found by following the components of a relative path. -/
def FsNode.lookup : FsNode → List String → Option FsNode
  | n, [] => some n
  | .file _ _, _ :: _ => none
  | .dir _ entries, name :: rest => lookupEntries entries name rest
/-- Path resolution inside the entries of a directory. -/
def lookupEntries : List (String × FsNode) → String → List String → Option FsNode
  | [], _, _ => none
  | (n, node) :: es, name, rest =>
    if n = name then node.lookup rest else lookupEntries es name rest
end

mutual
/-- Well-formed tree: the names inside every directory are pairwise different. -/
def FsNode.WF : FsNode → Bool
  | .file _ _ => true
  | .dir _ entries => entriesWF entries
/-- Well-formed entries of a directory. -/
def entriesWF : List (String × FsNode) → Bool
  | [] => true
  | (n, node) :: es => !(es.any (fun e => e.1 = n)) && node.WF && entriesWF es
end

/-- The operation that `buildOps` records for an entry at a relative path. -/
def entryOp (rel : List String) (node : FsNode) : op :=
  if node.isDir then { opType := "mkdir", relPath := rel }
  else { opType := "copy", relPath := rel }

/-- The entries below a directory in depth-first order, as operations: each entry, followed
by the entries below it when it is a directory. -/
def planEntries (rel : List String) : List (String × FsNode) → List op
  | [] => []
  | (n, .file _ _) :: rest => { opType := "copy", relPath := rel ++ [n] } :: planEntries rel rest
  | (n, .dir _ es) :: rest =>
    { opType := "mkdir", relPath := rel ++ [n] }
      :: (planEntries (rel ++ [n]) es ++ planEntries rel rest)

/-! ## The step logic of `nextOpCmd` on a file tree -/

/-- A chain of new, empty directories for the remaining components of a path. -/
def newDirs : List String → FsNode
  | [] => .dir true []
  | name :: rest => .dir true [(name, newDirs rest)]

mutual
/-- Go `os.MkdirAll(path, 0755)` on the tree rooted at the node, `path` given by its
components: nothing to do when the path is a directory, an error when a component is not a
directory, else the missing directories are created (a new entry goes to the end of its
directory). On an error the tree is unchanged. -/
def FsNode.MkdirAll : FsNode → List String → Except String FsNode
  | .file _ _, _ => .error "not a directory"
  | .dir r es, [] => .ok (.dir r es)
  | .dir r es, name :: rest =>
    match mkdirAllEntries es name rest with
    | .ok es' => .ok (.dir r es')
    | .error e => .error e
/-- The step of `MkdirAll` inside the entries of a directory. -/
def mkdirAllEntries :
    List (String × FsNode) → String → List String → Except String (List (String × FsNode))
  | [], name, rest => .ok [(name, newDirs rest)]
  | (n, node) :: es, name, rest =>
    if n = name then
      match node.MkdirAll rest with
      | .ok node' => .ok ((n, node') :: es)
      | .error e => .error e
    else
      match mkdirAllEntries es name rest with
      | .ok es' => .ok ((n, node) :: es')
      | .error e => .error e
end

mutual
/-- Writing `data` as the whole content of the file at a path: the file is created (readable,
at the end of its directory) when its directory exists and has no such entry, its content is
replaced when it is a file; an error when the path is a directory or its directory is
missing. `os.Create` is this with no data, `io.Copy` into the created file is this with the
bytes read. -/
def FsNode.writeFile : FsNode → List String → List Nat → Except String FsNode
  | .file r _, [], data => .ok (.file r data)
  | .file _ _, _ :: _, _ => .error "not a directory"
  | .dir _ _, [], _ => .error "is a directory"
  | .dir r es, name :: rest, data =>
    match writeEntries es name rest data with
    | .ok es' => .ok (.dir r es')
    | .error e => .error e
/-- The step of `writeFile` inside the entries of a directory. -/
def writeEntries :
    List (String × FsNode) → String → List String → List Nat →
      Except String (List (String × FsNode))
  | [], name, rest, data =>
    if rest = [] then .ok [(name, .file true data)] else .error "no such file or directory"
  | (n, node) :: es, name, rest, data =>
    if n = name then
      match node.writeFile rest data with
      | .ok node' => .ok ((n, node') :: es)
      | .error e => .error e
    else
      match writeEntries es name rest data with
      | .ok es' => .ok ((n, node) :: es')
      | .error e => .error e
end

/-- The function `copyFile(src, dst)` on the tree `fs`: open the source (it must exist and be
readable), make the directory of the destination, create or truncate the destination, copy
the bytes. Returns the new tree and the error, if any. -/
def copyFile (fs : FsNode) (src dst : List String) : FsNode × Option String :=
  match fs.lookup src with
  | none => (fs, some "no such file or directory")
  | some (.file false _) => (fs, some "permission denied")
  | some (.dir false _) => (fs, some "permission denied")
  | some _ =>
    match fs.MkdirAll dst.dropLast with
    | .error e => (fs, some e)
    | .ok fs1 =>
      match fs1.writeFile dst [] with
      | .error e => (fs1, some e)
      | .ok fs2 =>
        match fs2.lookup src with
        | some (.file _ data) =>
          match fs2.writeFile dst data with
          | .ok fs3 => (fs3, none)
          | .error e => (fs2, some e)
        | _ => (fs2, some "is a directory")

/-- The step that `nextOpCmd` runs for one operation: `MkdirAll` of the destination path for
"mkdir", `copyFile` from the source path to the destination path for "copy". `sourceDir` and
`destDir` are the components of `m.sourceDir` and `m.destDir`, and `filepath.Join` with the
relative path appends its components. -/
def stepOp (sourceDir destDir : List String) (fs : FsNode) (o : op) : FsNode × Option String :=
  if o.opType = "mkdir" then
    match fs.MkdirAll (destDir ++ o.relPath) with
    | .ok fs1 => (fs1, none)
    | .error e => (fs, some e)
  else if o.opType = "copy" then
    copyFile fs (sourceDir ++ o.relPath) (destDir ++ o.relPath)
  else (fs, none)

/-- Running every operation of a plan in list order, as the Copying stage does: a failed step
is recorded and the next one runs. Returns the final tree and the error of each step. -/
def execOps (sourceDir destDir : List String) : FsNode → List op → FsNode × List (Option String)
  | fs, [] => (fs, [])
  | fs, o :: rest =>
    match stepOp sourceDir destDir fs o with
    | (fs1, e) =>
      match execOps sourceDir destDir fs1 rest with
      | (fs2, errs) => (fs2, e :: errs)

mutual
/-- The tree with the entry at a path replaced (unchanged when the path does not resolve). -/
def FsNode.replace : FsNode → List String → FsNode → FsNode
  | _, [], x => x
  | .file r d, _ :: _, _ => .file r d
  | .dir r es, name :: rest, x => .dir r (replaceEntries es name rest x)
/-- The step of `replace` inside the entries of a directory. -/
def replaceEntries :
    List (String × FsNode) → String → List String → FsNode → List (String × FsNode)
  | [], _, _, _ => []
  | (n, node) :: es, name, rest, x =>
    if n = name then (n, node.replace rest x) :: es
    else (n, node) :: replaceEntries es name rest x
end

mutual
/-- Every directory of the tree can be listed and every file can be opened for reading. -/
def FsNode.allReadable : FsNode → Bool
  | .file r _ => r
  | .dir r es => r && entriesAllReadable es
/-- Every entry of the list, and everything below it, can be read. -/
def entriesAllReadable : List (String × FsNode) → Bool
  | [] => true
  | (_, node) :: es => node.allReadable && entriesAllReadable es
end

/-! ## `utils.GetFileTree` (src/utils/fileTree.go) -/

mutual
/-- Every directory of the tree can be listed (`os.ReadDir` succeeds). -/
def FsNode.dirsReadable : FsNode → Bool
  | .file _ _ => true
  | .dir r es => r && entriesDirsReadable es
/-- Every directory below the entries can be listed. -/
def entriesDirsReadable : List (String × FsNode) → Bool
  | [] => true
  | (_, node) :: es => node.dirsReadable && entriesDirsReadable es
end

/-- The `lipgloss` renderings that `GetFileTree` applies: to the name of a directory, to the
name of a file, and the placeholder of an empty root. -/
structure TreeStyle where
  dirName : String → String
  fileName : String → String
  emptyMsg : String

/-- One `sb.WriteString` call of `GetFileTree`: the text written, with the path (relative to
the root) of the entry it is written for and whether it is the line of an entry (it is else
the error line of a directory that cannot be read). Only `text` reaches the output. -/
structure TreeLine where
  path : List String
  entry : Bool
  text : String

/-- A directory entry as the loop of the closure `walk` uses it: its name, `IsDir()`, and
the recursive call `walk(filepath.Join(path, entry.Name()), newPrefix, depth+1)` for it, as a
function of the path, the prefix and the depth. -/
structure WalkItem where
  name : String
  isDir : Bool
  sub : List String → String → Int → List TreeLine

/-- The two calls of `sort.Slice`: by lower-cased name. -/
def sortByName (ToLower : String → String) (items : List WalkItem) : List WalkItem :=
  items.insertionSort (fun a b => ¬ (ToLower b.name < ToLower a.name))

/-- The slice `allEntries`: the directories, sorted, then the other entries, sorted. -/
def allEntries (ToLower : String → String) (entries : List WalkItem) : List WalkItem :=
  sortByName ToLower (entries.filter (fun e => e.isDir))
    ++ sortByName ToLower (entries.filter (fun e => !e.isDir))

/-- The loop `for i, entry := range allEntries`: the line of the entry, then the lines of
the walk below it when it is a directory and the depth limit is not reached. `total` is
`len(allEntries)` and `i` the index of the first entry of the list. -/
def emitEntries (st : TreeStyle) (maxDepth : Int) (path : List String) (pfx : String)
    (depth : Int) (total : Nat) : Nat → List WalkItem → List TreeLine
  | _, [] => []
  | i, entry :: rest =>
    let last : Bool := decide ((i : Int) = (total : Int) - 1)
    let connector := if last then "└╼ " else "├╼ "
    let name := if entry.isDir then st.dirName entry.name else st.fileName entry.name
    let line : TreeLine :=
      { path := path ++ [entry.name], entry := true, text := pfx ++ connector ++ name ++ "\n" }
    let below : List TreeLine :=
      if entry.isDir = true ∧ (maxDepth < 0 ∨ depth < maxDepth) then
        entry.sub (path ++ [entry.name]) (pfx ++ (if last then "   " else "│  ")) (depth + 1)
      else []
    line :: (below ++ emitEntries st maxDepth path pfx depth total (i + 1) rest)

mutual
/-- The closure `walk(path, prefix, depth)` of `GetFileTree`, on the entry found at `path`:
an error line when `os.ReadDir` fails, else the loop over the sorted entries. -/
def treeWalk (st : TreeStyle) (ToLower : String → String) (maxDepth : Int) :
    FsNode → List String → String → Int → List TreeLine
  | .file _ _, path, pfx, _ =>
    [{ path := path, entry := false,
       text := pfx ++ "Error reading directory: not a directory\n" }]
  | .dir false _, path, pfx, _ =>
    [{ path := path, entry := false,
       text := pfx ++ "Error reading directory: permission denied\n" }]
  | .dir true es, path, pfx, depth =>
    emitEntries st maxDepth path pfx depth
      (allEntries ToLower (treeItems st ToLower maxDepth es)).length 0
      (allEntries ToLower (treeItems st ToLower maxDepth es))
/-- The entries of a directory read by `os.ReadDir`, each with the walk below it. -/
def treeItems (st : TreeStyle) (ToLower : String → String) (maxDepth : Int) :
    List (String × FsNode) → List WalkItem
  | [] => []
  | (n, node) :: es =>
    { name := n, isDir := node.isDir, sub := treeWalk st ToLower maxDepth node }
      :: treeItems st ToLower maxDepth es
end

/-- The calls of `sb.WriteString` that `GetFileTree(dir, maxDepth)` makes while walking:
`dir` is what is found at the path `dir`. -/
def treeLines (st : TreeStyle) (ToLower : String → String) (dir : Except String FsNode)
    (maxDepth : Int) : List TreeLine :=
  match dir with
  | .error e => [{ path := [], entry := false, text := "Error reading directory: " ++ e ++ "\n" }]
  | .ok node => treeWalk st ToLower maxDepth node [] "" 1

/-- The function `GetFileTree`: the text written by the walk, or the placeholder when
nothing was written. -/
def GetFileTree (st : TreeStyle) (ToLower : String → String) (dir : Except String FsNode)
    (maxDepth : Int) : String :=
  let sb := String.join ((treeLines st ToLower dir maxDepth).map (fun l => l.text))
  if sb = "" then st.emptyMsg else sb

/-- The names of the slice `allEntries` of a directory: the names of its directories, sorted
by lower-cased name, then the names of its other entries, sorted by lower-cased name. -/
def sortedNames (ToLower : String → String) (es : List (String × FsNode)) : List String :=
  ((es.filter (fun e => e.2.isDir)).map Prod.fst).insertionSort
      (fun a b => ¬ (ToLower b < ToLower a))
    ++ ((es.filter (fun e => !e.2.isDir)).map Prod.fst).insertionSort
      (fun a b => ¬ (ToLower b < ToLower a))

/-- The name of the last entry of the slice `allEntries` of a directory, the entry for which
`i == len(allEntries)-1` holds in the loop of `walk`. -/
def lastName (ToLower : String → String) : FsNode → Option String
  | .file _ _ => none
  | .dir _ es => (sortedNames ToLower es).getLast?

/-- The text `prefix + connector + name + "\n"` that `walk` writes for the entry found at a
relative path below `node`, when `walk` runs on `node` with the prefix `pfx`: each directory
on the way adds three columns to the prefix (blank below the last entry of its directory, a
bar below any other), the connector is `└╼ ` for the last entry of its directory and `├╼ `
for any other, and the name is rendered as a directory or as a file. -/
def entryLine (st : TreeStyle) (ToLower : String → String) :
    List String → FsNode → String → Option String
  | [], _, _ => none
  | n :: q, node, pfx =>
    match node.lookup [n] with
    | none => none
    | some child =>
      match q with
      | [] =>
        some (pfx ++ (if lastName ToLower node = some n then "└╼ " else "├╼ ")
          ++ (if child.isDir then st.dirName n else st.fileName n) ++ "\n")
      | _ :: _ =>
        entryLine st ToLower q child
          (pfx ++ (if lastName ToLower node = some n then "   " else "│  "))

/-! ## Messages and commands -/

/-- The key types of `tea.KeyType` that the program tells apart, and a few more named keys. -/
inductive KeyType where
  | KeyRunes | KeyEnter | KeyEsc | KeyBackspace | KeyUp | KeyDown | KeyShiftUp | KeyShiftDown
  | KeyCtrlC | KeyTab | KeySpace | KeyLeft | KeyRight
deriving DecidableEq, Repr

/-- A key press, `tea.KeyMsg`. -/
structure KeyMsg where
  type : KeyType
  Runes : List Char
  Alt : Bool
  Paste : Bool
deriving DecidableEq, Repr

/-- The table `keyNames` of the key types other than `KeyRunes`. -/
def keyNames : KeyType → String
  | .KeyRunes => "runes"
  | .KeyEnter => "enter"
  | .KeyEsc => "esc"
  | .KeyBackspace => "backspace"
  | .KeyUp => "up"
  | .KeyDown => "down"
  | .KeyShiftUp => "shift+up"
  | .KeyShiftDown => "shift+down"
  | .KeyCtrlC => "ctrl+c"
  | .KeyTab => "tab"
  | .KeySpace => " "
  | .KeyLeft => "left"
  | .KeyRight => "right"

/-- The method `Key.String()`: the typed runes (in brackets when pasted) or the key's name,
after `alt+` when Alt is held. -/
def KeyMsg.String (k : KeyMsg) : String :=
  (if k.Alt then "alt+" else "") ++
    (if k.type = KeyType.KeyRunes then
      (if k.Paste then "[" else "") ++ String.mk k.Runes ++ (if k.Paste then "]" else "")
    else keyNames k.type)

/-- The messages `Update` receives. `otherMsg` is a message of any other type. -/
inductive Msg where
  | KeyMsg (k : KeyMsg)
  | blinkMsg
  | spinnerTickMsg
  | opProcessedMsg (o : op) (err : Option String)
  | copyFinishedMsg
  | otherMsg
deriving DecidableEq, Repr

/-- The commands `Update` returns: `tea.Quit`, the blink ticker, `nextOpCmd(m)` with the model
it captured, the spinner's tick, and the closure that returns `copyFinishedMsg`. -/
inductive Cmd where
  | Quit
  | blinkTick
  | nextOpCmd (m : model)
  | spinnerTick
  | copyFinished
deriving DecidableEq, Repr

/-- The library and operating-system results `Update` depends on. -/
structure Env where
  /-- Go `strings.ToLower`. -/
  ToLower : String → String
  /-- The string that stands for `s[:len(s)-1]` when the last character of `s` takes more
  than one byte. -/
  cutLastByte : String → String
  /-- Go `filepath.Join` of two elements. -/
  Join : String → String → String
  /-- Result of `os.Getwd()`. -/
  Getwd : Except String String
  /-- Error of `os.Mkdir(path, 0755)`, if any. -/
  Mkdir : String → Option String
  /-- What `os.Lstat` and `filepath.Walk` find at a path. -/
  Lstat : String → Except String FsNode

/-! ## The Bubble Tea model methods -/

/-- The model literal of `initialModel` for the loaded template names. -/
def newModel (templates : List String) : model :=
  { stage := stageSelectTemplate
    templates := templates
    cursor := 0
    searchMode := false
    searchQuery := ""
    searchResults := []
    searchCursor := 0
    inputBuffer := ""
    projectName := ""
    ops := []
    currentOpIndex := 0
    currentLog := ""
    spinner := 0
    sourceDir := ""
    destDir := ""
    treeDepth := -1
    blink := true
    showHelp := false
    err := none }

/-- The function `initialModel`: `loaded` is the result of `loadTemplates(templateDir)`;
`none` is the exit with status 1 on an error or an empty list. -/
def initialModel (loaded : Except String (List String)) : Option model :=
  match loaded with
  | .error _ => none
  | .ok templates => if templates.length = 0 then none else some (newModel templates)

/-- The method `Init`: starts the blink ticker. -/
def Init (_m : model) : Cmd := Cmd.blinkTick

/-- The loop `for i, tmpl := range m.templates` of the search-mode Enter case: the index of
the first template equal to the selection, counted from `i`. -/
def findSelection (selection : String) : List String → Int → Option Int
  | [], _ => none
  | tmpl :: rest, i => if tmpl = selection then some i else findSelection selection rest (i + 1)

/-- The end of `Update`: quit in the Done stage, else the batch of the collected commands. -/
def finish (m : model) (cmds : List Cmd) : Option (model × List Cmd) :=
  if m.stage = stageDone then some (m, [Cmd.Quit]) else some (m, cmds)

/-- Key handling in search mode (`m.stage == stageSelectTemplate && m.searchMode`). -/
def updateSearch (env : Env) (m : model) (msg : KeyMsg) : Option (model × List Cmd) :=
  match msg.type with
  | .KeyEsc =>
    some ({ m with searchMode := false, searchQuery := "", searchResults := [],
                   searchCursor := 0 }, [])
  | .KeyEnter =>
    if m.searchResults.length > 0 then
      match index m.searchResults m.searchCursor with
      | none => none
      | some selection =>
        let m1 : model :=
          match findSelection selection m.templates 0 with
          | some i => { m with cursor := i }
          | none => m
        some ({ m1 with sourceDir := env.Join templateDir selection, stage := stageProjectName,
                        searchMode := false, searchQuery := "", searchResults := [],
                        searchCursor := 0 }, [])
    else
      some ({ m with searchMode := false, searchQuery := "", searchResults := [],
                     searchCursor := 0 }, [])
  | .KeyBackspace =>
    let m1 : model :=
      if m.searchQuery ≠ "" then
        { m with searchQuery := dropLast env.cutLastByte m.searchQuery }
      else m
    let m2 : model :=
      { m1 with searchResults := FilterTemplates env.ToLower m1.templates m1.searchQuery }
    if m2.searchCursor ≥ (m2.searchResults.length : Int) ∧ m2.searchResults.length > 0 then
      some ({ m2 with searchCursor := (m2.searchResults.length : Int) - 1 }, [])
    else
      some (m2, [])
  | .KeyUp | .KeyShiftUp =>
    if m.searchCursor > 0 then some ({ m with searchCursor := m.searchCursor - 1 }, [])
    else some (m, [])
  | .KeyDown | .KeyShiftDown =>
    if m.searchCursor < (m.searchResults.length : Int) - 1 then
      some ({ m with searchCursor := m.searchCursor + 1 }, [])
    else some (m, [])
  | _ =>
    let m1 : model := { m with searchQuery := m.searchQuery ++ msg.String }
    some ({ m1 with searchResults := FilterTemplates env.ToLower m1.templates m1.searchQuery,
                    searchCursor := 0 }, [])

/-- Key handling in the template selection stage outside search mode. -/
def updateBrowse (env : Env) (m : model) (msg : KeyMsg) : Option (model × List Cmd) :=
  let s := msg.String
  if s = "/" then
    finish { m with searchMode := true, searchQuery := "", searchResults := m.templates,
                    searchCursor := 0 } []
  else if s = "up" ∨ s = "k" then
    if m.cursor > 0 then finish { m with cursor := m.cursor - 1 } [] else finish m []
  else if s = "down" ∨ s = "j" then
    if m.cursor < (m.templates.length : Int) - 1 then finish { m with cursor := m.cursor + 1 } []
    else finish m []
  else if s = "enter" then
    match index m.templates m.cursor with
    | none => none
    | some selectedTemplate =>
      finish { m with sourceDir := env.Join templateDir selectedTemplate,
                      stage := stageProjectName } []
  else if s = "q" then
    some (m, [Cmd.Quit])
  else
    finish m []

/-- Key handling in the project name stage. -/
def updateName (env : Env) (m0 : model) (msg : KeyMsg) : Option (model × List Cmd) :=
  match msg.type with
  | .KeyEnter =>
    let m : model := { m0 with projectName := TrimSpace m0.inputBuffer }
    if m.projectName = "" then
      some (m, [])
    else
      match env.Getwd with
      | .error e => some ({ m with err := some ("Error getting CWD: " ++ e) }, [Cmd.Quit])
      | .ok cwd =>
        let m1 : model := { m with destDir := env.Join cwd m.projectName }
        match env.Mkdir m1.destDir with
        | some e =>
          some ({ m1 with err := some ("Error creating project directory: " ++ e) }, [Cmd.Quit])
        | none =>
          match buildOps (env.Lstat m1.sourceDir) with
          | (_, some e) =>
            some ({ m1 with err := some ("Error building copy operations: " ++ e) }, [Cmd.Quit])
          | (ops, none) =>
            let m2 : model :=
              { m1 with ops := ops, currentOpIndex := 0, currentLog := "", stage := stageCopying }
            finish m2 [Cmd.nextOpCmd m2, Cmd.spinnerTick]
  | .KeyBackspace =>
    if m0.inputBuffer ≠ "" then
      finish { m0 with inputBuffer := dropLast env.cutLastByte m0.inputBuffer } []
    else finish m0 []
  | _ => finish { m0 with inputBuffer := m0.inputBuffer ++ msg.String } []

/-- The status line for a processed operation, before the error annotation. -/
def opLog (o : op) : String :=
  if o.opType = "mkdir" then "Created directory: " ++ pathString o.relPath
  else "Copied file: " ++ pathString o.relPath

/-- The error annotation appended to the status line of a failed step. -/
def errLog (e : String) : String := " [Error: " ++ e ++ "]"

/-- The status line after a step: the step's description, followed by the error annotation
when the step failed. -/
def statusLine (o : op) (err : Option String) : String :=
  match err with
  | some e => opLog o ++ errLog e
  | none => opLog o

/-- The method `Update`. `none` is a panic (index out of range). -/
def Update (env : Env) (m : model) (msg : Msg) : Option (model × List Cmd) :=
  match msg with
  | .KeyMsg k =>
    if k.String = "ctrl+c" then some (m, [Cmd.Quit])
    else if k.String = "?" then some ({ m with showHelp := !m.showHelp }, [])
    else if m.stage = stageSelectTemplate ∧ m.searchMode = true then updateSearch env m k
    else if m.stage = stageSelectTemplate then updateBrowse env m k
    else if m.stage = stageProjectName then updateName env m k
    else finish m []
  | .blinkMsg => finish { m with blink := !m.blink } [Cmd.blinkTick]
  | .spinnerTickMsg => finish { m with spinner := (m.spinner + 1) % 7 } [Cmd.spinnerTick]
  | .opProcessedMsg o err =>
    let m1 : model := { m with currentLog := opLog o }
    let m2 : model :=
      match err with
      | some e => { m1 with currentLog := m1.currentLog ++ errLog e }
      | none => m1
    let m3 : model := { m2 with currentOpIndex := m2.currentOpIndex + 1 }
    if m3.currentOpIndex < (m3.ops.length : Int) then finish m3 [Cmd.nextOpCmd m3]
    else finish m3 [Cmd.copyFinished]
  | .copyFinishedMsg =>
    finish { m with currentLog := "Project " ++ "\"" ++ m.projectName ++ "\""
                                    ++ " created successfully!",
                    stage := stageDone } []
  | .otherMsg => finish m []

/-- The message a command delivers when it runs. For `nextOpCmd(m)`: `copyFinishedMsg` when
the captured index is past the plan, else `opProcessedMsg` with the operation at that index and
the error `stepErr` of executing it. -/
def runCmd (stepErr : Option String) : Cmd → Option Msg
  | .Quit => none
  | .blinkTick => some Msg.blinkMsg
  | .spinnerTick => some Msg.spinnerTickMsg
  | .copyFinished => some Msg.copyFinishedMsg
  | .nextOpCmd m =>
    if m.currentOpIndex ≥ (m.ops.length : Int) then some Msg.copyFinishedMsg
    else
      match index m.ops m.currentOpIndex with
      | none => none
      | some currentOp => some (Msg.opProcessedMsg currentOp stepErr)

/-- Feeding `Update` a sequence of messages one after the other (the returned commands are
not run); `none` when one of the calls panics. -/
def runMsgs (env : Env) : model → List Msg → Option model
  | m, [] => some m
  | m, msg :: rest =>
    match Update env m msg with
    | none => none
    | some (m', _) => runMsgs env m' rest

/-- Feeding `Update` a sequence of events, each with the environment it meets; `none` when
one of the calls panics. -/
def runEvents : model → List (Env × Msg) → Option model
  | m, [] => some m
  | m, (env, msg) :: rest =>
    match Update env m msg with
    | none => none
    | some (m', _) => runEvents m' rest

/-! ## The method `View` -/

/-- What `View` renders, without the styling: the error text, or at the selection stage the
rows of the left panel (each with whether it is highlighted), the search prompt in search mode,
the instructions and the tree of the highlighted template, or the text of the other stages. -/
inductive Screen where
  | error (text : String)
  | select (search : Option String) (rows : List (Bool × String)) (instructions : String)
      (selectedTemplate : String) (rightContent : String)
  | body (text : String)

/-- The instructions shown in search mode. -/
def searchInstructions : String :=
  " Navigate : ↑/↓ or j/k\n Select   : Enter\n ESC      : Cancel Search\n Exit     : ctrl+c"

/-- The instructions shown below the left panel. -/
def viewInstructions (m : model) : String :=
  if m.searchMode then searchInstructions
  else if m.showHelp then
    "Navigate: ↑/↓ or j/k\n" ++ "Select  : Enter\n" ++ "Search  : /\n" ++ "Help    : ?\n"
      ++ "Exit    : ctrl+c"
  else "/ find • q quit • ? help"

/-- The loop `for i, tmpl := range m.searchResults` of the search panel: the suggestions, the
one at `searchCursor` highlighted. -/
def searchRows (searchCursor : Int) : Int → List String → List (Bool × String)
  | _, [] => []
  | i, tmpl :: rest => (decide (searchCursor = i), tmpl) :: searchRows searchCursor (i + 1) rest

/-- The loop `for i := start; i < end; i++` of the normal list view, with `n` iterations left:
`m.templates[i]` is indexed, `none` is the panic. -/
def browseRows (m : model) : Int → Nat → Option (List (Bool × String))
  | _, 0 => some []
  | i, n + 1 =>
    match index m.templates i with
    | none => none
    | some tmpl =>
      match browseRows m (i + 1) n with
      | none => none
      | some rows => some ((decide (m.cursor = i), tmpl) :: rows)

/-- The bounds `start` and `end` of the visible window of the normal list view. -/
def viewWindow (m : model) : Int × Int :=
  let visibleLines : Int := 7
  let start0 := m.cursor - visibleLines / 2
  let start1 := if start0 < 0 then 0 else start0
  let end1 := start1 + visibleLines
  if end1 > (m.templates.length : Int) then
    (max 0 ((m.templates.length : Int) - visibleLines), (m.templates.length : Int))
  else (start1, end1)

/-- The highlighted template of which `View` shows the tree: `m.searchResults[m.searchCursor]`
in search mode with results, else `m.templates[m.cursor]`; `none` is the panic. -/
def viewSelected (m : model) : Option String :=
  if m.searchMode = true ∧ m.searchResults.length > 0 then index m.searchResults m.searchCursor
  else index m.templates m.cursor

/-- The frames of the `Jump` spinner. -/
def spinnerJump : List String := ["⢄", "⢂", "⢁", "⡁", "⡈", "⡐", "⡠"]

/-- The method `View`; `none` is a panic (index out of range). -/
def View (st : TreeStyle) (env : Env) (m : model) : Option Screen :=
  match m.err with
  | some e => some (Screen.error ("Error: " ++ e))
  | none =>
    if m.stage = stageSelectTemplate then
      let left : Option (Option String × List (Bool × String)) :=
        if m.searchMode then
          some (some ("Search: " ++ m.searchQuery ++ (if m.blink then "|" else "")),
                searchRows m.searchCursor 0 m.searchResults)
        else
          match browseRows m (viewWindow m).1 ((viewWindow m).2 - (viewWindow m).1).toNat with
          | none => none
          | some rows => some (none, rows)
      match left with
      | none => none
      | some (search, rows) =>
        match viewSelected m with
        | none => none
        | some selectedTemplate =>
          some (Screen.select search rows (viewInstructions m) selectedTemplate
            (GetFileTree st env.ToLower (env.Lstat (env.Join templateDir selectedTemplate))
              m.treeDepth))
    else if m.stage = stageProjectName then
      some (Screen.body ("Enter project name: " ++ m.inputBuffer ++ (if m.blink then "|" else "")
        ++ "\n\nPress Ctrl+C to exit at any point."))
    else if m.stage = stageCopying then
      some (Screen.body (spinnerJump.getD m.spinner "" ++ " " ++ m.currentLog
        ++ "\n\nPress Ctrl+C to exit at any point."))
    else if m.stage = stageDone then
      some (Screen.body "Done")
    else some (Screen.body "")

/-- The cursors are inside their lists: the browse cursor inside the template list and, in
search mode, the search cursor at least 0 and inside the result list when there is a result. -/
def cursorsInRange (m : model) : Prop :=
  (0 ≤ m.cursor ∧ m.cursor < (m.templates.length : Int))
    ∧ (m.searchMode = true →
        0 ≤ m.searchCursor
          ∧ (m.searchResults ≠ [] → m.searchCursor < (m.searchResults.length : Int)))

/-! ## The event loop as a step relation -/

/-- Whether a command is a `nextOpCmd`, a copy step. -/
def Cmd.isNextOp : Cmd → Bool
  | .nextOpCmd _ => true
  | _ => false

/-- The number of copy steps among the commands. -/
def inFlight (cmds : List Cmd) : Nat :=
  cmds.countP Cmd.isNextOp

/-- The state of the running program: the model, and the commands that have been dispatched
and whose message has not been handled yet. -/
structure Sys where
  m : model
  pending : List Cmd

/-- One event of the program: a key press, a blink or spinner tick, or the delivery of the
message of a pending command (for a copy step, with any outcome `stepErr`). The commands that
`Update` returns become pending. -/
inductive Step : Sys → Sys → Prop where
  | key (env : Env) (s : Sys) (k : KeyMsg) (m' : model) (cmds : List Cmd) :
      Update env s.m (Msg.KeyMsg k) = some (m', cmds) →
      Step s { m := m', pending := s.pending ++ cmds }
  | blink (env : Env) (s : Sys) (m' : model) (cmds : List Cmd) :
      Update env s.m Msg.blinkMsg = some (m', cmds) →
      Step s { m := m', pending := s.pending ++ cmds }
  | spinner (env : Env) (s : Sys) (m' : model) (cmds : List Cmd) :
      Update env s.m Msg.spinnerTickMsg = some (m', cmds) →
      Step s { m := m', pending := s.pending ++ cmds }
  | deliver (env : Env) (s : Sys) (before after : List Cmd) (c : Cmd)
      (stepErr : Option String) (msg : Msg) (m' : model) (cmds : List Cmd) :
      s.pending = before ++ c :: after →
      runCmd stepErr c = some msg →
      Update env s.m msg = some (m', cmds) →
      Step s { m := m', pending := before ++ after ++ cmds }

/-- The states the program can reach from `init`. -/
inductive Reachable (init : Sys) : Sys → Prop where
  | start : Reachable init init
  | step (s s' : Sys) : Reachable init s → Step s s' → Reachable init s'

/-- The state in which `main` starts the program: the initial model with the tree depth of
the flags, and the command of `Init` pending. -/
def startSys (m : model) (depth : Int) : Sys :=
  { m := { m with treeDepth := depth }, pending := [Init { m with treeDepth := depth }] }

/-! ## Example inputs -/

/-- An environment for examples: ASCII lower-casing, the replacement character U+FFFD for a
character that lost its last byte, joining with a slash, a working directory, a `Mkdir` that
succeeds and a source tree with `src/main.txt` and `README.md`. -/
def exEnv : Env :=
  { ToLower := ToLowerASCII
    cutLastByte := fun s => ⟨s.data.dropLast ++ [Char.ofNat 0xFFFD]⟩
    Join := fun a b => a ++ "/" ++ b
    Getwd := .ok "/home/u"
    Mkdir := fun _ => none
    Lstat := fun _ =>
      .ok (.dir true [("src", .dir true [("main.txt", .file true [104, 105])]),
                      ("README.md", .file true [35])]) }

/-- The Enter key. -/
def keyEnter : KeyMsg := { type := .KeyEnter, Runes := [], Alt := false, Paste := false }

/-- The up arrow key. -/
def keyUp : KeyMsg := { type := .KeyUp, Runes := [], Alt := false, Paste := false }

/-- The down arrow key. -/
def keyDown : KeyMsg := { type := .KeyDown, Runes := [], Alt := false, Paste := false }

/-- The key of a typed character. -/
def keyRune (c : Char) : KeyMsg := { type := .KeyRunes, Runes := [c], Alt := false, Paste := false }

/-- A model in the project name stage whose input buffer is blank. -/
def exBlankName : model :=
  { newModel ["api", "web-app", "worker"] with stage := stageProjectName, inputBuffer := "  \t" }

/-- A model in search mode after typing `zz`: nothing matches. -/
def exNoResults : model :=
  { newModel ["api", "web-app", "worker"] with searchMode := true, searchQuery := "zz" }

/-- A model in search mode after typing `w`: two results, the second one highlighted. -/
def exTwoResults : model :=
  { newModel ["api", "web-app", "worker"] with
      searchMode := true, searchQuery := "w", searchResults := ["web-app", "worker"],
      searchCursor := 1 }

/-- A model in the project name stage with the name `demo` typed and the template `api`
chosen. -/
def exNamed : model :=
  { newModel ["api", "web-app", "worker"] with
      stage := stageProjectName, inputBuffer := "demo",
      sourceDir := "/Users/ayushkumar/programming/templates/api" }

/-- The plan of the example source tree. -/
def exOps : List op :=
  [{ opType := "mkdir", relPath := ["src"] },
   { opType := "copy", relPath := ["src", "main.txt"] },
   { opType := "copy", relPath := ["README.md"] }]

/-- The model after confirming the name `demo`. -/
def exCopying : model :=
  { exNamed with
      projectName := "demo", destDir := "/home/u/demo", ops := exOps, currentOpIndex := 0,
      currentLog := "", stage := stageCopying }

/-- The source tree of the scenario: `src/main.txt` and `README.md`. -/
def exTree : FsNode :=
  .dir true [("src", .dir true [("main.txt", .file true [104, 105])]),
             ("README.md", .file true [35])]

/-- A file system with the scenario's template at `tpl` and an empty project directory at
`out`. -/
def exWorld : FsNode :=
  .dir true [("tpl", exTree), ("out", .dir true [])]

/-- A template that holds one file, which cannot be opened for reading. -/
def exTreeUnreadable : FsNode :=
  .dir true [("secret", .file false [1])]

/-- A file system with that template at `tpl` and an empty project directory at `out`. -/
def exWorldUnreadable : FsNode :=
  .dir true [("tpl", exTreeUnreadable), ("out", .dir true [])]

/-- A template in which the empty project directory `demo` has been made. -/
def exTreeInside : FsNode :=
  .dir true [("demo", .dir true [])]

/-- A file system with that template at `tpl`; the project directory is `tpl/demo`. -/
def exWorldInside : FsNode :=
  .dir true [("tpl", exTreeInside)]

/-- The key of the letter `j`. -/
def keyJ : KeyMsg := keyRune 'j'

/-- The key of the letter `k`. -/
def keyK : KeyMsg := keyRune 'k'

/-- A model in search mode after typing `w`: two results, the first one highlighted. -/
def exSearchW : model :=
  { newModel ["api", "web-app", "worker"] with
      searchMode := true, searchQuery := "w", searchResults := ["web-app", "worker"],
      searchCursor := 0 }

/-- A plain rendering of the tree: names as they are. -/
def exStyle : TreeStyle :=
  { dirName := fun n => " " ++ n, fileName := fun n => n, emptyMsg := "EMPTY" }

/-! ## Lemmas on `FilterTemplates` -/

theorem filterLoop_eq (ToLower : String → String) (lq : String) (xs : List String) :
    ∀ acc : List String,
      filterLoop ToLower lq acc xs = acc ++ xs.filter (fun t => Contains (ToLower t) lq) := by
  induction xs with
  | nil => intro acc; simp [filterLoop]
  | cons x rest ih =>
    intro acc
    by_cases h : Contains (ToLower x) lq = true
    · simp [filterLoop, h, ih]
    · simp [filterLoop, h, ih]

theorem FilterTemplates_of_ne (ToLower : String → String) (templates : List String)
    (query : String) (hq : query ≠ "") :
    FilterTemplates ToLower templates query
      = templates.filter (fun t => Contains (ToLower t) (ToLower query)) := by
  simp [FilterTemplates, hq, filterLoop_eq]

theorem FilterTemplates_empty (ToLower : String → String) (templates : List String) :
    FilterTemplates ToLower templates "" = templates := by
  simp [FilterTemplates]

theorem FilterTemplates_sublist (ToLower : String → String) (templates : List String)
    (query : String) : (FilterTemplates ToLower templates query).Sublist templates := by
  by_cases hq : query = ""
  · subst hq; rw [FilterTemplates_empty]
  · rw [FilterTemplates_of_ne _ _ _ hq]; exact List.filter_sublist _

theorem count_filter_pred (p : String → Bool) (t : String) (xs : List String) :
    (xs.filter p).count t = if p t = true then xs.count t else 0 := by
  induction xs with
  | nil => simp
  | cons x rest ih =>
    by_cases hx : p x = true
    · rw [List.filter_cons_of_pos hx, List.count_cons, List.count_cons, ih]
      by_cases hxt : x = t
      · subst hxt; simp [hx]
      · by_cases ht : p t = true <;> simp [hxt, ht]
    · rw [List.filter_cons_of_neg hx, List.count_cons, ih]
      by_cases hxt : x = t
      · subst hxt; simp [hx]
      · by_cases ht : p t = true <;> simp [hxt, ht]

/-! ## Claims C1, C2 -/

/-- C1: for every template list and every query, the result of `FilterTemplates` is a
subsequence of the list in the original relative order, and for the empty query it is the
list itself. -/
theorem C1_filter_subsequence_identity (ToLower : String → String) (templates : List String)
    (query : String) :
    (FilterTemplates ToLower templates query).Sublist templates
      ∧ FilterTemplates ToLower templates "" = templates :=
  ⟨FilterTemplates_sublist ToLower templates query, FilterTemplates_empty ToLower templates⟩

/-- C2: for a non-empty query the result is the input list restricted to the names whose
lower-cased form contains the lower-cased query: a name is in the result exactly when it is in
the list and matches, each matching occurrence is kept once (same multiplicity), the order is
that of the list; and the catalog `api, web-app, worker` filtered by `wo` is `worker`. -/
theorem C2_filter_exact (ToLower : String → String) (templates : List String) (query : String)
    (hq : query ≠ "") :
    FilterTemplates ToLower templates query
        = templates.filter (fun t => Contains (ToLower t) (ToLower query))
      ∧ (∀ t, t ∈ FilterTemplates ToLower templates query
            ↔ t ∈ templates ∧ Contains (ToLower t) (ToLower query) = true)
      ∧ (∀ t, (FilterTemplates ToLower templates query).count t
            = if Contains (ToLower t) (ToLower query) = true then templates.count t else 0)
      ∧ (FilterTemplates ToLower templates query).Sublist templates
      ∧ FilterTemplates ToLowerASCII ["api", "web-app", "worker"] "wo" = ["worker"] := by
  refine ⟨FilterTemplates_of_ne _ _ _ hq, ?_, ?_, FilterTemplates_sublist _ _ _, ?_⟩
  · intro t
    rw [FilterTemplates_of_ne _ _ _ hq]
    simp
  · intro t
    rw [FilterTemplates_of_ne _ _ _ hq]
    exact count_filter_pred _ t templates
  · decide

/-- C2 at the catalog of the scenario and the query `wo`. -/
theorem C2_filter_exact_witness :
    FilterTemplates ToLowerASCII ["api", "web-app", "worker"] "wo"
      = ["api", "web-app", "worker"].filter
          (fun t => Contains (ToLowerASCII t) (ToLowerASCII "wo")) :=
  (C2_filter_exact ToLowerASCII ["api", "web-app", "worker"] "wo" (by decide)).1

/-! ## Keys -/

theorem enter_String (k : KeyMsg) (h : k.type = KeyType.KeyEnter) :
    k.String = (if k.Alt then "alt+enter" else "enter") := by
  obtain ⟨t, r, a, p⟩ := k
  simp at h; subst h
  cases a <;> simp [KeyMsg.String, keyNames]

theorem enter_not_global (k : KeyMsg) (h : k.type = KeyType.KeyEnter) :
    k.String ≠ "ctrl+c" ∧ k.String ≠ "?" := by
  rw [enter_String k h]
  cases k.Alt <;> simp

theorem TrimSpace_blank (s : String) (h : ∀ c ∈ s.data, isSpace c = true) :
    TrimSpace s = "" := by
  unfold TrimSpace
  have h1 : s.data.dropWhile isSpace = [] := List.dropWhile_eq_nil_iff.mpr h
  rw [h1]; rfl

theorem stage_consts :
    stageProjectName ≠ stageSelectTemplate ∧ stageCopying ≠ stageSelectTemplate
      ∧ stageDone ≠ stageSelectTemplate ∧ stageCopying ≠ stageProjectName
      ∧ stageDone ≠ stageProjectName ∧ stageDone ≠ stageCopying := by
  decide

/-- Update on a key that is neither ctrl+c nor the help key, in the project name stage. -/
theorem Update_name (env : Env) (m : model) (k : KeyMsg) (hstage : m.stage = stageProjectName)
    (h1 : k.String ≠ "ctrl+c") (h2 : k.String ≠ "?") :
    Update env m (Msg.KeyMsg k) = updateName env m k := by
  simp [Update, h1, h2, hstage, stage_consts.1]

/-- Update on a key that is neither ctrl+c nor the help key, in search mode. -/
theorem Update_search (env : Env) (m : model) (k : KeyMsg)
    (hstage : m.stage = stageSelectTemplate) (hmode : m.searchMode = true)
    (h1 : k.String ≠ "ctrl+c") (h2 : k.String ≠ "?") :
    Update env m (Msg.KeyMsg k) = updateSearch env m k := by
  simp [Update, h1, h2, hstage, hmode]

/-- Update on a key that is neither ctrl+c nor the help key, in browse mode. -/
theorem Update_browse (env : Env) (m : model) (k : KeyMsg)
    (hstage : m.stage = stageSelectTemplate) (hmode : m.searchMode = false)
    (h1 : k.String ≠ "ctrl+c") (h2 : k.String ≠ "?") :
    Update env m (Msg.KeyMsg k) = updateBrowse env m k := by
  simp [Update, h1, h2, hstage, hmode]

/-! ## Claim C6 -/

/-- C6: in the project name stage with an input buffer that is empty or only white space, the
Enter key leaves the stage at `stageProjectName`, leaves `inputBuffer`, `destDir` and `ops` as
they were (only `projectName` is set to the empty trimmed name), and returns no command; the
result does not depend on the environment, so no directory is made and no plan is built. -/
theorem C6_blank_name_enter_noop (env : Env) (m : model) (k : KeyMsg)
    (hstage : m.stage = stageProjectName) (hk : k.type = KeyType.KeyEnter)
    (hblank : ∀ c ∈ m.inputBuffer.data, isSpace c = true) :
    Update env m (Msg.KeyMsg k) = some ({ m with projectName := "" }, [])
      ∧ (∀ m' cmds, Update env m (Msg.KeyMsg k) = some (m', cmds) →
          m'.stage = stageProjectName ∧ m'.inputBuffer = m.inputBuffer
            ∧ m'.destDir = m.destDir ∧ m'.ops = m.ops ∧ cmds = [])
      ∧ (∀ env', Update env' m (Msg.KeyMsg k) = Update env m (Msg.KeyMsg k)) := by
  have hU : ∀ e : Env, Update e m (Msg.KeyMsg k) = some ({ m with projectName := "" }, []) := by
    intro e
    rw [Update_name e m k hstage (enter_not_global k hk).1 (enter_not_global k hk).2]
    simp [updateName, hk, TrimSpace_blank _ hblank]
  refine ⟨hU env, ?_, ?_⟩
  · intro m' cmds h
    rw [hU env] at h
    simp at h
    obtain ⟨h1, h2⟩ := h
    subst h1; subst h2
    simp [hstage]
  · intro env'; rw [hU env, hU env']

/-- C6 at a concrete input: the buffer of two spaces and a tab, and the Enter key. -/
theorem C6_blank_name_enter_noop_witness :
    Update exEnv exBlankName (Msg.KeyMsg keyEnter)
      = some ({ exBlankName with projectName := "" }, []) :=
  (C6_blank_name_enter_noop exEnv exBlankName keyEnter (by decide) (by decide) (by decide)).1

/-! ## Claim C8 -/

/-- C8 fails as stated: in search mode with the query `zz` and no result, the Enter key
leaves search mode and clears the query. -/
theorem C8_counterexample :
    exNoResults.stage = stageSelectTemplate ∧ exNoResults.searchMode = true
      ∧ exNoResults.searchResults = [] ∧ exNoResults.searchQuery = "zz"
      ∧ Update exEnv exNoResults (Msg.KeyMsg keyEnter)
          = some ({ exNoResults with searchMode := false, searchQuery := "" }, [])
      ∧ ¬ ∃ m' cmds, Update exEnv exNoResults (Msg.KeyMsg keyEnter) = some (m', cmds)
            ∧ m'.searchMode = true ∧ m'.searchQuery = exNoResults.searchQuery := by
  have h : Update exEnv exNoResults (Msg.KeyMsg keyEnter)
      = some ({ exNoResults with searchMode := false, searchQuery := "" }, []) := by decide
  refine ⟨by decide, by decide, by decide, by decide, h, ?_⟩
  rintro ⟨m', cmds, hU, hmode, -⟩
  rw [h] at hU
  simp at hU
  rw [← hU.1] at hmode
  simp at hmode

/-- C8 as amended: in the selection stage in search mode with no result, the Enter key keeps
the stage at `stageSelectTemplate` and returns no command, and it leaves search mode:
`searchMode` becomes false, `searchQuery` empty, `searchResults` empty and `searchCursor` 0;
every other field of the model (the browse cursor among them) is unchanged. -/
theorem C8_enter_without_results (env : Env) (m : model) (k : KeyMsg)
    (hstage : m.stage = stageSelectTemplate) (hmode : m.searchMode = true)
    (hres : m.searchResults = []) (hk : k.type = KeyType.KeyEnter) :
    Update env m (Msg.KeyMsg k)
        = some ({ m with searchMode := false, searchQuery := "", searchResults := [],
                         searchCursor := 0 }, [])
      ∧ (∀ m' cmds, Update env m (Msg.KeyMsg k) = some (m', cmds) →
          m'.stage = stageSelectTemplate ∧ m'.searchMode = false ∧ m'.searchQuery = ""
            ∧ m'.searchResults = [] ∧ m'.searchCursor = 0 ∧ m'.cursor = m.cursor
            ∧ m'.templates = m.templates ∧ cmds = []) := by
  have hU : Update env m (Msg.KeyMsg k)
      = some ({ m with searchMode := false, searchQuery := "", searchResults := [],
                       searchCursor := 0 }, []) := by
    rw [Update_search env m k hstage hmode (enter_not_global k hk).1 (enter_not_global k hk).2]
    simp [updateSearch, hk, hres]
  refine ⟨hU, ?_⟩
  intro m' cmds h
  rw [hU] at h
  simp at h
  obtain ⟨h1, h2⟩ := h
  subst h1; subst h2
  simp [hstage]

/-- C8 as amended, at the model with the query `zz`. -/
theorem C8_enter_without_results_witness :
    Update exEnv exNoResults (Msg.KeyMsg keyEnter)
      = some ({ exNoResults with searchMode := false, searchQuery := "", searchResults := [],
                                 searchCursor := 0 }, []) :=
  (C8_enter_without_results exEnv exNoResults keyEnter (by decide) (by decide) (by decide)
    (by decide)).1

/-! ## Claim C10 -/

theorem index_of_bounds {α : Type} (xs : List α) (i : Int) (h0 : 0 ≤ i)
    (h1 : i < (xs.length : Int)) : ∃ x, index xs i = some x ∧ xs.get? i.toNat = some x := by
  have hlt : i.toNat < xs.length := by omega
  refine ⟨xs.get ⟨i.toNat, hlt⟩, ?_, List.get?_eq_get hlt⟩
  unfold index
  rw [if_neg (by omega)]
  exact List.get?_eq_get hlt

/-- C10: in the selection stage with a cursor inside the template list, the Enter key in
browse mode sets the stage to `stageProjectName` and `sourceDir` to the template folder joined
with `templates[cursor]`; with a search cursor inside the result list, the Enter key in search
mode sets the stage to `stageProjectName` and `sourceDir` to the template folder joined with
`searchResults[searchCursor]`, and clears `searchMode`, `searchQuery`, `searchResults` and
`searchCursor`. -/
theorem C10_enter_selects_template (env : Env) (m : model) (k : KeyMsg)
    (hstage : m.stage = stageSelectTemplate) (hk : k.type = KeyType.KeyEnter) :
    (m.searchMode = false → k.Alt = false → 0 ≤ m.cursor → m.cursor < (m.templates.length : Int) →
        ∃ t, m.templates.get? m.cursor.toNat = some t
          ∧ Update env m (Msg.KeyMsg k)
              = some ({ m with sourceDir := env.Join templateDir t,
                               stage := stageProjectName }, []))
      ∧ (m.searchMode = true → 0 ≤ m.searchCursor
          → m.searchCursor < (m.searchResults.length : Int) →
        ∃ sel m', m.searchResults.get? m.searchCursor.toNat = some sel
          ∧ Update env m (Msg.KeyMsg k) = some (m', [])
          ∧ m'.stage = stageProjectName ∧ m'.sourceDir = env.Join templateDir sel
          ∧ m'.searchMode = false ∧ m'.searchQuery = "" ∧ m'.searchResults = []
          ∧ m'.searchCursor = 0) := by
  have hg := enter_not_global k hk
  constructor
  · intro hmode halt h0 h1
    obtain ⟨t, hidx, hget⟩ := index_of_bounds m.templates m.cursor h0 h1
    refine ⟨t, hget, ?_⟩
    rw [Update_browse env m k hstage hmode hg.1 hg.2]
    have hs : k.String = "enter" := by rw [enter_String k hk, halt]; rfl
    simp [updateBrowse, hs, hidx, finish, stage_consts]
    decide
  · intro hmode h0 h1
    obtain ⟨sel, hidx, hget⟩ := index_of_bounds m.searchResults m.searchCursor h0 h1
    have hpos : m.searchResults.length > 0 := by omega
    rw [Update_search env m k hstage hmode hg.1 hg.2]
    have hU : updateSearch env m k
        = some ({ (match findSelection sel m.templates 0 with
                    | some i => { m with cursor := i }
                    | none => m) with
                  sourceDir := env.Join templateDir sel, stage := stageProjectName,
                  searchMode := false, searchQuery := "", searchResults := [],
                  searchCursor := 0 }, []) := by
      simp only [updateSearch, hk, hpos, if_true, hidx]
    exact ⟨sel, _, hget, hU, rfl, rfl, rfl, rfl, rfl, rfl⟩

/-- C10 at concrete inputs: Enter in browse mode on the first template, and Enter in search
mode on the second of two results. -/
theorem C10_enter_selects_template_witness :
    (∃ t, (newModel ["api", "web-app", "worker"]).templates.get?
              (newModel ["api", "web-app", "worker"]).cursor.toNat = some t
        ∧ Update exEnv (newModel ["api", "web-app", "worker"]) (Msg.KeyMsg keyEnter)
            = some ({ newModel ["api", "web-app", "worker"] with
                        sourceDir := exEnv.Join templateDir t,
                        stage := stageProjectName }, []))
      ∧ ∃ sel m', exTwoResults.searchResults.get? exTwoResults.searchCursor.toNat = some sel
          ∧ Update exEnv exTwoResults (Msg.KeyMsg keyEnter) = some (m', [])
          ∧ m'.stage = stageProjectName ∧ m'.sourceDir = exEnv.Join templateDir sel
          ∧ m'.searchMode = false ∧ m'.searchQuery = "" ∧ m'.searchResults = []
          ∧ m'.searchCursor = 0 :=
  ⟨(C10_enter_selects_template exEnv (newModel ["api", "web-app", "worker"]) keyEnter
      (by decide) (by decide)).1 (by decide) (by decide) (by decide) (by decide),
   (C10_enter_selects_template exEnv exTwoResults keyEnter (by decide) (by decide)).2
      (by decide) (by decide) (by decide)⟩

/-! ## Claim C5 -/

theorem updown_not_global (k : KeyMsg)
    (hk : k.type = KeyType.KeyUp ∨ k.type = KeyType.KeyDown) :
    k.String ≠ "ctrl+c" ∧ k.String ≠ "?" := by
  obtain ⟨t, r, a, p⟩ := k
  simp at hk
  rcases hk with rfl | rfl <;> cases a <;> simp [KeyMsg.String, keyNames]

/-- One up/down key in browse mode: only the cursor may change, and it stays in range. -/
theorem browse_updown_step (env : Env) (m : model) (k : KeyMsg)
    (hstage : m.stage = stageSelectTemplate) (hmode : m.searchMode = false)
    (hk : k.type = KeyType.KeyUp ∨ k.type = KeyType.KeyDown)
    (h0 : 0 ≤ m.cursor) (h1 : 0 < m.templates.length → m.cursor ≤ (m.templates.length : Int) - 1)
    (h2 : m.templates.length = 0 → m.cursor = 0) :
    ∃ c, Update env m (Msg.KeyMsg k) = some ({ m with cursor := c }, [])
      ∧ 0 ≤ c ∧ (0 < m.templates.length → c ≤ (m.templates.length : Int) - 1)
      ∧ (m.templates.length = 0 → c = 0) := by
  have hg := updown_not_global k hk
  rw [Update_browse env m k hstage hmode hg.1 hg.2]
  have hfin : ∀ c : Int, finish { m with cursor := c } [] = some ({ m with cursor := c }, []) := by
    intro c; simp [finish, hstage]; decide
  have hfin0 : finish m [] = some ({ m with cursor := m.cursor }, []) := hfin m.cursor
  obtain ⟨t, r, a, p⟩ := k
  simp at hk
  rcases hk with rfl | rfl <;> cases a
  · simp only [updateBrowse, KeyMsg.String, keyNames]
    by_cases hc : m.cursor > 0
    · refine ⟨m.cursor - 1, ?_, by omega, fun h => by have := h1 h; omega, fun h => by
        have := h2 h; omega⟩
      simp [hc, hfin]
    · exact ⟨m.cursor, by simp [hc, hfin0], h0, h1, h2⟩
  · exact ⟨m.cursor, by simp [updateBrowse, KeyMsg.String, keyNames, hfin0], h0, h1, h2⟩
  · simp only [updateBrowse, KeyMsg.String, keyNames]
    by_cases hc : m.cursor < (m.templates.length : Int) - 1
    · refine ⟨m.cursor + 1, ?_, by omega, fun _ => by omega, fun h => by omega⟩
      simp [hc, hfin]
    · exact ⟨m.cursor, by simp [hc, hfin0], h0, h1, h2⟩
  · exact ⟨m.cursor, by simp [updateBrowse, KeyMsg.String, keyNames, hfin0], h0, h1, h2⟩

/-- One up/down key in search mode: only the search cursor may change; it stays at or above 0
and at or below the larger of its old value and the last index. -/
theorem search_updown_step (env : Env) (m : model) (k : KeyMsg)
    (hstage : m.stage = stageSelectTemplate) (hmode : m.searchMode = true)
    (hk : k.type = KeyType.KeyUp ∨ k.type = KeyType.KeyDown) (h0 : 0 ≤ m.searchCursor) :
    ∃ c, Update env m (Msg.KeyMsg k) = some ({ m with searchCursor := c }, [])
      ∧ 0 ≤ c
      ∧ (m.searchCursor ≤ (m.searchResults.length : Int) - 1 →
          c ≤ (m.searchResults.length : Int) - 1)
      ∧ (m.searchResults.length = 0 → c ≤ m.searchCursor) := by
  have hg := updown_not_global k hk
  rw [Update_search env m k hstage hmode hg.1 hg.2]
  rcases hk with hk | hk
  · by_cases hc : m.searchCursor > 0
    · exact ⟨m.searchCursor - 1, by simp [updateSearch, hk, hc], by omega, fun h => by omega,
        fun _ => by omega⟩
    · exact ⟨m.searchCursor, by simp [updateSearch, hk, hc], h0, fun h => h, fun _ => le_refl _⟩
  · by_cases hc : m.searchCursor < (m.searchResults.length : Int) - 1
    · exact ⟨m.searchCursor + 1, by simp [updateSearch, hk, hc], by omega, fun _ => by omega,
        fun h => by omega⟩
    · exact ⟨m.searchCursor, by simp [updateSearch, hk, hc], h0, fun h => h, fun _ => le_refl _⟩

/-- Any sequence of up/down keys in browse mode keeps the cursor in range. -/
theorem browse_updown_run (env : Env) (keys : List KeyMsg)
    (hkeys : ∀ k ∈ keys, k.type = KeyType.KeyUp ∨ k.type = KeyType.KeyDown) :
    ∀ m : model, m.stage = stageSelectTemplate → m.searchMode = false → 0 ≤ m.cursor →
      (0 < m.templates.length → m.cursor ≤ (m.templates.length : Int) - 1) →
      (m.templates.length = 0 → m.cursor = 0) →
      ∃ c, runMsgs env m (keys.map Msg.KeyMsg) = some { m with cursor := c }
        ∧ 0 ≤ c ∧ (0 < m.templates.length → c ≤ (m.templates.length : Int) - 1)
        ∧ (m.templates.length = 0 → c = 0) := by
  induction keys with
  | nil =>
    intro m _ _ h0 h1 h2
    exact ⟨m.cursor, rfl, h0, h1, h2⟩
  | cons k rest ih =>
    intro m hstage hmode h0 h1 h2
    obtain ⟨c, hU, hc0, hc1, hc2⟩ :=
      browse_updown_step env m k hstage hmode (hkeys k (List.mem_cons_self _ _)) h0 h1 h2
    obtain ⟨c', hR, hc0', hc1', hc2'⟩ :=
      ih (fun k' hk' => hkeys k' (List.mem_cons_of_mem _ hk')) { m with cursor := c }
        hstage hmode hc0 hc1 hc2
    refine ⟨c', ?_, hc0', hc1', hc2'⟩
    simp only [List.map_cons, runMsgs, hU]
    exact hR

/-- Any sequence of up/down keys in search mode keeps the search cursor at or above 0, inside
the result list if it was inside, and at or below its old value when there is no result. -/
theorem search_updown_run (env : Env) (keys : List KeyMsg)
    (hkeys : ∀ k ∈ keys, k.type = KeyType.KeyUp ∨ k.type = KeyType.KeyDown) :
    ∀ m : model, m.stage = stageSelectTemplate → m.searchMode = true → 0 ≤ m.searchCursor →
      ∃ c, runMsgs env m (keys.map Msg.KeyMsg) = some { m with searchCursor := c }
        ∧ 0 ≤ c
        ∧ (m.searchCursor ≤ (m.searchResults.length : Int) - 1 →
            c ≤ (m.searchResults.length : Int) - 1)
        ∧ (m.searchResults.length = 0 → c ≤ m.searchCursor) := by
  induction keys with
  | nil =>
    intro m _ _ h0
    exact ⟨m.searchCursor, rfl, h0, fun h => h, fun _ => le_refl _⟩
  | cons k rest ih =>
    intro m hstage hmode h0
    obtain ⟨c, hU, hc0, hc1, hc2⟩ :=
      search_updown_step env m k hstage hmode (hkeys k (List.mem_cons_self _ _)) h0
    obtain ⟨c', hR, hc0', hc1', hc2'⟩ :=
      ih (fun k' hk' => hkeys k' (List.mem_cons_of_mem _ hk')) { m with searchCursor := c }
        hstage hmode hc0
    refine ⟨c', ?_, hc0', fun h => hc1' (hc1 h), fun h => le_trans (hc2' h) (hc2 h)⟩
    simp only [List.map_cons, runMsgs, hU]
    exact hR

/-- C5 fails as stated. On the empty template list the cursor stays at 0 after a down key,
above `len(templates)-1 = -1`. In search mode, after typing `zz` from the initial state of a
three-template catalog there is no result, and after a down key the search cursor is 0, above
`len(searchResults)-1 = -1`. -/
theorem C5_counterexample :
    runMsgs exEnv (newModel []) [Msg.KeyMsg keyDown] = some (newModel [])
      ∧ ¬ ((newModel []).cursor ≤ ((newModel []).templates.length : Int) - 1)
      ∧ runMsgs exEnv (newModel ["api", "web-app", "worker"])
          [Msg.KeyMsg (keyRune '/'), Msg.KeyMsg (keyRune 'z'), Msg.KeyMsg (keyRune 'z'),
           Msg.KeyMsg keyDown] = some exNoResults
      ∧ exNoResults.searchMode = true
      ∧ ¬ (exNoResults.searchCursor ≤ (exNoResults.searchResults.length : Int) - 1) := by
  refine ⟨by decide, by decide, by decide, by decide, by decide⟩

/-- C5 as amended: for every template list and every sequence of up/down keys handled by
`Update` from the initial selection state, no call panics and the browse cursor is at least 0,
at most `len(templates)-1` when the list is not empty, and 0 when it is empty (this holds for
every sequence, hence after every event). The same holds for the search cursor and the result
list after entering search mode with the slash key; and from any search-mode state with a
search cursor at least 0, up/down keys change nothing but the search cursor, keep it at least
0, keep it at most `len(searchResults)-1` if it was, and do not raise it when the result list
is empty. -/
theorem C5_cursor_bounds (env : Env) (templates : List String) (keys : List KeyMsg)
    (hkeys : ∀ k ∈ keys, k.type = KeyType.KeyUp ∨ k.type = KeyType.KeyDown) :
    (∃ c, runMsgs env (newModel templates) (keys.map Msg.KeyMsg)
            = some { newModel templates with cursor := c }
        ∧ 0 ≤ c ∧ (templates ≠ [] → c ≤ (templates.length : Int) - 1)
        ∧ (templates = [] → c = 0))
      ∧ (∃ c, runMsgs env (newModel templates)
                (Msg.KeyMsg (keyRune '/') :: keys.map Msg.KeyMsg)
            = some { newModel templates with
                       searchMode := true, searchResults := templates, searchCursor := c }
        ∧ 0 ≤ c ∧ (templates ≠ [] → c ≤ (templates.length : Int) - 1)
        ∧ (templates = [] → c = 0))
      ∧ (∀ m : model, m.stage = stageSelectTemplate → m.searchMode = true →
          0 ≤ m.searchCursor →
          ∃ c, runMsgs env m (keys.map Msg.KeyMsg) = some { m with searchCursor := c }
            ∧ 0 ≤ c
            ∧ (m.searchCursor ≤ (m.searchResults.length : Int) - 1 →
                c ≤ (m.searchResults.length : Int) - 1)
            ∧ (m.searchResults = [] → c ≤ m.searchCursor)) := by
  have hlen : templates ≠ [] → 0 < templates.length := fun h => List.length_pos.mpr h
  refine ⟨?_, ?_, ?_⟩
  · obtain ⟨c, hR, h0, h1, h2⟩ :=
      browse_updown_run env keys hkeys (newModel templates) rfl rfl (le_refl _)
        (fun h => by
          have h' : 0 < templates.length := h
          show (0 : Int) ≤ (templates.length : Int) - 1
          omega)
        (fun _ => rfl)
    exact ⟨c, hR, h0, fun h => h1 (hlen h), fun h => h2 (by subst h; rfl)⟩
  · have hslash : Update env (newModel templates) (Msg.KeyMsg (keyRune '/'))
        = some ({ newModel templates with
                    searchMode := true, searchResults := templates, searchCursor := 0 }, []) := by
      rw [Update_browse env _ _ rfl rfl (by decide) (by decide)]
      rfl
    obtain ⟨c, hR, h0, h1, h2⟩ :=
      search_updown_run env keys hkeys
        { newModel templates with
            searchMode := true, searchResults := templates, searchCursor := 0 }
        rfl rfl (le_refl _)
    refine ⟨c, ?_, h0, fun h => h1 (by
      have h' : 0 < templates.length := hlen h
      show (0 : Int) ≤ (templates.length : Int) - 1
      omega), fun h => ?_⟩
    · simp only [runMsgs, hslash]
      exact hR
    · have hc : c ≤ 0 := h2 (by subst h; rfl)
      omega
  · intro m hstage hmode h0
    obtain ⟨c, hR, hc0, hc1, hc2⟩ := search_updown_run env keys hkeys m hstage hmode h0
    exact ⟨c, hR, hc0, hc1, fun h => hc2 (by rw [h]; rfl)⟩

/-- C5 as amended, at the catalog of three templates and the keys down, down, down, up. -/
theorem C5_cursor_bounds_witness :
    ∃ c, runMsgs exEnv (newModel ["api", "web-app", "worker"])
            ([keyDown, keyDown, keyDown, keyUp].map Msg.KeyMsg)
          = some { newModel ["api", "web-app", "worker"] with cursor := c }
      ∧ 0 ≤ c
      ∧ (["api", "web-app", "worker"] ≠ [] →
          c ≤ ((["api", "web-app", "worker"] : List String).length : Int) - 1)
      ∧ (["api", "web-app", "worker"] = [] → c = 0) :=
  (C5_cursor_bounds exEnv ["api", "web-app", "worker"] [keyDown, keyDown, keyDown, keyUp]
    (by decide)).1

/-! ## Claim C7 -/

/-- Update on a step-completion message in the Copying stage. -/
theorem Update_opProcessed (env : Env) (m : model) (o : op) (err : Option String)
    (hstage : m.stage = stageCopying) :
    Update env m (Msg.opProcessedMsg o err)
      = some ({ m with currentLog := statusLine o err, currentOpIndex := m.currentOpIndex + 1 },
          if m.currentOpIndex + 1 < (m.ops.length : Int) then
            [Cmd.nextOpCmd { m with currentLog := statusLine o err,
                                    currentOpIndex := m.currentOpIndex + 1 }]
          else [Cmd.copyFinished]) := by
  have hd : stageCopying ≠ stageDone := by decide
  cases err with
  | none =>
    by_cases h : m.currentOpIndex + 1 < (m.ops.length : Int)
    · simp [Update, finish, hstage, hd, h, statusLine]
    · simp [Update, finish, hstage, hd, h, statusLine]
  | some e =>
    by_cases h : m.currentOpIndex + 1 < (m.ops.length : Int)
    · simp [Update, finish, hstage, hd, h, statusLine]
    · simp [Update, finish, hstage, hd, h, statusLine]

/-- A run of step-completion messages in the Copying stage advances the index by the number
of messages and keeps the stage and the plan. -/
theorem run_opProcessed (env : Env) (msgs : List Msg)
    (hmsgs : ∀ x ∈ msgs, ∃ o e, x = Msg.opProcessedMsg o e) :
    ∀ m : model, m.stage = stageCopying →
      ∃ m', runMsgs env m msgs = some m' ∧ m'.stage = stageCopying ∧ m'.ops = m.ops
        ∧ m'.currentOpIndex = m.currentOpIndex + (msgs.length : Int) := by
  induction msgs with
  | nil => intro m hstage; exact ⟨m, rfl, hstage, rfl, by simp⟩
  | cons x rest ih =>
    intro m hstage
    obtain ⟨o, e, rfl⟩ := hmsgs x (List.mem_cons_self _ _)
    obtain ⟨m', hR, hs, hops, hidx⟩ :=
      ih (fun y hy => hmsgs y (List.mem_cons_of_mem _ hy))
        { m with currentLog := statusLine o e, currentOpIndex := m.currentOpIndex + 1 } hstage
    refine ⟨m', ?_, hs, hops, ?_⟩
    · simp only [runMsgs, Update_opProcessed env m o e hstage]
      exact hR
    · rw [hidx]; simp only [List.length_cons]; push_cast; ring

/-- Name confirmation: the Enter key in the project name stage with a non-blank name, when
the working directory is known, the project directory can be made and the plan is built. -/
theorem Update_confirm_name (env : Env) (m0 : model) (k : KeyMsg) (cwd : String)
    (ops : List op) (hstage : m0.stage = stageProjectName) (hk : k.type = KeyType.KeyEnter)
    (hname : TrimSpace m0.inputBuffer ≠ "") (hcwd : env.Getwd = Except.ok cwd)
    (hmk : env.Mkdir (env.Join cwd (TrimSpace m0.inputBuffer)) = none)
    (hops : buildOps (env.Lstat m0.sourceDir) = (ops, none)) :
    ∃ m1, Update env m0 (Msg.KeyMsg k) = some (m1, [Cmd.nextOpCmd m1, Cmd.spinnerTick])
      ∧ m1 = { m0 with projectName := TrimSpace m0.inputBuffer,
                       destDir := env.Join cwd (TrimSpace m0.inputBuffer),
                       ops := ops, currentOpIndex := 0, currentLog := "",
                       stage := stageCopying } := by
  refine ⟨_, ?_, rfl⟩
  rw [Update_name env m0 k hstage (enter_not_global k hk).1 (enter_not_global k hk).2]
  have hd : stageCopying ≠ stageDone := by decide
  simp [updateName, hk, hname, hcwd, hmk, hops, finish, hd]

theorem zipWith_opProcessed_shape (ops : List op) :
    ∀ errs : List (Option String), ∀ x ∈ List.zipWith Msg.opProcessedMsg ops errs,
      ∃ o e, x = Msg.opProcessedMsg o e := by
  induction ops with
  | nil => intro errs x hx; simp at hx
  | cons o rest ih =>
    intro errs x hx
    cases errs with
    | nil => simp at hx
    | cons e es =>
      simp only [List.zipWith_cons_cons, List.mem_cons] at hx
      rcases hx with rfl | hx
      · exact ⟨o, e, rfl⟩
      · exact ih es x hx

theorem index_natCast {α : Type} (xs : List α) (i : Nat) : index xs (i : Int) = xs.get? i := by
  unfold index
  rw [if_neg (by omega)]
  simp

/-- C7: for every model `m1` in the Copying stage at index 0 (whatever its plan of `n`
operations) and every assignment `errs` of success or failure to the steps, feeding `Update`
the completion messages of the steps in order: before event `i` the index is `i`, the command
in flight delivers exactly event `i`, and handling it moves the index to `i+1`, keeps the stage
and the plan, sets the status line to the step's description followed by the error annotation
when the step failed, and issues the next-step command if `i+1 < n` and the finish command
otherwise; after all `n` events, handling the finish message sets the stage to Done; for the
empty plan the first command itself delivers the finish message. Name confirmation produces
such a model, with the plan of `buildOps` and a next-step command issued. -/
theorem C7_failed_step_does_not_abort (env : Env) (m1 : model) (errs : List (Option String))
    (hs1 : m1.stage = stageCopying) (hi1 : m1.currentOpIndex = 0)
    (herrs : errs.length = m1.ops.length) :
    (∀ (i : Nat) (o : op) (e : Option String),
        m1.ops.get? i = some o → errs.get? i = some e →
        ∃ mi mi',
          runMsgs env m1 ((List.zipWith Msg.opProcessedMsg m1.ops errs).take i) = some mi
          ∧ mi.currentOpIndex = (i : Int) ∧ mi.stage = stageCopying ∧ mi.ops = m1.ops
          ∧ (List.zipWith Msg.opProcessedMsg m1.ops errs).get? i
              = some (Msg.opProcessedMsg o e)
          ∧ runCmd e (Cmd.nextOpCmd mi) = some (Msg.opProcessedMsg o e)
          ∧ Update env mi (Msg.opProcessedMsg o e)
              = some (mi', if i + 1 < m1.ops.length then [Cmd.nextOpCmd mi']
                           else [Cmd.copyFinished])
          ∧ mi'.currentOpIndex = (i : Int) + 1 ∧ mi'.stage = stageCopying
          ∧ mi'.ops = m1.ops
          ∧ mi'.currentLog = statusLine o e
          ∧ (∀ text, e = some text →
              mi'.currentLog = opLog o ++ (" [Error: " ++ text ++ "]")))
      ∧ (∃ mn md,
          runMsgs env m1 (List.zipWith Msg.opProcessedMsg m1.ops errs) = some mn
          ∧ mn.currentOpIndex = (m1.ops.length : Int) ∧ mn.stage = stageCopying
          ∧ mn.ops = m1.ops
          ∧ runCmd none Cmd.copyFinished = some Msg.copyFinishedMsg
          ∧ Update env mn Msg.copyFinishedMsg = some (md, [Cmd.Quit])
          ∧ md.stage = stageDone)
      ∧ (m1.ops = [] → ∀ e, runCmd e (Cmd.nextOpCmd m1) = some Msg.copyFinishedMsg)
      ∧ (∀ (m0 : model) (k : KeyMsg) (cwd : String) (ops : List op),
          m0.stage = stageProjectName → k.type = KeyType.KeyEnter →
          TrimSpace m0.inputBuffer ≠ "" → env.Getwd = Except.ok cwd →
          env.Mkdir (env.Join cwd (TrimSpace m0.inputBuffer)) = none →
          buildOps (env.Lstat m0.sourceDir) = (ops, none) →
          ∃ m, Update env m0 (Msg.KeyMsg k) = some (m, [Cmd.nextOpCmd m, Cmd.spinnerTick])
            ∧ m.stage = stageCopying ∧ m.currentOpIndex = 0 ∧ m.ops = ops) := by
  have hshape := zipWith_opProcessed_shape m1.ops errs
  refine ⟨?_, ?_, ?_, ?_⟩
  · intro i o e hgo hge
    have hi : i < m1.ops.length := by
      rcases Nat.lt_or_ge i m1.ops.length with h | h
      · exact h
      · rw [List.get?_eq_none.mpr h] at hgo; cases hgo
    obtain ⟨mi, hR, hsi, hoi, hii⟩ :=
      run_opProcessed env ((List.zipWith Msg.opProcessedMsg m1.ops errs).take i)
        (fun x hx => hshape x (List.mem_of_mem_take hx)) m1 hs1
    have hlen : ((List.zipWith Msg.opProcessedMsg m1.ops errs).take i).length = i := by
      simp [List.length_take, List.length_zipWith, herrs]; omega
    rw [hlen, hi1] at hii
    have hii' : mi.currentOpIndex = (i : Int) := by rw [hii]; simp
    refine ⟨mi, { mi with currentLog := statusLine o e,
                          currentOpIndex := mi.currentOpIndex + 1 },
      hR, hii', hsi, hoi, ?_, ?_, ?_, ?_, hsi, hoi, rfl, ?_⟩
    · simp only [List.get?_eq_getElem?] at hgo hge
      simp [List.getElem?_zipWith, hgo, hge]
    · have hnot' : ¬ ((i : Int) ≥ (m1.ops.length : Int)) := by omega
      simp only [runCmd, hii', index_natCast, hoi, hgo, if_neg hnot']
    · rw [Update_opProcessed env mi o e hsi]
      by_cases h : i + 1 < m1.ops.length
      · have h' : mi.currentOpIndex + 1 < (mi.ops.length : Int) := by rw [hii', hoi]; omega
        rw [if_pos h, if_pos h']
      · have h' : ¬ (mi.currentOpIndex + 1 < (mi.ops.length : Int)) := by
          rw [hii', hoi]; omega
        rw [if_neg h, if_neg h']
    · show mi.currentOpIndex + 1 = (i : Int) + 1
      rw [hii']
    · intro text htext
      subst htext
      rfl
  · obtain ⟨mn, hR, hsn, hon, hin⟩ :=
      run_opProcessed env (List.zipWith Msg.opProcessedMsg m1.ops errs) hshape m1 hs1
    have hlen : (List.zipWith Msg.opProcessedMsg m1.ops errs).length = m1.ops.length := by
      simp [List.length_zipWith, herrs]
    refine ⟨mn, { mn with currentLog := "Project " ++ "\"" ++ mn.projectName ++ "\""
                                          ++ " created successfully!",
                          stage := stageDone },
      hR, by rw [hin, hlen, hi1]; simp, hsn, hon, rfl, ?_, rfl⟩
    simp [Update, finish]
  · intro hnil e
    simp [runCmd, hi1, hnil]
  · intro m0 k cwd ops hstage hk hname hcwd hmk hops
    obtain ⟨m, hU, hm⟩ := Update_confirm_name env m0 k cwd ops hstage hk hname hcwd hmk hops
    exact ⟨m, hU, by rw [hm], by rw [hm], by rw [hm]⟩

/-- C7 at the example plan of three steps, the second of which fails: the model after name
confirmation, and the status line after the failed step. -/
theorem C7_failed_step_does_not_abort_witness :
    (∃ mi mi',
        runMsgs exEnv exCopying
            ((List.zipWith Msg.opProcessedMsg exCopying.ops
              [none, some "permission denied", none]).take 1) = some mi
        ∧ Update exEnv mi
            (Msg.opProcessedMsg { opType := "copy", relPath := ["src", "main.txt"] }
              (some "permission denied"))
            = some (mi', [Cmd.nextOpCmd mi'])
        ∧ mi'.currentOpIndex = 2 ∧ mi'.stage = stageCopying
        ∧ mi'.currentLog = "Copied file: src/main.txt [Error: permission denied]")
      ∧ ∃ m, Update exEnv exNamed (Msg.KeyMsg keyEnter)
                = some (m, [Cmd.nextOpCmd m, Cmd.spinnerTick])
          ∧ m.stage = stageCopying ∧ m.currentOpIndex = 0 ∧ m.ops = exOps :=
  match C7_failed_step_does_not_abort exEnv exCopying [none, some "permission denied", none]
      (by decide) (by decide) (by decide) with
  | ⟨hrun, _, _, hname⟩ =>
    ⟨match hrun 1 { opType := "copy", relPath := ["src", "main.txt"] }
          (some "permission denied") (by decide) (by decide) with
      | ⟨mi, mi', h1, _, _, _, _, _, h7, h8, h9, _, h11, _⟩ =>
        ⟨mi, mi', h1, h7, h8, h9, by rw [h11]; decide⟩,
     hname exNamed keyEnter "/home/u" exOps (by decide) (by decide) (by decide) rfl
       (by decide) (by decide)⟩

/-! ## Claim C9 -/

theorem finish_eq (m m' : model) (cmds c : List Cmd) (h : finish m cmds = some (m', c)) :
    m' = m ∧ (c = cmds ∨ c = [Cmd.Quit]) := by
  unfold finish at h
  split_ifs at h <;> simp at h <;> obtain ⟨rfl, rfl⟩ := h <;> simp

theorem updateSearch_cmds (env : Env) (m m' : model) (k : KeyMsg) (cmds : List Cmd)
    (h : updateSearch env m k = some (m', cmds)) :
    cmds = [] ∧ (m'.stage = m.stage ∨ m'.stage = stageProjectName) := by
  cases hk : k.type <;> simp only [updateSearch, hk] at h <;>
    (try split_ifs at h) <;> (try split at h) <;> simp at h <;>
    (try obtain ⟨rfl, rfl⟩ := h) <;> simp

theorem updateBrowse_cmds (env : Env) (m m' : model) (k : KeyMsg) (cmds : List Cmd)
    (h : updateBrowse env m k = some (m', cmds)) :
    inFlight cmds = 0 ∧ (m'.stage = m.stage ∨ m'.stage = stageProjectName) := by
  unfold updateBrowse at h
  simp only at h
  split_ifs at h <;> (try split at h) <;>
    first
    | (obtain ⟨rfl, hc⟩ := finish_eq _ _ _ _ h
       rcases hc with rfl | rfl <;> simp [inFlight, Cmd.isNextOp])
    | (simp at h <;> (try obtain ⟨rfl, rfl⟩ := h) <;> simp [inFlight, Cmd.isNextOp])

theorem updateName_cmds (env : Env) (m m' : model) (k : KeyMsg) (cmds : List Cmd)
    (h : updateName env m k = some (m', cmds)) :
    (inFlight cmds = 0 ∧ m'.stage = m.stage)
      ∨ (k.type = KeyType.KeyEnter ∧ m'.stage = stageCopying ∧ inFlight cmds = 1) := by
  have hd : stageCopying ≠ stageDone := by decide
  cases hk : k.type <;> simp only [updateName, hk] at h <;>
    (try split_ifs at h) <;> (try split at h) <;> (try split at h) <;> (try split at h) <;>
    first
    | (simp only [finish, if_neg hd] at h
       simp at h
       obtain ⟨rfl, rfl⟩ := h
       simp [inFlight, Cmd.isNextOp])
    | (obtain ⟨rfl, hc⟩ := finish_eq _ _ _ _ h
       rcases hc with rfl | rfl <;> simp [inFlight, Cmd.isNextOp])
    | (simp at h
       obtain ⟨rfl, rfl⟩ := h
       simp [inFlight, Cmd.isNextOp])

/-- What one call of `Update` can issue and how it can move the stage. -/
theorem Update_cmds (env : Env) (m m' : model) (msg : Msg) (cmds : List Cmd)
    (h : Update env m msg = some (m', cmds)) :
    inFlight cmds ≤ 1
      ∧ (inFlight cmds = 1 →
          (∃ k, msg = Msg.KeyMsg k ∧ k.type = KeyType.KeyEnter ∧ m.stage = stageProjectName
              ∧ m'.stage = stageCopying)
            ∨ ∃ o e, msg = Msg.opProcessedMsg o e)
      ∧ ((∀ o e, msg ≠ Msg.opProcessedMsg o e) →
          (m'.stage = stageSelectTemplate ∨ m'.stage = stageProjectName) →
          (m.stage = stageSelectTemplate ∨ m.stage = stageProjectName) ∧ inFlight cmds = 0)
      ∧ (∀ o e, msg = Msg.opProcessedMsg o e → m'.stage = m.stage) := by
  have hc := stage_consts
  cases msg with
  | KeyMsg k =>
    unfold Update at h
    simp only at h
    split_ifs at h with h1 h2 h3 h4 h5
    · simp at h; obtain ⟨rfl, rfl⟩ := h
      simp [inFlight, Cmd.isNextOp]
    · simp at h; obtain ⟨rfl, rfl⟩ := h
      simp [inFlight, Cmd.isNextOp]
    · obtain ⟨hcm, hst⟩ := updateSearch_cmds env m m' k cmds h
      subst hcm
      refine ⟨by simp [inFlight], by simp [inFlight], fun _ _ => ⟨Or.inl h3.1, by simp [inFlight]⟩,
        by simp⟩
    · obtain ⟨hcm, hst⟩ := updateBrowse_cmds env m m' k cmds h
      refine ⟨by omega, by omega, fun _ _ => ⟨Or.inl h4, hcm⟩, by simp⟩
    · rcases updateName_cmds env m m' k cmds h with ⟨hcm, hst⟩ | ⟨hk, hst, hcm⟩
      · refine ⟨by omega, by omega, fun _ _ => ⟨Or.inr h5, hcm⟩, by simp⟩
      · refine ⟨by omega, fun _ => Or.inl ⟨k, rfl, hk, h5, hst⟩, fun _ hs => ?_, by simp⟩
        rw [hst] at hs
        rcases hs with hs | hs
        · exact absurd hs hc.2.1
        · exact absurd hs hc.2.2.2.1
    · obtain ⟨rfl, hcm⟩ := finish_eq _ _ _ _ h
      rcases hcm with rfl | rfl <;> simp [inFlight, Cmd.isNextOp, h4, h5]
  | blinkMsg =>
    obtain ⟨rfl, hcm⟩ := finish_eq _ _ _ _ h
    rcases hcm with rfl | rfl <;> simp [inFlight, Cmd.isNextOp]
  | spinnerTickMsg =>
    obtain ⟨rfl, hcm⟩ := finish_eq _ _ _ _ h
    rcases hcm with rfl | rfl <;> simp [inFlight, Cmd.isNextOp]
  | opProcessedMsg o e =>
    unfold Update at h
    simp only at h
    split_ifs at h <;> obtain ⟨rfl, hcm⟩ := finish_eq _ _ _ _ h <;>
      rcases hcm with rfl | rfl <;> cases e <;> simp [inFlight, Cmd.isNextOp]
  | copyFinishedMsg =>
    obtain ⟨rfl, hcm⟩ := finish_eq _ _ _ _ h
    rcases hcm with rfl | rfl <;> simp [inFlight, Cmd.isNextOp, hc]
  | otherMsg =>
    obtain ⟨rfl, hcm⟩ := finish_eq _ _ _ _ h
    rcases hcm with rfl | rfl <;> simp [inFlight, Cmd.isNextOp]

theorem runCmd_shape (stepErr : Option String) (c : Cmd) (msg : Msg)
    (h : runCmd stepErr c = some msg) :
    (∀ k, msg ≠ Msg.KeyMsg k) ∧ ((∃ o e, msg = Msg.opProcessedMsg o e) → c.isNextOp = true) := by
  cases c with
  | Quit => simp [runCmd] at h
  | blinkTick => simp [runCmd] at h; subst h; simp
  | spinnerTick => simp [runCmd] at h; subst h; simp
  | copyFinished => simp [runCmd] at h; subst h; simp
  | nextOpCmd mc =>
    refine ⟨?_, fun _ => rfl⟩
    intro k hk
    subst hk
    simp only [runCmd] at h
    split_ifs at h
    · simp at h
    · split at h <;> simp at h

/-- The invariant of the event loop: at most one copy step is in flight, and none before the
Copying stage. -/
theorem step_invariant (s s' : Sys) (hstep : Step s s')
    (h1 : inFlight s.pending ≤ 1)
    (h2 : s.m.stage = stageSelectTemplate ∨ s.m.stage = stageProjectName →
      inFlight s.pending = 0) :
    inFlight s'.pending ≤ 1
      ∧ (s'.m.stage = stageSelectTemplate ∨ s'.m.stage = stageProjectName →
          inFlight s'.pending = 0) := by
  have happ : ∀ a b : List Cmd, inFlight (a ++ b) = inFlight a + inFlight b := by
    intro a b; simp [inFlight, List.countP_append]
  have hext : ∀ (env : Env) (msg : Msg) (m' : model) (cmds : List Cmd),
      (∀ k, msg ≠ Msg.KeyMsg k) → (∀ o e, msg ≠ Msg.opProcessedMsg o e) →
      Update env s.m msg = some (m', cmds) →
      inFlight cmds = 0
        ∧ (m'.stage = stageSelectTemplate ∨ m'.stage = stageProjectName →
            s.m.stage = stageSelectTemplate ∨ s.m.stage = stageProjectName) := by
    intro env msg m' cmds hk ho hU
    obtain ⟨ha, hb, hc, -⟩ := Update_cmds env s.m m' msg cmds hU
    refine ⟨?_, fun hs => (hc ho hs).1⟩
    rcases Nat.lt_or_ge (inFlight cmds) 1 with hlt | hge
    · omega
    · have h1' : inFlight cmds = 1 := by omega
      rcases hb h1' with ⟨k, hk', -⟩ | ⟨o, e, ho'⟩
      · exact absurd hk' (hk k)
      · exact absurd ho' (ho o e)
  cases hstep with
  | key env _ k m' cmds hU =>
    obtain ⟨ha, hb, hc, -⟩ := Update_cmds env s.m m' (Msg.KeyMsg k) cmds hU
    have hno : ∀ o e, Msg.KeyMsg k ≠ Msg.opProcessedMsg o e := by intro o e h; cases h
    simp only [happ]
    constructor
    · rcases Nat.lt_or_ge (inFlight cmds) 1 with hlt | hge
      · omega
      · have h1' : inFlight cmds = 1 := by omega
        rcases hb h1' with ⟨k', -, -, hst, -⟩ | ⟨o, e, ho'⟩
        · have := h2 (Or.inr hst); omega
        · cases ho'
    · intro hs
      obtain ⟨hs0, hc0⟩ := hc hno hs
      have := h2 hs0; omega
  | blink env _ m' cmds hU =>
    obtain ⟨hc0, hst⟩ := hext env _ m' cmds (by intro k h; cases h) (by intro o e h; cases h) hU
    simp only [happ]
    exact ⟨by omega, fun hs => by have := h2 (hst hs); omega⟩
  | spinner env _ m' cmds hU =>
    obtain ⟨hc0, hst⟩ := hext env _ m' cmds (by intro k h; cases h) (by intro o e h; cases h) hU
    simp only [happ]
    exact ⟨by omega, fun hs => by have := h2 (hst hs); omega⟩
  | deliver env _ before after c stepErr msg m' cmds hp hrun hU =>
    obtain ⟨hkey, hnext⟩ := runCmd_shape stepErr c msg hrun
    have hsplit : inFlight s.pending
        = inFlight before + ((if c.isNextOp = true then 1 else 0) + inFlight after) := by
      rw [hp, happ]
      simp [inFlight, List.countP_cons]
      omega
    simp only [happ]
    by_cases hop : ∃ o e, msg = Msg.opProcessedMsg o e
    · have hcn := hnext hop
      rw [if_pos hcn] at hsplit
      obtain ⟨o, e, rfl⟩ := hop
      obtain ⟨ha, -, -, hd⟩ := Update_cmds env s.m m' _ cmds hU
      have hsame : m'.stage = s.m.stage := hd o e rfl
      refine ⟨by omega, fun hs => ?_⟩
      rw [hsame] at hs
      have := h2 hs
      omega
    · have hop' : ∀ o e, msg ≠ Msg.opProcessedMsg o e := fun o e h => hop ⟨o, e, h⟩
      obtain ⟨hc0, hst⟩ := hext env msg m' cmds hkey hop' hU
      have hle : inFlight before + inFlight after ≤ inFlight s.pending := by
        rw [hsplit]; split_ifs <;> omega
      exact ⟨by omega, fun hs => by have := h2 (hst hs); omega⟩

theorem reachable_invariant (init s : Sys) (hreach : Reachable init s)
    (h1 : inFlight init.pending ≤ 1)
    (h2 : init.m.stage = stageSelectTemplate ∨ init.m.stage = stageProjectName →
      inFlight init.pending = 0) :
    inFlight s.pending ≤ 1
      ∧ (s.m.stage = stageSelectTemplate ∨ s.m.stage = stageProjectName →
          inFlight s.pending = 0) := by
  induction hreach with
  | start => exact ⟨h1, h2⟩
  | step a b _ hstep ih => exact step_invariant a b hstep ih.1 ih.2

/-- C9: in every state reachable from the start of the program by key presses, blink and
spinner ticks and deliveries of the messages of pending commands, at most one copy step is in
flight, and none is before the Copying stage. One call of `Update` issues at most one
`nextOpCmd`, and issues one only on name confirmation (the Enter key in the project name
stage, moving to Copying, with none in flight) or while handling an `opProcessedMsg`. -/
theorem C9_at_most_one_step_in_flight (loaded : Except String (List String)) (m : model)
    (depth : Int) (s : Sys) (_hinit : initialModel loaded = some m)
    (hreach : Reachable (startSys m depth) s) :
    inFlight s.pending ≤ 1
      ∧ (s.m.stage = stageSelectTemplate ∨ s.m.stage = stageProjectName →
          inFlight s.pending = 0)
      ∧ (∀ (env : Env) (msg : Msg) (m' : model) (cmds : List Cmd),
          Update env s.m msg = some (m', cmds) →
          inFlight cmds ≤ 1
            ∧ (inFlight cmds = 1 →
                (∃ k, msg = Msg.KeyMsg k ∧ k.type = KeyType.KeyEnter
                    ∧ s.m.stage = stageProjectName ∧ m'.stage = stageCopying
                    ∧ inFlight s.pending = 0)
                  ∨ ∃ o e, msg = Msg.opProcessedMsg o e)) := by
  have hstart : inFlight (startSys m depth).pending = 0 := by
    simp [startSys, Init, inFlight, Cmd.isNextOp]
  obtain ⟨h1, h2⟩ :=
    reachable_invariant (startSys m depth) s hreach (by omega) (fun _ => hstart)
  refine ⟨h1, h2, ?_⟩
  intro env msg m' cmds hU
  obtain ⟨ha, hb, -, -⟩ := Update_cmds env s.m m' msg cmds hU
  refine ⟨ha, fun h => ?_⟩
  rcases hb h with ⟨k, hk, ht, hst, hst'⟩ | hop
  · exact Or.inl ⟨k, hk, ht, hst, hst', h2 (Or.inr hst)⟩
  · exact Or.inr hop

/-- C9 at a concrete run: choose the first template, type `demo`, confirm; one copy step is
then in flight. -/
theorem C9_at_most_one_step_in_flight_witness :
    inFlight [Cmd.blinkTick, Cmd.nextOpCmd exCopying, Cmd.spinnerTick] ≤ 1 :=
  (C9_at_most_one_step_in_flight (Except.ok ["api", "web-app", "worker"])
    (newModel ["api", "web-app", "worker"]) (-1)
    { m := exCopying, pending := [Cmd.blinkTick, Cmd.nextOpCmd exCopying, Cmd.spinnerTick] }
    (by decide)
    (Reachable.step _ _
      (Reachable.step
        { m := { newModel ["api", "web-app", "worker"] with
                   sourceDir := "/Users/ayushkumar/programming/templates/api",
                   stage := stageProjectName },
          pending := [Cmd.blinkTick] }
        { m := exNamed, pending := [Cmd.blinkTick] }
        (Reachable.step _ _ Reachable.start
          (Step.key exEnv _ keyEnter _ [] (by decide)))
        (Step.key exEnv _ { type := .KeyRunes, Runes := ['d', 'e', 'm', 'o'], Alt := false,
                            Paste := false } _ [] (by decide)))
      (Step.key exEnv _ keyEnter exCopying [Cmd.nextOpCmd exCopying, Cmd.spinnerTick]
        (by decide)))).1

/-! ## Claim C3 -/

/-- Induction over the entries of a directory and, below them, over the tree. -/
theorem forest_induction {P : List (String × FsNode) → Prop} (hnil : P [])
    (hfile : ∀ n r d rest, P rest → P ((n, FsNode.file r d) :: rest))
    (hdir : ∀ n r es rest, P es → P rest → P ((n, FsNode.dir r es) :: rest)) :
    ∀ f, P f
  | [] => hnil
  | (n, .file r d) :: rest => hfile n r d rest (forest_induction hnil hfile hdir rest)
  | (n, .dir r es) :: rest =>
    hdir n r es rest (forest_induction hnil hfile hdir es) (forest_induction hnil hfile hdir rest)

theorem walkFn_entry (rel : List String) (name : String) (isDir : Bool) (acc : List op) :
    walkFn (rel ++ [name]) isDir none acc
      = (acc ++ [if isDir then { opType := "mkdir", relPath := rel ++ [name] }
                 else { opType := "copy", relPath := rel ++ [name] }], none) := by
  cases isDir <;> simp [walkFn]

/-- A walk of the entries of a directory that ends without error has appended the depth-first
plan of the entries. -/
theorem walkEntries_plan :
    ∀ (f : List (String × FsNode)) (rel : List String) (acc ops : List op),
      walkEntries rel f acc = (ops, none) → ops = acc ++ planEntries rel f := by
  intro f
  induction f using forest_induction with
  | hnil =>
    intro rel acc ops h
    simp [walkEntries] at h
    simp [planEntries, h]
  | hfile n r d rest ih =>
    intro rel acc ops h
    simp only [walkEntries, walk, walkFn_entry] at h
    have := ih rel _ ops h
    simp [planEntries, this]
  | hdir n r es rest ihes ihrest =>
    intro rel acc ops h
    cases r with
    | false => simp [walkEntries, walk, walkFn] at h
    | true =>
      have hfn := walkFn_entry rel n true acc
      simp only [if_true] at hfn
      simp only [walkEntries, walk, if_true] at h
      rw [hfn] at h
      simp only [Option.isSome_none, Bool.or_self, Bool.false_eq_true, if_false] at h
      rcases hw : walkEntries (rel ++ [n]) es
          (acc ++ [{ opType := "mkdir", relPath := rel ++ [n] }]) with ⟨ops1, e1⟩
      rw [hw] at h
      cases e1 with
      | some e => simp at h
      | none =>
        simp only at h
        have h1 := ihes (rel ++ [n]) _ ops1 hw
        have h2 := ihrest rel ops1 ops h
        simp [planEntries, h2, h1]

/-- The plan that `buildOps` returns for a tree that is walked without error. -/
theorem buildOps_plan (root : FsNode) (ops : List op)
    (h : buildOps (Except.ok root) = (ops, none)) :
    (∃ r d, root = FsNode.file r d ∧ ops = [])
      ∨ (∃ es, root = FsNode.dir true es ∧ ops = planEntries [] es) := by
  cases root with
  | file r d =>
    left
    simp [buildOps, walk, walkFn] at h
    exact ⟨r, d, rfl, h⟩
  | dir r es =>
    right
    cases r with
    | false => simp [buildOps, walk, walkFn] at h
    | true =>
      simp [buildOps, walk, walkFn] at h
      have := walkEntries_plan es [] [] ops h
      exact ⟨es, rfl, by simpa using this⟩

theorem entriesWF_cons (n : String) (node : FsNode) (es : List (String × FsNode)) :
    entriesWF ((n, node) :: es) = true
      ↔ n ∉ es.map Prod.fst ∧ node.WF = true ∧ entriesWF es = true := by
  have hany : (es.any fun e => decide (e.1 = n)) = true ↔ n ∈ es.map Prod.fst := by
    simp only [List.any_eq_true, List.mem_map, decide_eq_true_eq]
  have hnot : n ∉ es.map Prod.fst ↔ (es.any fun e => decide (e.1 = n)) = false := by
    rw [← hany, Bool.not_eq_true]
  simp only [entriesWF, Bool.and_eq_true, Bool.not_eq_true', hnot, and_assoc]

theorem lookupEntries_name (f : List (String × FsNode)) (name : String) (q : List String)
    (node : FsNode) (h : lookupEntries f name q = some node) : name ∈ f.map Prod.fst := by
  induction f with
  | nil => simp [lookupEntries] at h
  | cons e es ih =>
    obtain ⟨n, nd⟩ := e
    simp only [lookupEntries] at h
    by_cases hn : n = name
    · simp [hn]
    · rw [if_neg hn] at h
      simp [ih h]

theorem path_head_eq (rel : List String) (a b : String) (q q' : List String)
    (h : rel ++ a :: q = rel ++ b :: q') : a = b ∧ q = q' := by
  have := List.append_cancel_left h
  simpa using this

/-- Every operation of the plan of a directory lies below one of its entries. -/
theorem planEntries_prefix :
    ∀ (f : List (String × FsNode)) (rel : List String) (o : op), o ∈ planEntries rel f →
      ∃ name q, name ∈ f.map Prod.fst ∧ o.relPath = rel ++ name :: q := by
  intro f
  induction f using forest_induction with
  | hnil => intro rel o h; simp [planEntries] at h
  | hfile n r d rest ih =>
    intro rel o h
    simp only [planEntries, List.mem_cons] at h
    rcases h with rfl | h
    · exact ⟨n, [], by simp, rfl⟩
    · obtain ⟨name, q, hm, hp⟩ := ih rel o h
      exact ⟨name, q, by simp at hm ⊢; exact Or.inr hm, hp⟩
  | hdir n r es rest ihes ihrest =>
    intro rel o h
    simp only [planEntries, List.mem_cons, List.mem_append] at h
    rcases h with rfl | h | h
    · exact ⟨n, [], by simp, rfl⟩
    · obtain ⟨name, q, -, hp⟩ := ihes (rel ++ [n]) o h
      exact ⟨n, name :: q, by simp, by simp [hp]⟩
    · obtain ⟨name, q, hm, hp⟩ := ihrest rel o h
      exact ⟨name, q, by simp at hm ⊢; exact Or.inr hm, hp⟩

/-- Every operation of the plan is the operation of an entry found at its path. -/
theorem planEntries_sound :
    ∀ (f : List (String × FsNode)) (rel : List String) (o : op), entriesWF f = true →
      o ∈ planEntries rel f →
      ∃ name q node, o.relPath = rel ++ name :: q ∧ lookupEntries f name q = some node
        ∧ o = entryOp (rel ++ name :: q) node := by
  intro f
  induction f using forest_induction with
  | hnil => intro rel o _ h; simp [planEntries] at h
  | hfile n r d rest ih =>
    intro rel o hwf h
    obtain ⟨hn, -, hwr⟩ := (entriesWF_cons _ _ _).mp hwf
    simp only [planEntries, List.mem_cons] at h
    rcases h with rfl | h
    · exact ⟨n, [], FsNode.file r d, rfl, by simp [lookupEntries, FsNode.lookup],
        by simp [entryOp, FsNode.isDir]⟩
    · obtain ⟨name, q, node, hp, hl, ho⟩ := ih rel o hwr h
      have hne : n ≠ name := fun heq => hn (heq ▸ lookupEntries_name rest name q node hl)
      exact ⟨name, q, node, hp, by simp [lookupEntries, hne, hl], ho⟩
  | hdir n r es rest ihes ihrest =>
    intro rel o hwf h
    obtain ⟨hn, hwn, hwr⟩ := (entriesWF_cons _ _ _).mp hwf
    simp only [planEntries, List.mem_cons, List.mem_append] at h
    rcases h with rfl | h | h
    · exact ⟨n, [], FsNode.dir r es, rfl, by simp [lookupEntries, FsNode.lookup],
        by simp [entryOp, FsNode.isDir]⟩
    · obtain ⟨name, q, node, hp, hl, ho⟩ := ihes (rel ++ [n]) o (by simpa [FsNode.WF] using hwn) h
      refine ⟨n, name :: q, node, by simp [hp], by simp [lookupEntries, FsNode.lookup, hl], ?_⟩
      rw [ho]; simp
    · obtain ⟨name, q, node, hp, hl, ho⟩ := ihrest rel o hwr h
      have hne : n ≠ name := fun heq => hn (heq ▸ lookupEntries_name rest name q node hl)
      exact ⟨name, q, node, hp, by simp [lookupEntries, hne, hl], ho⟩

/-- Every entry found at a path below a directory has its operation in the plan. -/
theorem planEntries_complete :
    ∀ (f : List (String × FsNode)) (rel : List String) (name : String) (q : List String)
      (node : FsNode), lookupEntries f name q = some node →
      entryOp (rel ++ name :: q) node ∈ planEntries rel f := by
  intro f
  induction f using forest_induction with
  | hnil => intro rel name q node h; simp [lookupEntries] at h
  | hfile n r d rest ih =>
    intro rel name q node h
    simp only [lookupEntries] at h
    by_cases hn : n = name
    · subst hn
      rw [if_pos rfl] at h
      cases q with
      | nil =>
        simp [FsNode.lookup] at h
        subst h
        simp [planEntries, entryOp, FsNode.isDir]
      | cons a q' => simp [FsNode.lookup] at h
    · rw [if_neg hn] at h
      simp only [planEntries, List.mem_cons]
      exact Or.inr (ih rel name q node h)
  | hdir n r es rest ihes ihrest =>
    intro rel name q node h
    simp only [lookupEntries] at h
    by_cases hn : n = name
    · subst hn
      rw [if_pos rfl] at h
      cases q with
      | nil =>
        simp [FsNode.lookup] at h
        subst h
        simp [planEntries, entryOp, FsNode.isDir]
      | cons a q' =>
        simp only [FsNode.lookup] at h
        have := ihes (rel ++ [n]) a q' node h
        simp only [planEntries, List.mem_cons, List.mem_append]
        refine Or.inr (Or.inl ?_)
        simpa using this
    · rw [if_neg hn] at h
      simp only [planEntries, List.mem_cons, List.mem_append]
      exact Or.inr (Or.inr (ihrest rel name q node h))

/-- No two operations of the plan have the same path. -/
theorem planEntries_nodup :
    ∀ (f : List (String × FsNode)) (rel : List String), entriesWF f = true →
      ((planEntries rel f).map (fun o => o.relPath)).Nodup := by
  intro f
  induction f using forest_induction with
  | hnil => intro rel _; simp [planEntries]
  | hfile n r d rest ih =>
    intro rel hwf
    obtain ⟨hn, -, hwr⟩ := (entriesWF_cons _ _ _).mp hwf
    simp only [planEntries, List.map_cons, List.nodup_cons]
    refine ⟨?_, ih rel hwr⟩
    intro hmem
    obtain ⟨o, ho, hpath⟩ := List.mem_map.mp hmem
    obtain ⟨name, q, hm, hp⟩ := planEntries_prefix rest rel o ho
    rw [hp] at hpath
    have := (path_head_eq rel name n q [] hpath).1
    exact hn (this ▸ hm)
  | hdir n r es rest ihes ihrest =>
    intro rel hwf
    obtain ⟨hn, hwn, hwr⟩ := (entriesWF_cons _ _ _).mp hwf
    have hwes : entriesWF es = true := by simpa [FsNode.WF] using hwn
    simp only [planEntries, List.map_cons, List.map_append, List.nodup_cons, List.mem_append]
    refine ⟨?_, List.Nodup.append (ihes (rel ++ [n]) hwes) (ihrest rel hwr) ?_⟩
    · rintro (hmem | hmem)
      · obtain ⟨o, ho, hpath⟩ := List.mem_map.mp hmem
        obtain ⟨name, q, -, hp⟩ := planEntries_prefix es (rel ++ [n]) o ho
        rw [hp] at hpath
        have := congrArg List.length hpath
        simp at this
      · obtain ⟨o, ho, hpath⟩ := List.mem_map.mp hmem
        obtain ⟨name, q, hm, hp⟩ := planEntries_prefix rest rel o ho
        rw [hp] at hpath
        have := (path_head_eq rel name n q [] hpath).1
        exact hn (this ▸ hm)
    · intro p hp1 hp2
      obtain ⟨o1, ho1, hpath1⟩ := List.mem_map.mp hp1
      obtain ⟨o2, ho2, hpath2⟩ := List.mem_map.mp hp2
      obtain ⟨name1, q1, -, hq1⟩ := planEntries_prefix es (rel ++ [n]) o1 ho1
      obtain ⟨name2, q2, hm2, hq2⟩ := planEntries_prefix rest rel o2 ho2
      rw [hq1] at hpath1
      rw [hq2] at hpath2
      have heq : rel ++ n :: name1 :: q1 = rel ++ name2 :: q2 := by
        rw [hpath2, ← hpath1]; simp
      have := (path_head_eq rel n name2 _ _ heq).1
      exact hn (this ▸ hm2)

/-- In the plan no operation is followed by the `mkdir` of a directory it is nested under. -/
theorem planEntries_pairwise :
    ∀ (f : List (String × FsNode)) (rel : List String), entriesWF f = true →
      (planEntries rel f).Pairwise
        (fun a b => ¬ (b.relPath <+: a.relPath ∧ b.relPath ≠ a.relPath)) := by
  intro f
  induction f using forest_induction with
  | hnil => intro rel _; simp [planEntries]
  | hfile n r d rest ih =>
    intro rel hwf
    obtain ⟨hn, -, hwr⟩ := (entriesWF_cons _ _ _).mp hwf
    simp only [planEntries, List.pairwise_cons]
    refine ⟨?_, ih rel hwr⟩
    rintro b hb ⟨hpre, hne⟩
    obtain ⟨name, q, hm, hp⟩ := planEntries_prefix rest rel b hb
    rw [hp] at hpre
    have h1 := (List.prefix_append_right_inj rel).mp hpre
    have h2 := (List.cons_prefix_cons.mp h1).1
    exact hn (h2 ▸ hm)
  | hdir n r es rest ihes ihrest =>
    intro rel hwf
    obtain ⟨hn, hwn, hwr⟩ := (entriesWF_cons _ _ _).mp hwf
    have hwes : entriesWF es = true := by simpa [FsNode.WF] using hwn
    simp only [planEntries, List.pairwise_cons, List.pairwise_append, List.mem_append]
    refine ⟨?_, ihes (rel ++ [n]) hwes, ihrest rel hwr, ?_⟩
    · rintro b hb ⟨hpre, hne⟩
      rcases hb with hb | hb
      · obtain ⟨name, q, -, hp⟩ := planEntries_prefix es (rel ++ [n]) b hb
        rw [hp] at hpre
        have := hpre.length_le
        simp at this
      · obtain ⟨name, q, hm, hp⟩ := planEntries_prefix rest rel b hb
        rw [hp] at hpre
        have h1 := (List.prefix_append_right_inj rel).mp hpre
        have h2 := (List.cons_prefix_cons.mp h1).1
        exact hn (h2 ▸ hm)
    · rintro a ha b hb ⟨hpre, hne⟩
      obtain ⟨name1, q1, -, hq1⟩ := planEntries_prefix es (rel ++ [n]) a ha
      obtain ⟨name2, q2, hm2, hq2⟩ := planEntries_prefix rest rel b hb
      rw [hq1, hq2, List.append_assoc] at hpre
      have h1 := (List.prefix_append_right_inj rel).mp hpre
      have h2 := (List.cons_prefix_cons.mp h1).1
      exact hn (h2 ▸ hm2)

/-- C3: for a well-formed tree (different names inside each directory) that `buildOps` walks
without error, every operation of the plan has a non-empty path relative to the root at
which the tree has an entry, with `opType` "mkdir" for a directory and "copy" otherwise; every
entry below the root has exactly one operation; no path occurs twice; and the `mkdir` of a
directory stands earlier in the list than every operation whose path is nested under it. -/
theorem C3_plan_one_op_per_entry (root : FsNode) (ops : List op) (hwf : root.WF = true)
    (h : buildOps (Except.ok root) = (ops, none)) :
    (∀ o ∈ ops, o.relPath ≠ [] ∧ ∃ node, root.lookup o.relPath = some node
        ∧ o = entryOp o.relPath node)
      ∧ (∀ p node, p ≠ [] → root.lookup p = some node → ops.count (entryOp p node) = 1)
      ∧ (ops.map (fun o => o.relPath)).Nodup
      ∧ (∀ (i j : Nat) (d : List String) (o : op),
          ops.get? i = some { opType := "mkdir", relPath := d } → ops.get? j = some o →
          d <+: o.relPath → d ≠ o.relPath → i < j) := by
  rcases buildOps_plan root ops h with ⟨r, d, rfl, rfl⟩ | ⟨es, rfl, rfl⟩
  · refine ⟨by simp, ?_, by simp, by simp⟩
    intro p node hp hl
    cases p with
    | nil => exact absurd rfl hp
    | cons a q => simp [FsNode.lookup] at hl
  · have hwes : entriesWF es = true := by simpa [FsNode.WF] using hwf
    have hnd := planEntries_nodup es [] hwes
    refine ⟨?_, ?_, hnd, ?_⟩
    · intro o ho
      obtain ⟨name, q, node, hp, hl, ho'⟩ := planEntries_sound es [] o hwes ho
      simp only [List.nil_append] at hp ho'
      refine ⟨by rw [hp]; simp, node, ?_, ?_⟩
      · rw [hp]; simpa [FsNode.lookup] using hl
      · rw [hp]; exact ho'
    · intro p node hp hl
      cases p with
      | nil => exact absurd rfl hp
      | cons a q =>
        simp only [FsNode.lookup] at hl
        have hmem := planEntries_complete es [] a q node hl
        simp only [List.nil_append] at hmem
        exact List.count_eq_one_of_mem (List.Nodup.of_map _ hnd) hmem
    · intro i j d o hi hj hpre hne
      have hpw := planEntries_pairwise es [] hwes
      rw [List.pairwise_iff_getElem] at hpw
      simp only [List.get?_eq_getElem?] at hi hj
      obtain ⟨hi', hgi⟩ := List.getElem?_eq_some.mp hi
      obtain ⟨hj', hgj⟩ := List.getElem?_eq_some.mp hj
      rcases Nat.lt_trichotomy i j with hlt | heq | hgt
      · exact hlt
      · subst heq
        rw [hgi] at hgj
        subst hgj
        exact absurd rfl hne
      · have := hpw j i hj' hi' hgt
        rw [hgi, hgj] at this
        exact absurd ⟨hpre, hne⟩ this

/-- C3 at the tree with `src/main.txt` and `README.md`. -/
theorem C3_plan_one_op_per_entry_witness :
    (exOps.map (fun o => o.relPath)).Nodup :=
  (C3_plan_one_op_per_entry exTree exOps (by decide) (by decide)).2.2.1

/-! ## Claim C4 -/

theorem lookup_nil (fs : FsNode) : fs.lookup [] = some fs := by
  cases fs <;> simp [FsNode.lookup]

theorem replace_nil (fs x : FsNode) : fs.replace [] x = x := by
  cases fs <;> simp [FsNode.replace]

/-- Resolving a path in two parts. -/
theorem lookup_append (p : List String) :
    ∀ (fs t : FsNode) (q : List String), fs.lookup p = some t →
      fs.lookup (p ++ q) = t.lookup q := by
  induction p with
  | nil =>
    intro fs t q h
    rw [lookup_nil] at h
    cases h
    rfl
  | cons a p' ih =>
    intro fs t q h
    cases fs with
    | file r d => simp [FsNode.lookup] at h
    | dir r es =>
      simp only [List.cons_append, FsNode.lookup] at h ⊢
      induction es with
      | nil => simp [lookupEntries] at h
      | cons e es' ihes =>
        obtain ⟨n, node⟩ := e
        simp only [lookupEntries] at h ⊢
        by_cases hn : n = a
        · rw [if_pos hn] at h ⊢
          exact ih node t q h
        · rw [if_neg hn] at h ⊢
          exact ihes h

/-- After a replacement at a path that resolves, the path resolves to the new entry. -/
theorem lookup_replace (p : List String) :
    ∀ (fs t x : FsNode), fs.lookup p = some t → (fs.replace p x).lookup p = some x := by
  induction p with
  | nil =>
    intro fs t x _
    rw [replace_nil, lookup_nil]
  | cons a p' ih =>
    intro fs t x h
    cases fs with
    | file r d => simp [FsNode.lookup] at h
    | dir r es =>
      simp only [FsNode.lookup, FsNode.replace] at h ⊢
      induction es with
      | nil => simp [lookupEntries] at h
      | cons e es' ihes =>
        obtain ⟨n, node⟩ := e
        simp only [lookupEntries, replaceEntries] at h ⊢
        by_cases hn : n = a
        · rw [if_pos hn] at h ⊢
          simp only [lookupEntries, if_pos hn]
          exact ih node t x h
        · rw [if_neg hn] at h ⊢
          simp only [lookupEntries, if_neg hn]
          exact ihes h

/-- A second replacement at the same path overrides the first. -/
theorem replace_replace (p : List String) :
    ∀ (fs x y : FsNode), (fs.replace p x).replace p y = fs.replace p y := by
  induction p with
  | nil => intro fs x y; simp [replace_nil]
  | cons a p' ih =>
    intro fs x y
    cases fs with
    | file r d => simp [FsNode.replace]
    | dir r es =>
      simp only [FsNode.replace, FsNode.dir.injEq, true_and]
      induction es with
      | nil => simp [replaceEntries]
      | cons e es' ihes =>
        obtain ⟨n, node⟩ := e
        simp only [replaceEntries]
        by_cases hn : n = a
        · simp only [if_pos hn, replaceEntries, ih]
        · simp only [if_neg hn, replaceEntries, ihes]

/-- A replacement below a path that resolves is a replacement at that path. -/
theorem replace_append (p : List String) :
    ∀ (fs t y : FsNode) (q : List String), fs.lookup p = some t →
      fs.replace (p ++ q) y = fs.replace p (t.replace q y) := by
  induction p with
  | nil =>
    intro fs t y q h
    rw [lookup_nil] at h
    cases h
    simp [replace_nil]
  | cons a p' ih =>
    intro fs t y q h
    cases fs with
    | file r d => simp [FsNode.lookup] at h
    | dir r es =>
      simp only [List.cons_append, FsNode.lookup, FsNode.replace, FsNode.dir.injEq,
        true_and] at h ⊢
      induction es with
      | nil => simp [lookupEntries] at h
      | cons e es' ihes =>
        obtain ⟨n, node⟩ := e
        simp only [lookupEntries, replaceEntries] at h ⊢
        by_cases hn : n = a
        · rw [if_pos hn] at h
          simp only [if_pos hn, ih node t y q h]
        · rw [if_neg hn] at h
          simp only [if_neg hn, ihes h]

/-- Replacing an entry by itself changes nothing. -/
theorem replace_self (p : List String) :
    ∀ (fs t : FsNode), fs.lookup p = some t → fs.replace p t = fs := by
  induction p with
  | nil =>
    intro fs t h
    rw [lookup_nil] at h
    cases h
    exact replace_nil _ _
  | cons a p' ih =>
    intro fs t h
    cases fs with
    | file r d => simp [FsNode.lookup] at h
    | dir r es =>
      simp only [FsNode.lookup, FsNode.replace, FsNode.dir.injEq, true_and] at h ⊢
      induction es with
      | nil => simp [lookupEntries] at h
      | cons e es' ihes =>
        obtain ⟨n, node⟩ := e
        simp only [lookupEntries, replaceEntries] at h ⊢
        by_cases hn : n = a
        · rw [if_pos hn] at h
          simp only [if_pos hn, ih node t h]
        · rw [if_neg hn] at h
          simp only [if_neg hn, ihes h]

/-- A replacement at a path does not change what a path that branches off resolves to. -/
theorem lookup_replace_disjoint (p : List String) :
    ∀ (fs x : FsNode) (s : List String), ¬ p <+: s → ¬ s <+: p →
      (fs.replace p x).lookup s = fs.lookup s := by
  induction p with
  | nil => intro fs x s h1 _; exact absurd List.nil_prefix h1
  | cons a p' ih =>
    intro fs x s h1 h2
    cases s with
    | nil => exact absurd List.nil_prefix h2
    | cons b s' =>
      cases fs with
      | file r d => simp [FsNode.replace]
      | dir r es =>
        simp only [FsNode.lookup, FsNode.replace]
        induction es with
        | nil => simp [replaceEntries]
        | cons e es' ihes =>
          obtain ⟨n, node⟩ := e
          simp only [replaceEntries]
          by_cases hn : n = a
          · simp only [if_pos hn, lookupEntries]
            by_cases hb : n = b
            · simp only [if_pos hb]
              have hab : a = b := hn ▸ hb
              subst hab
              exact ih node x s'
                (fun h => h1 (List.cons_prefix_cons.mpr ⟨rfl, h⟩))
                (fun h => h2 (List.cons_prefix_cons.mpr ⟨rfl, h⟩))
            · simp only [if_neg hb]
          · simp only [if_neg hn, lookupEntries]
            by_cases hb : n = b
            · simp only [if_pos hb]
            · simp only [if_neg hb]
              exact ihes

/-- `MkdirAll` below a path that resolves works on the entry at that path. -/
theorem MkdirAll_append (p : List String) :
    ∀ (fs t t' : FsNode) (q : List String), fs.lookup p = some t → t.MkdirAll q = Except.ok t' →
      fs.MkdirAll (p ++ q) = Except.ok (fs.replace p t') := by
  induction p with
  | nil =>
    intro fs t t' q h ht
    rw [lookup_nil] at h
    cases h
    simp [replace_nil, ht]
  | cons a p' ih =>
    intro fs t t' q h ht
    cases fs with
    | file r d => simp [FsNode.lookup] at h
    | dir r es =>
      simp only [List.cons_append, FsNode.lookup, FsNode.replace, FsNode.MkdirAll] at h ⊢
      have key : mkdirAllEntries es a (p' ++ q) = Except.ok (replaceEntries es a p' t') := by
        induction es with
        | nil => simp [lookupEntries] at h
        | cons e es' ihes =>
          obtain ⟨n, node⟩ := e
          simp only [lookupEntries, replaceEntries, mkdirAllEntries] at h ⊢
          by_cases hn : n = a
          · rw [if_pos hn] at h
            simp only [if_pos hn, ih node t t' q h ht]
          · rw [if_neg hn] at h
            simp only [if_neg hn, ihes h]
      rw [key]

/-- `writeFile` below a path that resolves works on the entry at that path. -/
theorem writeFile_append (p : List String) :
    ∀ (fs t t' : FsNode) (q : List String) (data : List Nat), fs.lookup p = some t →
      t.writeFile q data = Except.ok t' →
      fs.writeFile (p ++ q) data = Except.ok (fs.replace p t') := by
  induction p with
  | nil =>
    intro fs t t' q data h ht
    rw [lookup_nil] at h
    cases h
    simp [replace_nil, ht]
  | cons a p' ih =>
    intro fs t t' q data h ht
    cases fs with
    | file r d => simp [FsNode.lookup] at h
    | dir r es =>
      simp only [List.cons_append, FsNode.lookup, FsNode.replace, FsNode.writeFile] at h ⊢
      have key : writeEntries es a (p' ++ q) data = Except.ok (replaceEntries es a p' t') := by
        induction es with
        | nil => simp [lookupEntries] at h
        | cons e es' ihes =>
          obtain ⟨n, node⟩ := e
          simp only [lookupEntries, replaceEntries, writeEntries] at h ⊢
          by_cases hn : n = a
          · rw [if_pos hn] at h
            simp only [if_pos hn, ih node t t' q data h ht]
          · rw [if_neg hn] at h
            simp only [if_neg hn, ihes h]
      rw [key]

theorem lookupEntries_middle (pre rest : List (String × FsNode)) (n : String) (x : FsNode)
    (q : List String) (hn : n ∉ pre.map Prod.fst) :
    lookupEntries (pre ++ (n, x) :: rest) n q = x.lookup q := by
  induction pre with
  | nil => simp [lookupEntries]
  | cons e pre' ih =>
    obtain ⟨m, node⟩ := e
    simp only [List.map_cons, List.mem_cons, not_or] at hn
    have hm : m ≠ n := fun h => hn.1 h.symm
    simp only [List.cons_append, lookupEntries, if_neg hm]
    exact ih hn.2

theorem mkdirAllEntries_new (es : List (String × FsNode)) (n : String)
    (hn : n ∉ es.map Prod.fst) :
    mkdirAllEntries es n [] = Except.ok (es ++ [(n, FsNode.dir true [])]) := by
  induction es with
  | nil => simp [mkdirAllEntries, newDirs]
  | cons e es' ih =>
    obtain ⟨m, node⟩ := e
    simp only [List.map_cons, List.mem_cons, not_or] at hn
    have hm : m ≠ n := fun h => hn.1 h.symm
    simp only [mkdirAllEntries, if_neg hm, ih hn.2, List.cons_append]

theorem writeEntries_new (es : List (String × FsNode)) (n : String) (data : List Nat)
    (hn : n ∉ es.map Prod.fst) :
    writeEntries es n [] data = Except.ok (es ++ [(n, FsNode.file true data)]) := by
  induction es with
  | nil => simp [writeEntries]
  | cons e es' ih =>
    obtain ⟨m, node⟩ := e
    simp only [List.map_cons, List.mem_cons, not_or] at hn
    have hm : m ≠ n := fun h => hn.1 h.symm
    simp only [writeEntries, if_neg hm, ih hn.2, List.cons_append]

theorem writeEntries_last (es : List (String × FsNode)) (n : String) (r : Bool)
    (old data : List Nat) (hn : n ∉ es.map Prod.fst) :
    writeEntries (es ++ [(n, FsNode.file r old)]) n [] data
      = Except.ok (es ++ [(n, FsNode.file r data)]) := by
  induction es with
  | nil => simp [writeEntries, FsNode.writeFile]
  | cons e es' ih =>
    obtain ⟨m, node⟩ := e
    simp only [List.map_cons, List.mem_cons, not_or] at hn
    have hm : m ≠ n := fun h => hn.1 h.symm
    simp only [List.cons_append, writeEntries, if_neg hm, List.append_eq, ih hn.2]

theorem replaceEntries_last (es : List (String × FsNode)) (n : String) (x y : FsNode)
    (hn : n ∉ es.map Prod.fst) :
    replaceEntries (es ++ [(n, x)]) n [] y = es ++ [(n, y)] := by
  induction es with
  | nil => simp [replaceEntries, replace_nil]
  | cons e es' ih =>
    obtain ⟨m, node⟩ := e
    simp only [List.map_cons, List.mem_cons, not_or] at hn
    have hm : m ≠ n := fun h => hn.1 h.symm
    simp only [List.cons_append, replaceEntries, if_neg hm, List.append_eq, ih hn.2]

/-- `MkdirAll` of a path that is a directory changes nothing. -/
theorem MkdirAll_existing (fs : FsNode) (p : List String) (r : Bool)
    (es : List (String × FsNode)) (h : fs.lookup p = some (FsNode.dir r es)) :
    fs.MkdirAll p = Except.ok fs := by
  have := MkdirAll_append p fs _ _ [] h (show (FsNode.dir r es).MkdirAll [] = _ from rfl)
  rw [List.append_nil, replace_self p fs _ h] at this
  exact this

/-- `MkdirAll` of a new name inside a directory adds an empty directory at its end. -/
theorem MkdirAll_new (fs : FsNode) (p : List String) (r : Bool) (es : List (String × FsNode))
    (n : String) (h : fs.lookup p = some (FsNode.dir r es)) (hn : n ∉ es.map Prod.fst) :
    fs.MkdirAll (p ++ [n])
      = Except.ok (fs.replace p (FsNode.dir r (es ++ [(n, FsNode.dir true [])]))) := by
  apply MkdirAll_append p fs _ _ [n] h
  simp only [FsNode.MkdirAll, mkdirAllEntries_new es n hn]

/-- Writing a new name inside a directory adds a readable file at its end. -/
theorem writeFile_new (fs : FsNode) (p : List String) (r : Bool) (es : List (String × FsNode))
    (n : String) (data : List Nat) (h : fs.lookup p = some (FsNode.dir r es))
    (hn : n ∉ es.map Prod.fst) :
    fs.writeFile (p ++ [n]) data
      = Except.ok (fs.replace p (FsNode.dir r (es ++ [(n, FsNode.file true data)]))) := by
  apply writeFile_append p fs _ _ [n] data h
  simp only [FsNode.writeFile, writeEntries_new es n data hn]

/-- Writing the file that stands last in a directory replaces its content. -/
theorem writeFile_last (fs : FsNode) (p : List String) (r r' : Bool)
    (es : List (String × FsNode)) (n : String) (old data : List Nat)
    (h : fs.lookup p = some (FsNode.dir r (es ++ [(n, FsNode.file r' old)])))
    (hn : n ∉ es.map Prod.fst) :
    fs.writeFile (p ++ [n]) data
      = Except.ok (fs.replace p (FsNode.dir r (es ++ [(n, FsNode.file r' data)]))) := by
  apply writeFile_append p fs _ _ [n] data h
  simp only [FsNode.writeFile, writeEntries_last es n r' old data hn]

/-- Paths below two directories of which neither lies inside the other branch off. -/
theorem paths_branch (S D x y : List String) (h1 : ¬ S <+: D) (h2 : ¬ D <+: S) :
    ¬ (D ++ x) <+: (S ++ y) ∧ ¬ (S ++ y) <+: (D ++ x) := by
  constructor
  · intro h
    have hD : D <+: S ++ y := List.IsPrefix.trans (List.prefix_append D x) h
    rcases List.prefix_or_prefix_of_prefix hD (List.prefix_append S y) with h' | h'
    · exact h2 h'
    · exact h1 h'
  · intro h
    have hS : S <+: D ++ x := List.IsPrefix.trans (List.prefix_append S y) h
    rcases List.prefix_or_prefix_of_prefix hS (List.prefix_append D x) with h' | h'
    · exact h1 h'
    · exact h2 h'

theorem entriesAllReadable_cons (n : String) (node : FsNode) (es : List (String × FsNode)) :
    entriesAllReadable ((n, node) :: es) = true
      ↔ node.allReadable = true ∧ entriesAllReadable es = true := by
  simp [entriesAllReadable]

/-- A tree in which everything can be read is walked without error. -/
theorem walkEntries_of_readable :
    ∀ (f : List (String × FsNode)) (rel : List String) (acc : List op),
      entriesAllReadable f = true →
      walkEntries rel f acc = (acc ++ planEntries rel f, none) := by
  intro f
  induction f using forest_induction with
  | hnil => intro rel acc _; simp [walkEntries, planEntries]
  | hfile n r d rest ih =>
    intro rel acc h
    obtain ⟨-, hrest⟩ := (entriesAllReadable_cons _ _ _).mp h
    simp only [walkEntries, walk, walkFn_entry]
    rw [ih rel _ hrest]
    simp [planEntries]
  | hdir n r es rest ihes ihrest =>
    intro rel acc h
    obtain ⟨hnode, hrest⟩ := (entriesAllReadable_cons _ _ _).mp h
    simp only [FsNode.allReadable, Bool.and_eq_true] at hnode
    obtain ⟨hr, hes⟩ := hnode
    subst hr
    have hfn := walkFn_entry rel n true acc
    simp only [if_true] at hfn
    simp only [walkEntries, walk, if_true]
    rw [hfn]
    simp only [Option.isSome_none, Bool.or_self, Bool.false_eq_true, if_false]
    rw [ihes (rel ++ [n]) _ hes]
    simp only
    rw [ihrest rel _ hrest]
    simp [planEntries]

theorem execOps_append (S D : List String) (l1 l2 : List op) :
    ∀ fs : FsNode,
      execOps S D fs (l1 ++ l2)
        = ((execOps S D (execOps S D fs l1).1 l2).1,
           (execOps S D fs l1).2 ++ (execOps S D (execOps S D fs l1).1 l2).2) := by
  induction l1 with
  | nil => intro fs; simp [execOps]
  | cons o rest ih =>
    intro fs
    simp only [List.cons_append, execOps, List.append_eq, ih]

/-- Copying a readable file to a new name inside an existing directory. -/
theorem copyFile_new (fs : FsNode) (srcp dparent : List String) (n : String) (r : Bool)
    (pre : List (String × FsNode)) (data : List Nat)
    (hsrc : fs.lookup srcp = some (FsNode.file true data))
    (hdst : fs.lookup dparent = some (FsNode.dir r pre)) (hn : n ∉ pre.map Prod.fst)
    (hb1 : ¬ dparent <+: srcp) (hb2 : ¬ srcp <+: dparent) :
    copyFile fs srcp (dparent ++ [n])
      = (fs.replace dparent (FsNode.dir r (pre ++ [(n, FsNode.file true data)])), none) := by
  have h1 : fs.MkdirAll dparent = Except.ok fs := MkdirAll_existing fs dparent r pre hdst
  have h2 := writeFile_new fs dparent r pre n [] hdst hn
  have h3 : (fs.replace dparent (FsNode.dir r (pre ++ [(n, FsNode.file true [])]))).lookup srcp
      = some (FsNode.file true data) := by
    rw [lookup_replace_disjoint dparent fs _ srcp hb1 hb2, hsrc]
  have h4 := writeFile_last (fs.replace dparent (FsNode.dir r (pre ++ [(n, FsNode.file true [])])))
    dparent r true pre n [] data (lookup_replace dparent fs _ _ hdst) hn
  rw [replace_replace] at h4
  simp only [copyFile, hsrc, List.dropLast_concat, h1, h2, h3, h4]

theorem execOps_cons (S D : List String) (fs : FsNode) (o : op) (l : List op) :
    execOps S D fs (o :: l)
      = ((execOps S D (stepOp S D fs o).1 l).1,
         (stepOp S D fs o).2 :: (execOps S D (stepOp S D fs o).1 l).2) := by
  simp only [execOps]

theorem stepOp_copy (S D : List String) (fs : FsNode) (p : List String) :
    stepOp S D fs { opType := "copy", relPath := p } = copyFile fs (S ++ p) (D ++ p) := by
  have h : ¬ ("copy" = "mkdir") := by decide
  simp only [stepOp, if_neg h, if_true]

theorem stepOp_mkdir (S D : List String) (fs fs1 : FsNode) (p : List String)
    (h : fs.MkdirAll (D ++ p) = Except.ok fs1) :
    stepOp S D fs { opType := "mkdir", relPath := p } = (fs1, none) := by
  simp only [stepOp, if_true, h]

theorem entriesWF_nodup (es : List (String × FsNode)) (h : entriesWF es = true) :
    (es.map Prod.fst).Nodup := by
  induction es with
  | nil => simp
  | cons e es' ih =>
    obtain ⟨n, node⟩ := e
    obtain ⟨hn, -, hrest⟩ := (entriesWF_cons _ _ _).mp h
    simp only [List.map_cons, List.nodup_cons]
    exact ⟨hn, ih hrest⟩

theorem nodup_middle (pre rest : List (String × FsNode)) (n : String) (x : FsNode)
    (h : ((pre ++ (n, x) :: rest).map Prod.fst).Nodup) : n ∉ pre.map Prod.fst := by
  simp only [List.map_append, List.map_cons] at h
  intro hmem
  have := (List.nodup_append.mp h).2.2
  exact this hmem (List.mem_cons_self _ _)

/-- Running the plan of the entries `f` of the source directory at `rel`, when the entries
`pre` before them are already in the destination directory: the destination directory ends
with all the entries, and no step fails. -/
theorem exec_plan (S D : List String) (hb1 : ¬ S <+: D) (hb2 : ¬ D <+: S) :
    ∀ (f : List (String × FsNode)) (rel : List String) (pre : List (String × FsNode))
      (fs : FsNode),
      fs.lookup (S ++ rel) = some (FsNode.dir true (pre ++ f)) →
      fs.lookup (D ++ rel) = some (FsNode.dir true pre) →
      ((pre ++ f).map Prod.fst).Nodup →
      entriesWF f = true → entriesAllReadable f = true →
      (execOps S D fs (planEntries rel f)).1
          = fs.replace (D ++ rel) (FsNode.dir true (pre ++ f))
        ∧ ∀ e ∈ (execOps S D fs (planEntries rel f)).2, e = none := by
  intro f
  induction f using forest_induction with
  | hnil =>
    intro rel pre fs _ hD _ _ _
    simp only [planEntries, execOps, List.append_nil]
    exact ⟨(replace_self _ fs _ hD).symm, by simp⟩
  | hfile n r d rest ih =>
    intro rel pre fs hS hD hnd hwf hrd
    obtain ⟨-, -, hwrest⟩ := (entriesWF_cons _ _ _).mp hwf
    obtain ⟨hnode, hrrest⟩ := (entriesAllReadable_cons _ _ _).mp hrd
    simp only [FsNode.allReadable] at hnode
    subst hnode
    have hn : n ∉ pre.map Prod.fst := nodup_middle pre rest n _ hnd
    have hsrc : fs.lookup (S ++ (rel ++ [n])) = some (FsNode.file true d) := by
      rw [← List.append_assoc, lookup_append (S ++ rel) fs _ [n] hS]
      simp only [FsNode.lookup, lookupEntries_middle pre rest n _ [] hn, lookup_nil]
    have hbr := paths_branch S D rel (rel ++ [n]) hb1 hb2
    have hcopy := copyFile_new fs (S ++ (rel ++ [n])) (D ++ rel) n true pre d hsrc hD hn
      hbr.1 hbr.2
    have hstep : stepOp S D fs { opType := "copy", relPath := rel ++ [n] }
        = (fs.replace (D ++ rel) (FsNode.dir true (pre ++ [(n, FsNode.file true d)])), none) := by
      rw [stepOp_copy, ← List.append_assoc D rel [n], hcopy]
    have hbr' := paths_branch S D rel rel hb1 hb2
    obtain ⟨ih1, ih2⟩ := ih rel (pre ++ [(n, FsNode.file true d)])
      (fs.replace (D ++ rel) (FsNode.dir true (pre ++ [(n, FsNode.file true d)])))
      (by rw [lookup_replace_disjoint _ fs _ _ hbr'.1 hbr'.2, hS]; simp)
      (lookup_replace _ fs _ _ hD)
      (by simpa using hnd) hwrest hrrest
    simp only [planEntries, execOps_cons, hstep]
    refine ⟨?_, ?_⟩
    · rw [ih1, replace_replace]; simp
    · intro e he
      rcases List.mem_cons.mp he with rfl | he'
      · rfl
      · exact ih2 e he'
  | hdir n r es rest ihes ihrest =>
    intro rel pre fs hS hD hnd hwf hrd
    obtain ⟨-, hwnode, hwrest⟩ := (entriesWF_cons _ _ _).mp hwf
    have hwes : entriesWF es = true := by simpa [FsNode.WF] using hwnode
    obtain ⟨hnode, hrrest⟩ := (entriesAllReadable_cons _ _ _).mp hrd
    simp only [FsNode.allReadable, Bool.and_eq_true] at hnode
    obtain ⟨hr, hres⟩ := hnode
    subst hr
    have hn : n ∉ pre.map Prod.fst := nodup_middle pre rest n _ hnd
    have hbr := paths_branch S D rel (rel ++ [n]) hb1 hb2
    have hbr' := paths_branch S D rel rel hb1 hb2
    -- the "mkdir" step
    have hmk := MkdirAll_new fs (D ++ rel) true pre n hD hn
    rw [List.append_assoc] at hmk
    have hstep := stepOp_mkdir S D fs _ (rel ++ [n]) hmk
    -- the entries below the new directory
    have hS1 : (fs.replace (D ++ rel)
        (FsNode.dir true (pre ++ [(n, FsNode.dir true [])]))).lookup (S ++ (rel ++ [n]))
        = some (FsNode.dir true ([] ++ es)) := by
      rw [lookup_replace_disjoint _ fs _ _ hbr.1 hbr.2, ← List.append_assoc,
        lookup_append (S ++ rel) fs _ [n] hS]
      simp only [FsNode.lookup, lookupEntries_middle pre rest n _ [] hn, lookup_nil,
        List.nil_append]
    have hD0 := lookup_replace (D ++ rel) fs _
      (FsNode.dir true (pre ++ [(n, FsNode.dir true [])])) hD
    have hD1 : (fs.replace (D ++ rel)
        (FsNode.dir true (pre ++ [(n, FsNode.dir true [])]))).lookup (D ++ (rel ++ [n]))
        = some (FsNode.dir true []) := by
      rw [← List.append_assoc, lookup_append (D ++ rel) _ _ [n] hD0]
      simp only [FsNode.lookup, lookupEntries_middle pre [] n _ [] hn, lookup_nil]
    obtain ⟨ie1, ie2⟩ := ihes (rel ++ [n]) []
      (fs.replace (D ++ rel) (FsNode.dir true (pre ++ [(n, FsNode.dir true [])])))
      hS1 hD1 (by simpa using entriesWF_nodup es hwes) hwes hres
    have hfs2 : (fs.replace (D ++ rel)
        (FsNode.dir true (pre ++ [(n, FsNode.dir true [])]))).replace (D ++ (rel ++ [n]))
          (FsNode.dir true ([] ++ es))
        = fs.replace (D ++ rel) (FsNode.dir true (pre ++ [(n, FsNode.dir true es)])) := by
      rw [← List.append_assoc, replace_append (D ++ rel) _ _ _ [n] hD0, replace_replace]
      simp only [FsNode.replace, replaceEntries_last pre n _ _ hn, List.nil_append]
    rw [hfs2] at ie1
    -- the entries after the directory
    obtain ⟨ir1, ir2⟩ := ihrest rel (pre ++ [(n, FsNode.dir true es)])
      (fs.replace (D ++ rel) (FsNode.dir true (pre ++ [(n, FsNode.dir true es)])))
      (by rw [lookup_replace_disjoint _ fs _ _ hbr'.1 hbr'.2, hS]; simp)
      (lookup_replace _ fs _ _ hD)
      (by simpa using hnd) hwrest hrrest
    simp only [planEntries, execOps_cons, hstep, execOps_append, ie1]
    refine ⟨?_, ?_⟩
    · rw [ir1, replace_replace]; simp
    · intro e he
      rcases List.mem_cons.mp he with rfl | he'
      · rfl
      · rcases List.mem_append.mp he' with h1 | h2
        · exact ie2 e h1
        · exact ir2 e h2

/-- C4 fails as stated. A template whose only file cannot be opened for reading is walked
without error, its plan is the copy of that file, and after the plan has run the destination
has no entry at the file's path. And when the empty project directory lies inside the template
(the working directory is the template), the plan holds the `mkdir` of that directory and
running it adds a directory inside the source tree. -/
theorem C4_counterexample :
    exWorldUnreadable.lookup ["tpl"] = some exTreeUnreadable
      ∧ exWorldUnreadable.lookup ["out"] = some (FsNode.dir true [])
      ∧ buildOps (Except.ok exTreeUnreadable)
          = ([{ opType := "copy", relPath := ["secret"] }], none)
      ∧ exTreeUnreadable.lookup ["secret"] = some (FsNode.file false [1])
      ∧ (execOps ["tpl"] ["out"] exWorldUnreadable
            [{ opType := "copy", relPath := ["secret"] }]).1.lookup ["out", "secret"] = none
      ∧ exWorldInside.lookup ["tpl"] = some exTreeInside
      ∧ exWorldInside.lookup ["tpl", "demo"] = some (FsNode.dir true [])
      ∧ buildOps (Except.ok exTreeInside) = ([{ opType := "mkdir", relPath := ["demo"] }], none)
      ∧ exWorldInside.lookup ["tpl", "demo", "demo"] = none
      ∧ (execOps ["tpl"] ["tpl", "demo"] exWorldInside
            [{ opType := "mkdir", relPath := ["demo"] }]).1.lookup ["tpl", "demo", "demo"]
          = some (FsNode.dir true []) :=
  ⟨rfl, rfl, by decide, rfl, rfl, rfl, rfl, by decide, rfl, rfl⟩

/-- C4 as amended: for a file system `fs` whose source directory (at the path `S`) is a
well-formed tree in which every directory can be listed and every file can be opened for
reading, and whose destination (at the path `D`) is an empty directory, neither path lying
inside the other: `buildOps` walks the source without error, and running every operation of
its plan in list order with the step logic of `nextOpCmd` fails at no step, leaves at `D` a
tree equal to the source tree (so every relative path resolves in the destination to what it
resolves to in the source: the same directories and files with the same bytes), and leaves
the source tree unchanged. -/
theorem C4_copy_reproduces_tree (fs src : FsNode) (S D : List String)
    (hS : fs.lookup S = some src) (hD : fs.lookup D = some (FsNode.dir true []))
    (hdir : src.isDir = true) (hwf : src.WF = true) (hrd : src.allReadable = true)
    (hb1 : ¬ S <+: D) (hb2 : ¬ D <+: S) :
    ∃ ops, buildOps (Except.ok src) = (ops, none)
      ∧ (∀ e ∈ (execOps S D fs ops).2, e = none)
      ∧ (execOps S D fs ops).1.lookup D = some src
      ∧ (∀ p, (execOps S D fs ops).1.lookup (D ++ p) = src.lookup p)
      ∧ (execOps S D fs ops).1.lookup S = some src
      ∧ (∀ p, (execOps S D fs ops).1.lookup (S ++ p) = fs.lookup (S ++ p)) := by
  cases src with
  | file r d => simp [FsNode.isDir] at hdir
  | dir r es =>
    simp only [FsNode.allReadable, Bool.and_eq_true] at hrd
    obtain ⟨hr, hres⟩ := hrd
    subst hr
    have hwes : entriesWF es = true := by simpa [FsNode.WF] using hwf
    have hplan : buildOps (Except.ok (FsNode.dir true es)) = (planEntries [] es, none) := by
      have := walkEntries_of_readable es [] [] hres
      simp [buildOps, walk, walkFn, this]
    obtain ⟨h1, h2⟩ := exec_plan S D hb1 hb2 es [] [] fs
      (by simpa using hS) (by simpa using hD) (by simpa using entriesWF_nodup es hwes) hwes hres
    simp only [List.append_nil, List.nil_append] at h1
    have hlD : (fs.replace D (FsNode.dir true es)).lookup D = some (FsNode.dir true es) :=
      lookup_replace D fs _ _ hD
    refine ⟨planEntries [] es, hplan, h2, ?_, ?_, ?_, ?_⟩
    · rw [h1]; exact hlD
    · intro p
      rw [h1, lookup_append D _ _ p hlD]
    · rw [h1, lookup_replace_disjoint D fs _ S hb2 hb1]; exact hS
    · intro p
      have hbr := paths_branch S D [] p hb1 hb2
      rw [List.append_nil] at hbr
      rw [h1, lookup_replace_disjoint D fs _ (S ++ p) hbr.1 hbr.2]

/-- C4 as amended, at the file system with the scenario's template (`src/main.txt` and
`README.md`) at `tpl` and the empty project directory at `out`. -/
theorem C4_copy_reproduces_tree_witness :
    ∃ ops, buildOps (Except.ok exTree) = (ops, none)
      ∧ (∀ e ∈ (execOps ["tpl"] ["out"] exWorld ops).2, e = none)
      ∧ (execOps ["tpl"] ["out"] exWorld ops).1.lookup ["out"] = some exTree
      ∧ (∀ p, (execOps ["tpl"] ["out"] exWorld ops).1.lookup (["out"] ++ p) = exTree.lookup p)
      ∧ (execOps ["tpl"] ["out"] exWorld ops).1.lookup ["tpl"] = some exTree
      ∧ (∀ p, (execOps ["tpl"] ["out"] exWorld ops).1.lookup (["tpl"] ++ p)
            = exWorld.lookup (["tpl"] ++ p)) :=
  C4_copy_reproduces_tree exWorld exTree ["tpl"] ["out"] rfl rfl (by decide) (by decide)
    (by decide) (by decide) (by decide)

/-! ## Claim C12 -/

/-- C12, the code at the failing input: in search mode the instructions on screen name `j/k`
for navigation and the down and up arrow keys move the search cursor, but the key `j` is
appended to the query (the results are filtered anew, here to none, and the search cursor is
set to 0), and so is the key `k`. -/
theorem C12_search_jk_are_typed :
    View exStyle exEnv exSearchW
        = some (Screen.select (some "Search: w|") [(true, "web-app"), (false, "worker")]
            " Navigate : ↑/↓ or j/k\n Select   : Enter\n ESC      : Cancel Search\n Exit     : ctrl+c"
            "web-app"
            (GetFileTree exStyle exEnv.ToLower
              (exEnv.Lstat (exEnv.Join templateDir "web-app")) (-1)))
      ∧ Update exEnv exSearchW (Msg.KeyMsg keyDown)
          = some ({ exSearchW with searchCursor := 1 }, [])
      ∧ Update exEnv exSearchW (Msg.KeyMsg keyJ)
          = some ({ exSearchW with searchQuery := "wj", searchResults := [],
                                   searchCursor := 0 }, [])
      ∧ Update exEnv exTwoResults (Msg.KeyMsg keyUp)
          = some ({ exTwoResults with searchCursor := 0 }, [])
      ∧ Update exEnv exTwoResults (Msg.KeyMsg keyK)
          = some ({ exTwoResults with searchQuery := "wk", searchResults := [],
                                      searchCursor := 0 }, []) :=
  ⟨rfl, by decide, by decide, by decide, by decide⟩

/-- In search mode a typed character that is not a named key, `j` and `k` among them, is
appended to the query. -/
theorem search_rune_appends (env : Env) (m : model) (c : Char)
    (hstage : m.stage = stageSelectTemplate) (hmode : m.searchMode = true)
    (hc : c ≠ '?') :
    Update env m (Msg.KeyMsg (keyRune c))
      = some ({ m with searchQuery := m.searchQuery ++ String.mk [c],
                       searchResults :=
                         FilterTemplates env.ToLower m.templates (m.searchQuery ++ String.mk [c]),
                       searchCursor := 0 }, []) := by
  have hs : (keyRune c).String = String.mk [c] := by
    simp [keyRune, KeyMsg.String]
  have h1 : (keyRune c).String ≠ "ctrl+c" := by
    rw [hs]; intro h
    have := congrArg String.length h
    simp [String.length] at this
  have h2 : (keyRune c).String ≠ "?" := by
    rw [hs]; intro h
    have : [c] = ['?'] := congrArg String.data h
    simp at this
    exact hc this
  rw [Update_search env m _ hstage hmode h1 h2]
  have ht : (keyRune c).type = KeyType.KeyRunes := rfl
  simp only [updateSearch, ht, hs]

/-! ## Claim C14 -/

theorem stage_values :
    stageSelectTemplate = 0 ∧ stageProjectName = 1 ∧ stageCopying = 2 ∧ stageDone = 3 :=
  ⟨rfl, rfl, rfl, rfl⟩

/-- C14: for every model whose stage is one of the four stages and every message, the stage
of the model that `Update` returns is at least the stage of the input model and is again one of
the four stages; and for a key press it is at most one stage further. -/
theorem C14_stage_never_decreases (env : Env) (m m' : model) (msg : Msg) (cmds : List Cmd)
    (h0 : stageSelectTemplate ≤ m.stage) (h3 : m.stage ≤ stageDone)
    (hU : Update env m msg = some (m', cmds)) :
    m.stage ≤ m'.stage ∧ m'.stage ≤ stageDone
      ∧ (∀ k, msg = Msg.KeyMsg k → m'.stage ≤ m.stage + 1) := by
  obtain ⟨e0, e1, e2, e3⟩ := stage_values
  rw [e0] at h0
  rw [e3] at h3 ⊢
  cases msg with
  | KeyMsg k =>
    unfold Update at hU
    simp only at hU
    split_ifs at hU with h1 h2 h4 h5 h6
    · simp at hU; obtain ⟨rfl, -⟩ := hU
      exact ⟨le_refl _, h3, fun _ _ => by omega⟩
    · simp at hU; obtain ⟨rfl, -⟩ := hU
      exact ⟨le_refl _, h3, fun _ _ => by simp⟩
    · obtain ⟨-, hst⟩ := updateSearch_cmds env m m' k cmds hU
      have hm : m.stage = 0 := by rw [h4.1, e0]
      rcases hst with hst | hst
      · rw [hst]; exact ⟨le_refl _, h3, fun _ _ => by omega⟩
      · rw [hst, e1, hm]; exact ⟨by omega, by omega, fun _ _ => by omega⟩
    · obtain ⟨-, hst⟩ := updateBrowse_cmds env m m' k cmds hU
      have hm : m.stage = 0 := by rw [h5, e0]
      rcases hst with hst | hst
      · rw [hst]; exact ⟨le_refl _, h3, fun _ _ => by omega⟩
      · rw [hst, e1, hm]; exact ⟨by omega, by omega, fun _ _ => by omega⟩
    · have hm : m.stage = 1 := by rw [h6, e1]
      rcases updateName_cmds env m m' k cmds hU with ⟨-, hst⟩ | ⟨-, hst, -⟩
      · rw [hst]; exact ⟨le_refl _, h3, fun _ _ => by omega⟩
      · rw [hst, e2, hm]; exact ⟨by omega, by omega, fun _ _ => by omega⟩
    · obtain ⟨rfl, -⟩ := finish_eq _ _ _ _ hU
      exact ⟨le_refl _, h3, fun _ _ => by omega⟩
  | blinkMsg =>
    obtain ⟨rfl, -⟩ := finish_eq _ _ _ _ hU
    exact ⟨le_refl _, h3, fun _ h => by cases h⟩
  | spinnerTickMsg =>
    obtain ⟨rfl, -⟩ := finish_eq _ _ _ _ hU
    exact ⟨le_refl _, h3, fun _ h => by cases h⟩
  | opProcessedMsg o e =>
    have hst := (Update_cmds env m m' _ cmds hU).2.2.2 o e rfl
    rw [hst]
    exact ⟨le_refl _, h3, fun _ h => by cases h⟩
  | copyFinishedMsg =>
    obtain ⟨rfl, -⟩ := finish_eq _ _ _ _ hU
    exact ⟨by show m.stage ≤ stageDone; rw [e3]; exact h3,
      by show stageDone ≤ 3; rw [e3], fun _ h => by cases h⟩
  | otherMsg =>
    obtain ⟨rfl, -⟩ := finish_eq _ _ _ _ hU
    exact ⟨le_refl _, h3, fun _ h => by cases h⟩

/-- C14 at a concrete input: name confirmation moves the stage from ProjectName to Copying. -/
theorem C14_stage_never_decreases_witness :
    exNamed.stage ≤ exCopying.stage ∧ exCopying.stage ≤ stageDone
      ∧ (∀ k, Msg.KeyMsg keyEnter = Msg.KeyMsg k → exCopying.stage ≤ exNamed.stage + 1) :=
  C14_stage_never_decreases exEnv exNamed exCopying (Msg.KeyMsg keyEnter)
    [Cmd.nextOpCmd exCopying, Cmd.spinnerTick] (by decide) (by decide) (by decide)

/-! ## Claim C13 -/

theorem updateName_frame (env : Env) (m : model) (k : KeyMsg) :
    ∃ m' cmds, updateName env m k = some (m', cmds) ∧ m'.templates = m.templates
      ∧ m'.cursor = m.cursor ∧ m'.searchMode = m.searchMode
      ∧ m'.searchCursor = m.searchCursor ∧ m'.searchResults = m.searchResults := by
  cases hk : k.type <;> simp only [updateName, hk, finish] <;> (repeat' split) <;>
    exact ⟨_, _, rfl, rfl, rfl, rfl, rfl, rfl⟩

theorem findSelection_bounds (sel : String) :
    ∀ (l : List String) (i0 i : Int), findSelection sel l i0 = some i →
      i0 ≤ i ∧ i < i0 + (l.length : Int) := by
  intro l
  induction l with
  | nil => intro i0 i h; simp [findSelection] at h
  | cons t rest ih =>
    intro i0 i h
    simp only [findSelection] at h
    simp only [List.length_cons]
    push_cast
    split_ifs at h with ht
    · simp at h; subst h; omega
    · have := ih (i0 + 1) i h; omega

/-- The Backspace key in search mode. -/
theorem updateSearch_backspace (env : Env) (m : model) (k : KeyMsg)
    (hk : k.type = KeyType.KeyBackspace) :
    updateSearch env m k
      = some ({ m with
                  searchQuery :=
                    if m.searchQuery ≠ "" then dropLast env.cutLastByte m.searchQuery
                    else m.searchQuery,
                  searchResults :=
                    FilterTemplates env.ToLower m.templates
                      (if m.searchQuery ≠ "" then dropLast env.cutLastByte m.searchQuery
                       else m.searchQuery),
                  searchCursor :=
                    if m.searchCursor ≥
                          ((FilterTemplates env.ToLower m.templates
                            (if m.searchQuery ≠ "" then dropLast env.cutLastByte m.searchQuery
                             else m.searchQuery)).length : Int)
                        ∧ (FilterTemplates env.ToLower m.templates
                            (if m.searchQuery ≠ "" then dropLast env.cutLastByte m.searchQuery
                             else m.searchQuery)).length > 0
                    then ((FilterTemplates env.ToLower m.templates
                            (if m.searchQuery ≠ "" then dropLast env.cutLastByte m.searchQuery
                             else m.searchQuery)).length : Int) - 1
                    else m.searchCursor }, []) := by
  simp only [updateSearch, hk]
  by_cases hq : m.searchQuery ≠ ""
  · simp only [if_pos hq]
    split_ifs <;> rfl
  · simp only [if_neg hq]
    split_ifs <;> rfl

/-- A key in search mode: no panic, and the cursors stay in range. -/
theorem updateSearch_inv (env : Env) (m : model) (k : KeyMsg) (h : cursorsInRange m)
    (hmode : m.searchMode = true) :
    ∃ m' cmds, updateSearch env m k = some (m', cmds) ∧ cursorsInRange m'
      ∧ m'.templates = m.templates := by
  obtain ⟨⟨hc0, hc1⟩, hs⟩ := h
  obtain ⟨hs0, hs1⟩ := hs hmode
  have hpos : ∀ l : List String, l ≠ [] → (0 : Int) < (l.length : Int) :=
    fun l hl => Int.natCast_pos.mpr (List.length_pos.mpr hl)
  cases hk : k.type
  case KeyEsc =>
    simp only [updateSearch, hk]
    refine ⟨_, _, rfl, ?_, rfl⟩
    unfold cursorsInRange
    exact ⟨⟨hc0, hc1⟩, fun hf => by simp at hf⟩
  case KeyEnter =>
    by_cases hlen : m.searchResults.length > 0
    · have hne : m.searchResults ≠ [] := List.length_pos.mp hlen
      obtain ⟨sel, hidx, -⟩ := index_of_bounds m.searchResults m.searchCursor hs0 (hs1 hne)
      simp only [updateSearch, hk, hlen, if_true, hidx]
      cases hf : findSelection sel m.templates 0 with
      | none =>
        refine ⟨_, _, rfl, ?_, rfl⟩
        unfold cursorsInRange
        exact ⟨⟨hc0, hc1⟩, fun hf => by simp at hf⟩
      | some i =>
        have hb := findSelection_bounds sel m.templates 0 i hf
        refine ⟨_, _, rfl, ?_, rfl⟩
        unfold cursorsInRange
        exact ⟨⟨hb.1, by have := hb.2; simpa using this⟩, fun hf => by simp at hf⟩
    · simp only [updateSearch, hk, hlen, if_false]
      refine ⟨_, _, rfl, ?_, rfl⟩
      unfold cursorsInRange
      exact ⟨⟨hc0, hc1⟩, fun hf => by simp at hf⟩
  case KeyBackspace =>
    rw [updateSearch_backspace env m k hk]
    refine ⟨_, _, rfl, ?_, rfl⟩
    unfold cursorsInRange
    refine ⟨⟨hc0, hc1⟩, fun _ => ?_⟩
    generalize FilterTemplates env.ToLower m.templates
      (if m.searchQuery ≠ "" then dropLast env.cutLastByte m.searchQuery
       else m.searchQuery) = R
    show 0 ≤ (if m.searchCursor ≥ (R.length : Int) ∧ R.length > 0 then (R.length : Int) - 1
              else m.searchCursor)
      ∧ (R ≠ [] →
          (if m.searchCursor ≥ (R.length : Int) ∧ R.length > 0 then (R.length : Int) - 1
            else m.searchCursor) < (R.length : Int))
    by_cases hclamp : m.searchCursor ≥ (R.length : Int) ∧ R.length > 0
    · rw [if_pos hclamp]
      have := hclamp.2
      exact ⟨by omega, fun _ => by omega⟩
    · rw [if_neg hclamp]
      refine ⟨hs0, fun hne => ?_⟩
      have hp := List.length_pos.mpr hne
      by_contra hcon
      exact hclamp ⟨by omega, hp⟩
  case KeyUp =>
    simp only [updateSearch, hk]
    split_ifs with hgt
    all_goals refine ⟨_, _, rfl, ?_, rfl⟩
    all_goals unfold cursorsInRange
    · exact ⟨⟨hc0, hc1⟩, fun _ => ⟨by show (0 : Int) ≤ m.searchCursor - 1; omega,
        fun hne => by
          have := hs1 hne
          show m.searchCursor - 1 < (m.searchResults.length : Int)
          omega⟩⟩
    · exact ⟨⟨hc0, hc1⟩, fun _ => ⟨hs0, hs1⟩⟩
  case KeyShiftUp =>
    simp only [updateSearch, hk]
    split_ifs with hgt
    all_goals refine ⟨_, _, rfl, ?_, rfl⟩
    all_goals unfold cursorsInRange
    · exact ⟨⟨hc0, hc1⟩, fun _ => ⟨by show (0 : Int) ≤ m.searchCursor - 1; omega,
        fun hne => by
          have := hs1 hne
          show m.searchCursor - 1 < (m.searchResults.length : Int)
          omega⟩⟩
    · exact ⟨⟨hc0, hc1⟩, fun _ => ⟨hs0, hs1⟩⟩
  case KeyDown =>
    simp only [updateSearch, hk]
    split_ifs with hlt
    all_goals refine ⟨_, _, rfl, ?_, rfl⟩
    all_goals unfold cursorsInRange
    · exact ⟨⟨hc0, hc1⟩, fun _ => ⟨by show (0 : Int) ≤ m.searchCursor + 1; omega,
        fun _ => by
          show m.searchCursor + 1 < (m.searchResults.length : Int)
          omega⟩⟩
    · exact ⟨⟨hc0, hc1⟩, fun _ => ⟨hs0, hs1⟩⟩
  case KeyShiftDown =>
    simp only [updateSearch, hk]
    split_ifs with hlt
    all_goals refine ⟨_, _, rfl, ?_, rfl⟩
    all_goals unfold cursorsInRange
    · exact ⟨⟨hc0, hc1⟩, fun _ => ⟨by show (0 : Int) ≤ m.searchCursor + 1; omega,
        fun _ => by
          show m.searchCursor + 1 < (m.searchResults.length : Int)
          omega⟩⟩
    · exact ⟨⟨hc0, hc1⟩, fun _ => ⟨hs0, hs1⟩⟩
  all_goals
    simp only [updateSearch, hk]
    refine ⟨_, _, rfl, ?_, rfl⟩
    unfold cursorsInRange
    exact ⟨⟨hc0, hc1⟩, fun _ => ⟨le_refl _, fun hne => hpos _ hne⟩⟩

/-- A key in browse mode: no panic, and the cursors stay in range. -/
theorem updateBrowse_inv (env : Env) (m : model) (k : KeyMsg) (h : cursorsInRange m)
    (hmode : m.searchMode = false) :
    ∃ m' cmds, updateBrowse env m k = some (m', cmds) ∧ cursorsInRange m'
      ∧ m'.templates = m.templates := by
  obtain ⟨⟨hc0, hc1⟩, -⟩ := h
  obtain ⟨t, hidx, -⟩ := index_of_bounds m.templates m.cursor hc0 hc1
  have hno : ∀ {P : Prop}, m.searchMode = true → P := by
    intro P hf; rw [hmode] at hf; cases hf
  simp only [updateBrowse, hidx, finish]
  split_ifs
  all_goals refine ⟨_, _, rfl, ?_, rfl⟩
  all_goals unfold cursorsInRange
  all_goals first
    | exact ⟨⟨hc0, hc1⟩, fun hf => hno hf⟩
    | exact ⟨⟨hc0, hc1⟩, fun _ => ⟨le_refl _, fun _ => by
        show (0 : Int) < (m.templates.length : Int)
        omega⟩⟩
    | exact ⟨⟨by show (0 : Int) ≤ m.cursor - 1; omega, by
        show m.cursor - 1 < (m.templates.length : Int); omega⟩, fun hf => hno hf⟩
    | exact ⟨⟨by show (0 : Int) ≤ m.cursor + 1; omega, by
        show m.cursor + 1 < (m.templates.length : Int); omega⟩, fun hf => hno hf⟩

/-- One call of `Update` on a model whose cursors are in range: no panic, the cursors stay in
range and the template list stays the same. -/
theorem Update_inv (env : Env) (m : model) (msg : Msg) (h : cursorsInRange m) :
    ∃ m' cmds, Update env m msg = some (m', cmds) ∧ cursorsInRange m'
      ∧ m'.templates = m.templates := by
  have hkeep : ∀ m' : model, m'.templates = m.templates → m'.cursor = m.cursor →
      m'.searchMode = m.searchMode → m'.searchCursor = m.searchCursor →
      m'.searchResults = m.searchResults → cursorsInRange m' := by
    intro m' h1 h2 h3 h4 h5
    unfold cursorsInRange at h ⊢
    rw [h1, h2, h3, h4, h5]
    exact h
  cases msg with
  | KeyMsg k =>
    unfold Update
    simp only
    split_ifs with h1 h2 h3 h4 h5
    · exact ⟨_, _, rfl, h, rfl⟩
    · exact ⟨_, _, rfl, hkeep _ rfl rfl rfl rfl rfl, rfl⟩
    · exact updateSearch_inv env m k h h3.2
    · have hmode : m.searchMode = false := by
        cases hm : m.searchMode with
        | false => rfl
        | true => exact absurd ⟨h4, hm⟩ h3
      exact updateBrowse_inv env m k h hmode
    · obtain ⟨m', cmds, hU, ht, hc, hsm, hsc, hsr⟩ := updateName_frame env m k
      exact ⟨m', cmds, hU, hkeep m' ht hc hsm hsc hsr, ht⟩
    · simp only [finish]
      split_ifs <;> exact ⟨_, _, rfl, h, rfl⟩
  | blinkMsg =>
    simp only [Update, finish]
    split_ifs <;> exact ⟨_, _, rfl, hkeep _ rfl rfl rfl rfl rfl, rfl⟩
  | spinnerTickMsg =>
    simp only [Update, finish]
    split_ifs <;> exact ⟨_, _, rfl, hkeep _ rfl rfl rfl rfl rfl, rfl⟩
  | opProcessedMsg o e =>
    cases e <;> simp only [Update, finish] <;> split_ifs <;>
      exact ⟨_, _, rfl, hkeep _ rfl rfl rfl rfl rfl, rfl⟩
  | copyFinishedMsg =>
    simp only [Update, finish]
    split_ifs <;> exact ⟨_, _, rfl, hkeep _ rfl rfl rfl rfl rfl, rfl⟩
  | otherMsg =>
    simp only [Update, finish]
    split_ifs <;> exact ⟨_, _, rfl, h, rfl⟩

theorem runEvents_inv (events : List (Env × Msg)) :
    ∀ m : model, cursorsInRange m →
      ∃ m', runEvents m events = some m' ∧ cursorsInRange m' := by
  induction events with
  | nil => intro m h; exact ⟨m, rfl, h⟩
  | cons e rest ih =>
    intro m h
    obtain ⟨env, msg⟩ := e
    obtain ⟨m1, cmds, hU, h1, -⟩ := Update_inv env m msg h
    obtain ⟨m', hR, h'⟩ := ih m1 h1
    exact ⟨m', by simp only [runEvents, hU]; exact hR, h'⟩

theorem browseRows_some (m : model) :
    ∀ (n : Nat) (i : Int), 0 ≤ i → i + (n : Int) ≤ (m.templates.length : Int) →
      ∃ rows, browseRows m i n = some rows := by
  intro n
  induction n with
  | zero => intro i _ _; exact ⟨[], rfl⟩
  | succ n ih =>
    intro i h0 h1
    push_cast at h1
    obtain ⟨t, hidx, -⟩ := index_of_bounds m.templates i h0 (by omega)
    obtain ⟨rows, hr⟩ := ih (i + 1) (by omega) (by omega)
    exact ⟨(decide (m.cursor = i), t) :: rows, by simp only [browseRows, hidx, hr]⟩

/-- The visible window of the list view lies inside the template list, whatever the cursor. -/
theorem viewWindow_bounds (m : model) :
    0 ≤ (viewWindow m).1
      ∧ (viewWindow m).1 + (((viewWindow m).2 - (viewWindow m).1).toNat : Int)
          ≤ (m.templates.length : Int) := by
  unfold viewWindow
  simp only
  split_ifs with h1 h2 h2
  all_goals simp only
  all_goals constructor
  all_goals omega

/-- `View` does not panic on a model whose cursors are in range. -/
theorem View_some (st : TreeStyle) (env : Env) (m : model) (h : cursorsInRange m) :
    ∃ screen, View st env m = some screen := by
  obtain ⟨⟨hc0, hc1⟩, hs⟩ := h
  have hsel : ∃ t, viewSelected m = some t := by
    unfold viewSelected
    split_ifs with hcond
    · obtain ⟨hs0, hs1⟩ := hs hcond.1
      obtain ⟨t, ht, -⟩ := index_of_bounds m.searchResults m.searchCursor hs0
        (hs1 (List.length_pos.mp hcond.2))
      exact ⟨t, ht⟩
    · obtain ⟨t, ht, -⟩ := index_of_bounds m.templates m.cursor hc0 hc1
      exact ⟨t, ht⟩
  obtain ⟨t, ht⟩ := hsel
  obtain ⟨rows, hrows⟩ := browseRows_some m _ _ (viewWindow_bounds m).1 (viewWindow_bounds m).2
  unfold View
  cases m.err with
  | some e => exact ⟨_, rfl⟩
  | none =>
    simp only [ht, hrows]
    split_ifs <;> exact ⟨_, rfl⟩

/-- C13: for every model reached from the initial model by any sequence of events (each with
any environment), no call of `Update` has panicked, and: in search mode with a non-empty result
list the search cursor is inside the result list, so `searchResults[searchCursor]` is defined;
the browse cursor is inside the (non-empty) template list, so `templates[cursor]` is defined;
and neither the next call of `Update`, whatever the message, nor `View` panics. -/
theorem C13_cursors_stay_in_range (loaded : Except String (List String)) (m0 : model)
    (depth : Int) (events : List (Env × Msg)) (hinit : initialModel loaded = some m0) :
    ∃ m, runEvents { m0 with treeDepth := depth } events = some m
      ∧ (m.searchMode = true → m.searchResults ≠ [] →
          0 ≤ m.searchCursor ∧ m.searchCursor < (m.searchResults.length : Int)
            ∧ ∃ sel, index m.searchResults m.searchCursor = some sel)
      ∧ (m.templates ≠ [] ∧ 0 ≤ m.cursor ∧ m.cursor < (m.templates.length : Int)
            ∧ ∃ tmpl, index m.templates m.cursor = some tmpl)
      ∧ (∀ (env : Env) (msg : Msg), ∃ m' cmds, Update env m msg = some (m', cmds))
      ∧ (∀ (st : TreeStyle) (env : Env), ∃ screen, View st env m = some screen) := by
  have hstart : cursorsInRange { m0 with treeDepth := depth } := by
    cases loaded with
    | error e => simp [initialModel] at hinit
    | ok templates =>
      simp only [initialModel] at hinit
      split_ifs at hinit with hlen
      simp only [Option.some.injEq] at hinit
      subst hinit
      unfold cursorsInRange
      refine ⟨⟨le_refl _, ?_⟩, fun hf => by simp [newModel] at hf⟩
      show (0 : Int) < (templates.length : Int)
      omega
  obtain ⟨m, hR, hm⟩ := runEvents_inv events _ hstart
  refine ⟨m, hR, ?_, ?_, ?_, ?_⟩
  · intro hmode hne
    obtain ⟨hs0, hs1⟩ := hm.2 hmode
    obtain ⟨sel, hsel, -⟩ := index_of_bounds m.searchResults m.searchCursor hs0 (hs1 hne)
    exact ⟨hs0, hs1 hne, sel, hsel⟩
  · obtain ⟨hc0, hc1⟩ := hm.1
    obtain ⟨t, ht, -⟩ := index_of_bounds m.templates m.cursor hc0 hc1
    refine ⟨?_, hc0, hc1, t, ht⟩
    intro hnil
    rw [hnil] at hc1
    simp at hc1
    omega
  · intro env msg
    obtain ⟨m', cmds, hU, -, -⟩ := Update_inv env m msg hm
    exact ⟨m', cmds, hU⟩
  · intro st env
    exact View_some st env m hm

/-! ## Claim C11 -/

/-- Induction over the tree: a property that holds for a directory whenever it holds for all
its entries holds for every node. -/
theorem node_induction {P : FsNode → Prop} (hfile : ∀ r d, P (FsNode.file r d))
    (hdir : ∀ r es, (∀ e ∈ es, P e.2) → P (FsNode.dir r es)) : ∀ node, P node := by
  have hall : ∀ es : List (String × FsNode), ∀ e ∈ es, P e.2 := by
    intro es
    induction es using forest_induction with
    | hnil => intro e he; simp at he
    | hfile n r d rest ih =>
      intro e he
      rcases List.mem_cons.mp he with rfl | he'
      · exact hfile r d
      · exact ih e he'
    | hdir n r sub rest ihsub ihrest =>
      intro e he
      rcases List.mem_cons.mp he with rfl | he'
      · exact hdir r sub ihsub
      · exact ihrest e he'
  intro node
  cases node with
  | file r d => exact hfile r d
  | dir r es => exact hdir r es (hall es)

theorem mem_treeItems (st : TreeStyle) (ToLower : String → String) (maxDepth : Int)
    (es : List (String × FsNode)) (it : WalkItem) :
    it ∈ treeItems st ToLower maxDepth es
      ↔ ∃ n node, (n, node) ∈ es
          ∧ it = { name := n, isDir := node.isDir, sub := treeWalk st ToLower maxDepth node } := by
  induction es with
  | nil => simp [treeItems]
  | cons e rest ih =>
    obtain ⟨n, node⟩ := e
    simp only [treeItems, List.mem_cons, ih]
    constructor
    · rintro (h | ⟨n', node', hmem, h⟩)
      · exact ⟨n, node, Or.inl rfl, h⟩
      · exact ⟨n', node', Or.inr hmem, h⟩
    · rintro ⟨n', node', hmem | hmem, h⟩
      · cases hmem; exact Or.inl h
      · exact Or.inr ⟨n', node', hmem, h⟩

theorem treeItems_names (st : TreeStyle) (ToLower : String → String) (maxDepth : Int)
    (es : List (String × FsNode)) :
    (treeItems st ToLower maxDepth es).map (fun it => it.name) = es.map Prod.fst := by
  induction es with
  | nil => simp [treeItems]
  | cons e rest ih =>
    obtain ⟨n, node⟩ := e
    simp [treeItems, ih]

theorem treeItems_filter_names (st : TreeStyle) (ToLower : String → String) (maxDepth : Int)
    (b : Bool) (es : List (String × FsNode)) :
    ((treeItems st ToLower maxDepth es).filter (fun it => it.isDir == b)).map
        (fun it => it.name)
      = (es.filter (fun e => e.2.isDir == b)).map Prod.fst := by
  induction es with
  | nil => simp [treeItems]
  | cons e rest ih =>
    obtain ⟨n, node⟩ := e
    simp only [treeItems, List.filter_cons]
    by_cases h : (node.isDir == b) = true
    · simp only [h, if_true, List.map_cons, ih]
    · simp only [h, if_false, ih, Bool.false_eq_true]

/-- The names of the slice `allEntries` that the walk builds for a directory. -/
theorem allEntries_names (st : TreeStyle) (ToLower : String → String) (maxDepth : Int)
    (es : List (String × FsNode)) :
    (allEntries ToLower (treeItems st ToLower maxDepth es)).map (fun it => it.name)
      = sortedNames ToLower es := by
  have hsort : ∀ items : List WalkItem,
      (sortByName ToLower items).map (fun it => it.name)
        = (items.map (fun it => it.name)).insertionSort
            (fun a b => ¬ (ToLower b < ToLower a)) := by
    intro items
    unfold sortByName
    exact List.map_insertionSort (fun a b : WalkItem => ¬ (ToLower b.name < ToLower a.name))
      (fun a b : String => ¬ (ToLower b < ToLower a)) (fun it => it.name) items
      (fun a _ b _ => Iff.rfl)
  have h1 := treeItems_filter_names st ToLower maxDepth true es
  have h2 := treeItems_filter_names st ToLower maxDepth false es
  simp only [beq_true, beq_false] at h1 h2
  unfold allEntries sortedNames
  rw [List.map_append, hsort, hsort, h1, h2]

/-- The sorted slice holds the same entries as were read. -/
theorem allEntries_perm (ToLower : String → String) (items : List WalkItem) :
    (allEntries ToLower items).Perm items := by
  unfold allEntries sortByName
  exact ((List.perm_insertionSort _ _).append (List.perm_insertionSort _ _)).trans
    (List.filter_append_perm _ _)

theorem lookupEntries_mem (es : List (String × FsNode)) (n : String) (child : FsNode)
    (q : List String) (hmem : (n, child) ∈ es) (hwf : entriesWF es = true) :
    lookupEntries es n q = child.lookup q := by
  obtain ⟨pre, rest, rfl⟩ := List.append_of_mem hmem
  exact lookupEntries_middle pre rest n child q
    (nodup_middle pre rest n child (entriesWF_nodup _ hwf))

theorem lookupEntries_some (es : List (String × FsNode)) (n : String) (q : List String)
    (x : FsNode) (h : lookupEntries es n q = some x) :
    ∃ child, (n, child) ∈ es ∧ child.lookup q = some x := by
  induction es with
  | nil => simp [lookupEntries] at h
  | cons e rest ih =>
    obtain ⟨m, node⟩ := e
    simp only [lookupEntries] at h
    by_cases hm : m = n
    · rw [if_pos hm] at h
      exact ⟨node, by rw [hm]; exact List.mem_cons_self _ _, h⟩
    · rw [if_neg hm] at h
      obtain ⟨child, hc, hl⟩ := ih h
      exact ⟨child, List.mem_cons_of_mem _ hc, hl⟩

theorem entriesWF_mem (es : List (String × FsNode)) (e : String × FsNode) (hmem : e ∈ es)
    (hwf : entriesWF es = true) : e.2.WF = true := by
  induction es with
  | nil => simp at hmem
  | cons e' rest ih =>
    obtain ⟨n, node⟩ := e'
    obtain ⟨-, hnode, hrest⟩ := (entriesWF_cons _ _ _).mp hwf
    rcases List.mem_cons.mp hmem with rfl | h
    · exact hnode
    · exact ih h hrest

theorem entriesDirsReadable_mem (es : List (String × FsNode)) (e : String × FsNode)
    (hmem : e ∈ es) (hrd : entriesDirsReadable es = true) : e.2.dirsReadable = true := by
  induction es with
  | nil => simp at hmem
  | cons e' rest ih =>
    obtain ⟨n, node⟩ := e'
    simp only [entriesDirsReadable, Bool.and_eq_true] at hrd
    rcases List.mem_cons.mp hmem with rfl | h
    · exact hrd.1
    · exact ih h hrd.2

/-- A line written by the loop is the line of one of the entries or a line of the walk below
a directory entry, which is made only within the depth limit. -/
theorem emitEntries_sound (st : TreeStyle) (maxDepth : Int) (path : List String) (pfx : String)
    (depth : Int) (total : Nat) :
    ∀ (items : List WalkItem) (i : Nat) (l : TreeLine),
      l ∈ emitEntries st maxDepth path pfx depth total i items →
      ∃ it ∈ items,
        (l.path = path ++ [it.name] ∧ l.entry = true)
          ∨ (it.isDir = true ∧ (maxDepth < 0 ∨ depth < maxDepth)
              ∧ ∃ pfx', l ∈ it.sub (path ++ [it.name]) pfx' (depth + 1)) := by
  intro items
  induction items with
  | nil => intro i l h; simp [emitEntries] at h
  | cons it rest ih =>
    intro i l h
    simp only [emitEntries, List.mem_cons, List.mem_append] at h
    rcases h with rfl | h | h
    · exact ⟨it, List.mem_cons_self _ _, Or.inl ⟨rfl, rfl⟩⟩
    · by_cases hc : it.isDir = true ∧ (maxDepth < 0 ∨ depth < maxDepth)
      · rw [if_pos hc] at h
        exact ⟨it, List.mem_cons_self _ _, Or.inr ⟨hc.1, hc.2, _, h⟩⟩
      · rw [if_neg hc] at h
        exact absurd h (List.not_mem_nil _)
    · obtain ⟨it', hmem, hl⟩ := ih (i + 1) l h
      exact ⟨it', List.mem_cons_of_mem _ hmem, hl⟩

/-- Every entry of the loop has its line. -/
theorem emitEntries_line (st : TreeStyle) (maxDepth : Int) (path : List String) (pfx : String)
    (depth : Int) (total : Nat) (it : WalkItem) :
    ∀ (items : List WalkItem) (i : Nat), it ∈ items →
      path ++ [it.name] ∈ (emitEntries st maxDepth path pfx depth total i items).map
        (fun l => l.path) := by
  intro items
  induction items with
  | nil => intro i h; simp at h
  | cons it' rest ih =>
    intro i h
    simp only [emitEntries, List.map_cons, List.map_append, List.mem_cons, List.mem_append]
    rcases List.mem_cons.mp h with rfl | h'
    · exact Or.inl rfl
    · exact Or.inr (Or.inr (ih (i + 1) h'))

/-- Within the depth limit, the paths that the walk below a directory entry writes for every
prefix are written by the loop. -/
theorem emitEntries_below (st : TreeStyle) (maxDepth : Int) (path : List String) (pfx : String)
    (depth : Int) (total : Nat) (it : WalkItem) (p : List String) (hdir : it.isDir = true)
    (hcond : maxDepth < 0 ∨ depth < maxDepth)
    (hp : ∀ pfx', p ∈ (it.sub (path ++ [it.name]) pfx' (depth + 1)).map (fun l => l.path)) :
    ∀ (items : List WalkItem) (i : Nat), it ∈ items →
      p ∈ (emitEntries st maxDepth path pfx depth total i items).map (fun l => l.path) := by
  intro items
  induction items with
  | nil => intro i h; simp at h
  | cons it' rest ih =>
    intro i h
    simp only [emitEntries, List.map_cons, List.map_append, List.mem_cons, List.mem_append]
    rcases List.mem_cons.mp h with rfl | h'
    · refine Or.inr (Or.inl ?_)
      rw [if_pos ⟨hdir, hcond⟩]
      exact hp _
    · exact Or.inr (Or.inr (ih (i + 1) h'))

theorem path_name_eq (path : List String) (a b : String) (q q' : List String)
    (h : path ++ [a] ++ q = path ++ [b] ++ q') : a = b := by
  rw [List.append_assoc, List.append_assoc] at h
  have := List.append_cancel_left h
  simp at this
  exact this.1

/-- The loop writes no path twice, when the names of the entries are different and the walk
below each directory entry writes no path twice and only paths strictly below the entry. -/
theorem emitEntries_nodup (st : TreeStyle) (maxDepth : Int) (path : List String) (pfx : String)
    (depth : Int) (total : Nat) :
    ∀ (items : List WalkItem) (i : Nat), (items.map (fun it => it.name)).Nodup →
      (∀ it ∈ items, it.isDir = true → ∀ pfx',
        ((it.sub (path ++ [it.name]) pfx' (depth + 1)).map (fun l => l.path)).Nodup
          ∧ ∀ l ∈ it.sub (path ++ [it.name]) pfx' (depth + 1),
              ∃ q, q ≠ [] ∧ l.path = path ++ [it.name] ++ q) →
      ((emitEntries st maxDepth path pfx depth total i items).map (fun l => l.path)).Nodup := by
  intro items
  induction items with
  | nil => intro i _ _; simp [emitEntries]
  | cons it rest ih =>
    intro i hnames hsub
    simp only [List.map_cons, List.nodup_cons] at hnames
    obtain ⟨hname, hrestnames⟩ := hnames
    have hrest := ih (i + 1) hrestnames (fun it' h' => hsub it' (List.mem_cons_of_mem _ h'))
    -- the shape of the paths written for the rest of the entries
    have hform : ∀ p ∈ (emitEntries st maxDepth path pfx depth total (i + 1) rest).map
        (fun l => l.path), ∃ it' ∈ rest, ∃ q, p = path ++ [it'.name] ++ q := by
      intro p hp
      obtain ⟨l, hl, rfl⟩ := List.mem_map.mp hp
      obtain ⟨it', hmem, h⟩ := emitEntries_sound st maxDepth path pfx depth total rest (i + 1) l hl
      rcases h with ⟨hpath, -⟩ | ⟨hd, -, pfx', hin⟩
      · exact ⟨it', hmem, [], by simp [hpath]⟩
      · obtain ⟨q, -, hq⟩ := (hsub it' (List.mem_cons_of_mem _ hmem) hd pfx').2 l hin
        exact ⟨it', hmem, q, hq⟩
    have hne : ∀ it' ∈ rest, it'.name ≠ it.name := by
      intro it' hmem heq
      exact hname (List.mem_map.mpr ⟨it', hmem, heq⟩)
    simp only [emitEntries, List.map_cons, List.map_append, List.nodup_cons, List.mem_append]
    by_cases hc : it.isDir = true ∧ (maxDepth < 0 ∨ depth < maxDepth)
    · rw [if_pos hc]
      have hs := hsub it (List.mem_cons_self _ _) hc.1
        (pfx ++ if decide ((i : Int) = (total : Int) - 1) = true then "   " else "│  ")
      refine ⟨?_, List.Nodup.append hs.1 hrest ?_⟩
      · rintro (hmem | hmem)
        · obtain ⟨l, hl, hpath⟩ := List.mem_map.mp hmem
          obtain ⟨q, hq, hlq⟩ := hs.2 l hl
          rw [hlq] at hpath
          have := congrArg List.length hpath
          simp at this
          exact hq this
        · obtain ⟨it', hmem', q, hq⟩ := hform _ hmem
          have := path_name_eq path it.name it'.name [] q (by simpa using hq)
          exact hne it' hmem' this.symm
      · intro p hp1 hp2
        obtain ⟨l, hl, rfl⟩ := List.mem_map.mp hp1
        obtain ⟨q, -, hlq⟩ := hs.2 l hl
        obtain ⟨it', hmem', q', hq'⟩ := hform _ hp2
        rw [hlq] at hq'
        exact hne it' hmem' (path_name_eq path it.name it'.name q q' hq').symm
    · rw [if_neg hc]
      simp only [List.map_nil, List.nil_append, List.not_mem_nil, false_or]
      refine ⟨?_, hrest⟩
      intro hmem
      obtain ⟨it', hmem', q, hq⟩ := hform _ hmem
      have := path_name_eq path it.name it'.name [] q (by simpa using hq)
      exact hne it' hmem' this.symm

/-- The test `i == len(allEntries)-1` of the loop holds for the entry whose name is the last
of the slice, when the names are different. -/
theorem emitEntries_last (i total : Nat) (it : WalkItem) (rest : List WalkItem)
    (hlen : i + (it :: rest).length = total)
    (hnd : ((it :: rest).map (fun it => it.name)).Nodup) :
    decide ((i : Int) = (total : Int) - 1)
      = decide (((it :: rest).map (fun it => it.name)).getLast? = some it.name) := by
  cases rest with
  | nil =>
    have h1 : (i : Int) = (total : Int) - 1 := by
      simp only [List.length_cons, List.length_nil] at hlen
      omega
    simp [h1]
  | cons r rs =>
    have h1 : ¬ ((i : Int) = (total : Int) - 1) := by
      simp only [List.length_cons] at hlen
      omega
    have h2 : ¬ (((it :: r :: rs).map (fun it => it.name)).getLast? = some it.name) := by
      intro h
      simp only [List.map_cons, List.getLast?_cons_cons] at h
      have hmem := List.mem_of_getLast?_eq_some h
      simp only [List.map_cons, List.nodup_cons] at hnd
      exact hnd.1 hmem
    rw [decide_eq_false h1, decide_eq_false h2]

/-- The text of a line written by the loop: the line of an entry is the prefix, the connector
of the entry, its rendered name and a line break, and the walk below a directory entry gets
the prefix with three more columns. `last` is the name of the last entry of the slice. -/
theorem emitEntries_text (st : TreeStyle) (maxDepth : Int) (path : List String) (pfx : String)
    (depth : Int) (total : Nat) :
    ∀ (items : List WalkItem) (i : Nat) (last : Option String),
      i + items.length = total → (items.map (fun it => it.name)).Nodup →
      (items.map (fun it => it.name)).getLast? = last →
      ∀ l ∈ emitEntries st maxDepth path pfx depth total i items,
      ∃ it ∈ items,
        (l.path = path ++ [it.name] ∧ l.entry = true
          ∧ l.text = pfx ++ (if last = some it.name then "└╼ " else "├╼ ")
              ++ (if it.isDir then st.dirName it.name else st.fileName it.name) ++ "\n")
          ∨ (it.isDir = true ∧ (maxDepth < 0 ∨ depth < maxDepth)
              ∧ l ∈ it.sub (path ++ [it.name])
                    (pfx ++ (if last = some it.name then "   " else "│  ")) (depth + 1)) := by
  intro items
  induction items with
  | nil => intro i last _ _ _ l h; simp [emitEntries] at h
  | cons it rest ih =>
    intro i last hlen hnd hlast l h
    have hb := emitEntries_last i total it rest hlen hnd
    rw [hlast] at hb
    simp only [emitEntries, List.mem_cons, List.mem_append, hb] at h
    rcases h with rfl | h | h
    · refine ⟨it, List.mem_cons_self _ _, Or.inl ⟨rfl, rfl, ?_⟩⟩
      by_cases hl : last = some it.name <;> simp [hl]
    · by_cases hc : it.isDir = true ∧ (maxDepth < 0 ∨ depth < maxDepth)
      · rw [if_pos hc] at h
        refine ⟨it, List.mem_cons_self _ _, Or.inr ⟨hc.1, hc.2, ?_⟩⟩
        by_cases hl : last = some it.name
        · simpa [hl] using h
        · simpa [hl] using h
      · rw [if_neg hc] at h
        exact absurd h (List.not_mem_nil _)
    · cases rest with
      | nil => simp [emitEntries] at h
      | cons r rs =>
        have hlast' : ((r :: rs).map (fun it => it.name)).getLast? = last := by
          rw [← hlast]
          simp only [List.map_cons, List.getLast?_cons_cons]
        simp only [List.map_cons, List.nodup_cons] at hnd
        obtain ⟨it', hmem, hl⟩ := ih (i + 1) last
          (by simp only [List.length_cons] at hlen ⊢; omega)
          (by simpa only [List.map_cons, List.nodup_cons] using hnd.2) hlast' l h
        exact ⟨it', List.mem_cons_of_mem _ hmem, hl⟩

/-- The entry found at a path below the entry found at a name. -/
theorem lookup_cons_of_lookup (node child : FsNode) (n : String) (q : List String)
    (h : node.lookup [n] = some child) : node.lookup (n :: q) = child.lookup q := by
  cases node with
  | file r d => simp [FsNode.lookup] at h
  | dir r es =>
    simp only [FsNode.lookup] at h ⊢
    induction es with
    | nil => simp [lookupEntries] at h
    | cons e rest ih =>
      obtain ⟨m, nd⟩ := e
      simp only [lookupEntries] at h ⊢
      by_cases hm : m = n
      · rw [if_pos hm] at h ⊢
        rw [lookup_nil] at h
        cases h
        rfl
      · rw [if_neg hm] at h ⊢
        exact ih h

/-- An entry found at a path lies below an entry of the directory. -/
theorem lookup_head (node x : FsNode) (n : String) (q : List String)
    (h : node.lookup (n :: q) = some x) : ∃ child, node.lookup [n] = some child := by
  cases node with
  | file r d => simp [FsNode.lookup] at h
  | dir r es =>
    simp only [FsNode.lookup] at h ⊢
    induction es with
    | nil => simp [lookupEntries] at h
    | cons e rest ih =>
      obtain ⟨m, nd⟩ := e
      simp only [lookupEntries] at h ⊢
      by_cases hm : m = n
      · rw [if_pos hm]
        exact ⟨nd, lookup_nil nd⟩
      · rw [if_neg hm] at h ⊢
        exact ih h

theorem join_cons (a : String) (l : List String) : String.join (a :: l) = a ++ String.join l := by
  apply String.ext
  simp [String.data_join]

/-- A concatenation is not empty when one of its parts is not. -/
theorem join_ne_empty (l : List String) (s : String) (hs : s ∈ l) (hne : s ≠ "") :
    String.join l ≠ "" := by
  intro h
  have hd := congrArg String.data h
  rw [String.data_join] at hd
  have hall := List.flatten_eq_nil_iff.mp hd s.data (List.mem_map.mpr ⟨s, hs, rfl⟩)
  exact hne (String.ext hall)

/-- The shape of the text of an entry: the prefix, three columns for each directory on the
way, a connector, the rendered name of the entry and a line break. -/
theorem entryLine_shape (st : TreeStyle) (ToLower : String → String) :
    ∀ (q : List String) (node : FsNode) (pfx t : String),
      entryLine st ToLower q node pfx = some t →
      ∃ (cols : List String) (conn name : String) (x : FsNode),
        q.getLast? = some name ∧ node.lookup q = some x
          ∧ cols.length + 1 = q.length ∧ (∀ c ∈ cols, c = "   " ∨ c = "│  ")
          ∧ (conn = "├╼ " ∨ conn = "└╼ ")
          ∧ t = pfx ++ String.join cols ++ conn
              ++ (if x.isDir then st.dirName name else st.fileName name) ++ "\n" := by
  intro q
  induction q with
  | nil => intro node pfx t h; simp [entryLine] at h
  | cons n q ih =>
    intro node pfx t h
    simp only [entryLine] at h
    cases hc : node.lookup [n] with
    | none => rw [hc] at h; simp at h
    | some child =>
      rw [hc] at h
      cases q with
      | nil =>
        simp only [Option.some.injEq] at h
        refine ⟨[], (if lastName ToLower node = some n then "└╼ " else "├╼ "), n,
          child, rfl, hc, rfl, by simp, ?_, ?_⟩
        · by_cases hl : lastName ToLower node = some n
          · exact Or.inr (by simp [hl])
          · exact Or.inl (by simp [hl])
        · rw [← h]
          simp [String.join]
      | cons a q' =>
        simp only at h
        obtain ⟨cols, conn, name, x, hlast, hx, hlen, hcols, hconn, ht⟩ := ih child _ t h
        refine ⟨(if lastName ToLower node = some n then "   " else "│  ") :: cols,
          conn, name, x, ?_, ?_, ?_, ?_, hconn, ?_⟩
        · rw [List.getLast?_cons_cons]; exact hlast
        · rw [lookup_cons_of_lookup node child n (a :: q') hc]; exact hx
        · simp only [List.length_cons] at hlen ⊢; omega
        · intro c hc'
          rcases List.mem_cons.mp hc' with rfl | hc''
          · by_cases hl : lastName ToLower node = some n
            · exact Or.inl (by simp [hl])
            · exact Or.inr (by simp [hl])
          · exact hcols c hc''
        · rw [ht, join_cons]
          simp only [String.append_assoc]

/-- The lines of the walk of a well-formed directory whose directories can all be listed: every
line is the line of an entry below the directory, within the depth limit, and its text is the
text of that entry; every entry within the depth limit has a line; no path has two lines. An
entry `q` levels below a directory walked at depth `depth` is at depth `depth + q - 1`. -/
theorem treeWalk_spec (st : TreeStyle) (ToLower : String → String) (maxDepth : Int) :
    ∀ node : FsNode, node.isDir = true → node.WF = true → node.dirsReadable = true →
      ∀ (path : List String) (pfx : String) (depth : Int),
        (∀ l ∈ treeWalk st ToLower maxDepth node path pfx depth,
            l.entry = true ∧ ∃ q, q ≠ [] ∧ l.path = path ++ q ∧ (∃ x, node.lookup q = some x)
              ∧ (q.length = 1 ∨ maxDepth < 0 ∨ depth + (q.length : Int) - 1 ≤ maxDepth)
              ∧ entryLine st ToLower q node pfx = some l.text)
        ∧ (∀ q, q ≠ [] → (∃ x, node.lookup q = some x) →
            (q.length = 1 ∨ maxDepth < 0 ∨ depth + (q.length : Int) - 1 ≤ maxDepth) →
            path ++ q ∈ (treeWalk st ToLower maxDepth node path pfx depth).map
              (fun l => l.path))
        ∧ ((treeWalk st ToLower maxDepth node path pfx depth).map (fun l => l.path)).Nodup := by
  intro node
  induction node using node_induction with
  | hfile r d => intro h; simp [FsNode.isDir] at h
  | hdir r es ih =>
    intro _ hwf hrd path pfx depth
    simp only [FsNode.dirsReadable, Bool.and_eq_true] at hrd
    obtain ⟨hr, hres⟩ := hrd
    subst hr
    have hwes : entriesWF es = true := by simpa [FsNode.WF] using hwf
    have hmem : ∀ it : WalkItem,
        it ∈ allEntries ToLower (treeItems st ToLower maxDepth es)
          ↔ ∃ n child, (n, child) ∈ es
              ∧ it = { name := n, isDir := child.isDir,
                       sub := treeWalk st ToLower maxDepth child } :=
      fun it => ((allEntries_perm ToLower _).mem_iff).trans
        (mem_treeItems st ToLower maxDepth es it)
    have hchild : ∀ (n : String) (child : FsNode), (n, child) ∈ es →
        child.WF = true ∧ child.dirsReadable = true :=
      fun n child hc => ⟨entriesWF_mem es (n, child) hc hwes,
        entriesDirsReadable_mem es (n, child) hc hres⟩
    have hnames : ((allEntries ToLower (treeItems st ToLower maxDepth es)).map
        (fun it => it.name)).Nodup := by
      have h1 := ((allEntries_perm ToLower (treeItems st ToLower maxDepth es)).map
        (fun it => it.name)).nodup_iff
      rw [h1, treeItems_names]
      exact entriesWF_nodup es hwes
    simp only [treeWalk]
    refine ⟨?_, ?_, ?_⟩
    · intro l hl
      obtain ⟨it, hit, h⟩ := emitEntries_text st maxDepth path pfx depth _ _ 0
        (lastName ToLower (FsNode.dir true es)) (Nat.zero_add _) hnames
        (congrArg List.getLast? (allEntries_names st ToLower maxDepth es)) l hl
      obtain ⟨n, child, hc, rfl⟩ := (hmem it).mp hit
      have hlook : (FsNode.dir true es).lookup [n] = some child := by
        simp only [FsNode.lookup, lookupEntries_mem es n child [] hc hwes, lookup_nil]
      rcases h with ⟨hpath, hentry, htext⟩ | ⟨hd, hcond, hin⟩
      · refine ⟨hentry, [n], by simp, hpath, ⟨child, hlook⟩, Or.inl rfl, ?_⟩
        simp only [entryLine, hlook]
        rw [htext]
      · obtain ⟨hS, -, -⟩ := ih (n, child) hc hd (hchild n child hc).1 (hchild n child hc).2
          (path ++ [n]) _ (depth + 1)
        obtain ⟨hentry, q, hq, hpath, ⟨x, hx⟩, hshown, hline⟩ := hS l hin
        refine ⟨hentry, n :: q, by simp, by rw [hpath]; simp, ⟨x, ?_⟩, ?_, ?_⟩
        · simp only [FsNode.lookup]
          rw [lookupEntries_mem es n child q hc hwes]
          exact hx
        rotate_left
        · cases q with
          | nil => exact absurd rfl hq
          | cons a q' =>
            simp only [entryLine, hlook]
            exact hline
        · right
          simp only [List.length_cons]
          push_cast
          rcases hshown with h1 | h2 | h3
          · rcases hcond with hneg | hlt
            · exact Or.inl hneg
            · right; rw [h1]; push_cast; omega
          · exact Or.inl h2
          · right; omega
    · intro q hq hx hshown
      obtain ⟨x, hx⟩ := hx
      cases q with
      | nil => exact absurd rfl hq
      | cons n q' =>
        simp only [FsNode.lookup] at hx
        obtain ⟨child, hc, hl⟩ := lookupEntries_some es n q' x hx
        have hit : ({ name := n, isDir := child.isDir,
                      sub := treeWalk st ToLower maxDepth child } : WalkItem)
            ∈ allEntries ToLower (treeItems st ToLower maxDepth es) :=
          (hmem _).mpr ⟨n, child, hc, rfl⟩
        cases q' with
        | nil =>
          exact emitEntries_line st maxDepth path pfx depth _ _ _ 0 hit
        | cons a q'' =>
          have hd : child.isDir = true := by
            cases child with
            | file r d => simp [FsNode.lookup] at hl
            | dir r sub => rfl
          have hlen : (((n :: a :: q'').length : Nat) : Int) = (q''.length : Int) + 2 := by
            simp only [List.length_cons]; push_cast; ring
          have hlen' : (((a :: q'').length : Nat) : Int) = (q''.length : Int) + 1 := by
            simp only [List.length_cons]; push_cast; ring
          have hcond : maxDepth < 0 ∨ depth < maxDepth := by
            rcases hshown with h1 | h2 | h3
            · simp at h1
            · exact Or.inl h2
            · right; rw [hlen] at h3; omega
          refine emitEntries_below st maxDepth path pfx depth _ _ (path ++ n :: a :: q'') hd
            hcond (fun pfx' => ?_) _ 0 hit
          obtain ⟨-, hC, -⟩ := ih (n, child) hc hd (hchild n child hc).1 (hchild n child hc).2
            (path ++ [n]) pfx' (depth + 1)
          have := hC (a :: q'') (by simp) ⟨x, hl⟩ (by
            rcases hshown with h1 | h2 | h3
            · simp at h1
            · exact Or.inr (Or.inl h2)
            · right; right; rw [hlen] at h3; rw [hlen']; omega)
          simpa using this
    · apply emitEntries_nodup
      · exact hnames
      · intro it hit hd pfx'
        obtain ⟨n, child, hc, rfl⟩ := (hmem it).mp hit
        obtain ⟨hS, -, hN⟩ := ih (n, child) hc hd (hchild n child hc).1 (hchild n child hc).2
          (path ++ [n]) pfx' (depth + 1)
        refine ⟨hN, fun l hl => ?_⟩
        obtain ⟨-, q, hq, hpath, -, -, -⟩ := hS l hl
        exact ⟨q, hq, hpath⟩

theorem one_line_of_nodup (lines : List TreeLine) (p : List String)
    (hnd : (lines.map (fun l => l.path)).Nodup) (hmem : p ∈ lines.map (fun l => l.path)) :
    (lines.filter (fun l => decide (l.path = p))).length = 1 := by
  induction lines with
  | nil => simp at hmem
  | cons l rest ih =>
    simp only [List.map_cons, List.nodup_cons] at hnd
    by_cases hl : l.path = p
    · have hnone : rest.filter (fun l => decide (l.path = p)) = [] := by
        rw [List.filter_eq_nil_iff]
        intro x hx hxp
        simp only [decide_eq_true_eq] at hxp
        exact hnd.1 (List.mem_map.mpr ⟨x, hx, hxp.trans hl.symm⟩)
      rw [List.filter_cons_of_pos (by simp [hl]), hnone]
      rfl
    · rw [List.filter_cons_of_neg (by simp [hl])]
      simp only [List.map_cons, List.mem_cons] at hmem
      rcases hmem with h | h
      · exact absurd h.symm hl
      · exact ih hnd.2 h

/-- C11: for a well-formed directory tree whose directories can all be listed and every
`maxDepth`, the walk of `GetFileTree` writes only lines of entries, and
* an entry at depth `d` (the length of its path; the direct children of the root are at depth 1)
  has exactly one line when `d = 1` or `maxDepth < 0` or `d ≤ maxDepth`, and no line otherwise;
* so every direct child of the root has one line;
* the entries of a directory shown at depth `d` have lines exactly when `maxDepth < 0` or
  `d < maxDepth`;
* with `maxDepth < 0` every entry has a line, and with `maxDepth ≥ 1` exactly the entries at
  depth at most `maxDepth` have a line;
* the text written for an entry is the text `entryLine` of that entry: three columns for each
  directory above it, the connector (`└╼ ` for the last entry of its directory, `├╼ ` for any
  other), the name of the entry rendered as a directory or as a file, and a line break; the
  line of a direct child of the root starts with the connector;
* the text returned is the placeholder when the root has no entry, and else the concatenation
  of the texts written, which is not empty. -/
theorem C11_tree_depth_limit (st : TreeStyle) (ToLower : String → String) (root : FsNode)
    (maxDepth : Int) (hdir : root.isDir = true) (hwf : root.WF = true)
    (hrd : root.dirsReadable = true) :
    (∀ l ∈ treeLines st ToLower (Except.ok root) maxDepth,
        l.entry = true ∧ l.path ≠ [] ∧ (∃ x, root.lookup l.path = some x)
          ∧ (l.path.length = 1 ∨ maxDepth < 0 ∨ (l.path.length : Int) ≤ maxDepth))
      ∧ (∀ p, p ≠ [] → (∃ x, root.lookup p = some x) →
          (p.length = 1 ∨ maxDepth < 0 ∨ (p.length : Int) ≤ maxDepth) →
          ((treeLines st ToLower (Except.ok root) maxDepth).filter
            (fun l => decide (l.path = p))).length = 1)
      ∧ (∀ n, (∃ x, root.lookup [n] = some x) →
          ((treeLines st ToLower (Except.ok root) maxDepth).filter
            (fun l => decide (l.path = [n]))).length = 1)
      ∧ (∀ p n, p ≠ [] →
          p ∈ (treeLines st ToLower (Except.ok root) maxDepth).map (fun l => l.path) →
          (∃ x, root.lookup (p ++ [n]) = some x) →
          (p ++ [n] ∈ (treeLines st ToLower (Except.ok root) maxDepth).map (fun l => l.path)
            ↔ (maxDepth < 0 ∨ (p.length : Int) < maxDepth)))
      ∧ (maxDepth < 0 → ∀ p, p ≠ [] → (∃ x, root.lookup p = some x) →
          p ∈ (treeLines st ToLower (Except.ok root) maxDepth).map (fun l => l.path))
      ∧ (1 ≤ maxDepth → ∀ p,
          (p ∈ (treeLines st ToLower (Except.ok root) maxDepth).map (fun l => l.path)
            ↔ p ≠ [] ∧ (∃ x, root.lookup p = some x) ∧ (p.length : Int) ≤ maxDepth))
      ∧ ((treeLines st ToLower (Except.ok root) maxDepth).map (fun l => l.path)).Nodup
      ∧ (∀ l ∈ treeLines st ToLower (Except.ok root) maxDepth,
          entryLine st ToLower l.path root "" = some l.text)
      ∧ (∀ l ∈ treeLines st ToLower (Except.ok root) maxDepth,
          ∃ (cols : List String) (conn name : String) (x : FsNode),
            l.path.getLast? = some name ∧ root.lookup l.path = some x
              ∧ cols.length + 1 = l.path.length ∧ (∀ c ∈ cols, c = "   " ∨ c = "│  ")
              ∧ (conn = "├╼ " ∨ conn = "└╼ ")
              ∧ l.text = String.join cols ++ conn
                  ++ (if x.isDir then st.dirName name else st.fileName name) ++ "\n")
      ∧ (∀ n x, root.lookup [n] = some x →
          ∃ l ∈ treeLines st ToLower (Except.ok root) maxDepth,
            l.path = [n]
              ∧ l.text = (if lastName ToLower root = some n then "└╼ " else "├╼ ")
                  ++ (if x.isDir then st.dirName n else st.fileName n) ++ "\n")
      ∧ ((∀ n, root.lookup [n] = none) →
          GetFileTree st ToLower (Except.ok root) maxDepth = st.emptyMsg)
      ∧ ((∃ n x, root.lookup [n] = some x) →
          String.join ((treeLines st ToLower (Except.ok root) maxDepth).map
              (fun l => l.text)) ≠ ""
            ∧ GetFileTree st ToLower (Except.ok root) maxDepth
                = String.join ((treeLines st ToLower (Except.ok root) maxDepth).map
                    (fun l => l.text))) := by
  obtain ⟨hS, hC, hN⟩ := treeWalk_spec st ToLower maxDepth root hdir hwf hrd [] "" 1
  have hsound : ∀ l ∈ treeLines st ToLower (Except.ok root) maxDepth,
      l.entry = true ∧ l.path ≠ [] ∧ (∃ x, root.lookup l.path = some x)
        ∧ (l.path.length = 1 ∨ maxDepth < 0 ∨ (l.path.length : Int) ≤ maxDepth) := by
    intro l hl
    obtain ⟨he, q, hq, hpath, hx, hshown, -⟩ := hS l hl
    rw [List.nil_append] at hpath
    rw [hpath]
    refine ⟨he, hq, hx, ?_⟩
    rcases hshown with h1 | h2 | h3
    · exact Or.inl h1
    · exact Or.inr (Or.inl h2)
    · right; right; omega
  have hcomplete : ∀ p, p ≠ [] → (∃ x, root.lookup p = some x) →
      (p.length = 1 ∨ maxDepth < 0 ∨ (p.length : Int) ≤ maxDepth) →
      p ∈ (treeLines st ToLower (Except.ok root) maxDepth).map (fun l => l.path) := by
    intro p hp hx hshown
    have := hC p hp hx (by
      rcases hshown with h1 | h2 | h3
      · exact Or.inl h1
      · exact Or.inr (Or.inl h2)
      · right; right; omega)
    rw [List.nil_append] at this
    exact this
  have hmemshown : ∀ p, p ∈ (treeLines st ToLower (Except.ok root) maxDepth).map
      (fun l => l.path) →
      p ≠ [] ∧ (∃ x, root.lookup p = some x)
        ∧ (p.length = 1 ∨ maxDepth < 0 ∨ (p.length : Int) ≤ maxDepth) := by
    intro p hp
    obtain ⟨l, hl, rfl⟩ := List.mem_map.mp hp
    exact (hsound l hl).2
  have hnodup : ((treeLines st ToLower (Except.ok root) maxDepth).map
      (fun l => l.path)).Nodup := hN
  have htext : ∀ l ∈ treeLines st ToLower (Except.ok root) maxDepth,
      entryLine st ToLower l.path root "" = some l.text := by
    intro l hl
    obtain ⟨-, q, -, hpath, -, -, hline⟩ := hS l hl
    rw [List.nil_append] at hpath
    rw [hpath]
    exact hline
  have hchildLine : ∀ n x, root.lookup [n] = some x →
      ∃ l ∈ treeLines st ToLower (Except.ok root) maxDepth,
        l.path = [n]
          ∧ l.text = (if lastName ToLower root = some n then "└╼ " else "├╼ ")
              ++ (if x.isDir then st.dirName n else st.fileName n) ++ "\n" := by
    intro n x hx
    obtain ⟨l, hl, hpath⟩ := List.mem_map.mp (hcomplete [n] (by simp) ⟨x, hx⟩ (Or.inl rfl))
    refine ⟨l, hl, hpath, ?_⟩
    have h := htext l hl
    rw [hpath] at h
    simp only [entryLine, hx, Option.some.injEq] at h
    rw [← h]
    simp only [String.append_assoc, String.empty_append]
  refine ⟨hsound, ?_, ?_, ?_, ?_, ?_, hnodup, htext, ?_, hchildLine, ?_, ?_⟩
  · intro p hp hx hshown
    exact one_line_of_nodup _ p hnodup (hcomplete p hp hx hshown)
  · intro n hx
    exact one_line_of_nodup _ [n] hnodup (hcomplete [n] (by simp) hx (Or.inl rfl))
  · intro p n hp _ hx
    have hlen : (((p ++ [n]).length : Nat) : Int) = (p.length : Int) + 1 := by simp
    have hpos : 0 < p.length := List.length_pos.mpr hp
    constructor
    · intro hmem
      rcases (hmemshown _ hmem).2.2 with h1 | h2 | h3
      · simp at h1; exact absurd h1 hp
      · exact Or.inl h2
      · right; rw [hlen] at h3; omega
    · intro hcond
      refine hcomplete _ (by simp) hx ?_
      rcases hcond with h | h
      · exact Or.inr (Or.inl h)
      · right; right; rw [hlen]; omega
  · intro hneg p hp hx
    exact hcomplete p hp hx (Or.inr (Or.inl hneg))
  · intro hk p
    constructor
    · intro hmem
      obtain ⟨hp, hx, hshown⟩ := hmemshown p hmem
      refine ⟨hp, hx, ?_⟩
      rcases hshown with h1 | h2 | h3
      · rw [h1]; exact hk
      · omega
      · exact h3
    · rintro ⟨hp, hx, hle⟩
      exact hcomplete p hp hx (Or.inr (Or.inr hle))
  · intro l hl
    obtain ⟨cols, conn, name, x, h1, h2, h3, h4, h5, h6⟩ :=
      entryLine_shape st ToLower l.path root "" l.text (htext l hl)
    refine ⟨cols, conn, name, x, h1, h2, h3, h4, h5, ?_⟩
    rw [h6, String.empty_append]
  · intro hnone
    have hnil : treeLines st ToLower (Except.ok root) maxDepth = [] := by
      rw [List.eq_nil_iff_forall_not_mem]
      intro l hl
      obtain ⟨-, hp, ⟨x, hx⟩, -⟩ := hsound l hl
      cases hq : l.path with
      | nil => exact hp hq
      | cons n q =>
        rw [hq] at hx
        obtain ⟨child, hchild⟩ := lookup_head root x n q hx
        rw [hnone n] at hchild
        cases hchild
    simp only [GetFileTree, hnil, List.map_nil]
    rfl
  · rintro ⟨n, x, hx⟩
    obtain ⟨l, hl, -, hlt⟩ := hchildLine n x hx
    have hne : String.join ((treeLines st ToLower (Except.ok root) maxDepth).map
        (fun l => l.text)) ≠ "" := by
      apply join_ne_empty _ l.text (List.mem_map.mpr ⟨l, hl, rfl⟩)
      intro h
      rw [hlt] at h
      have hd := congrArg String.data h
      simp at hd
    refine ⟨hne, ?_⟩
    simp only [GetFileTree]
    rw [if_neg hne]

/-- C11 at the scenario's tree with depth limit 1: `src` has one line, the line of a
directory that is not the last entry, and `src/main.txt`, at depth 2, has none; the text
returned is the lines of `src` and `README.md`, and with depth limit 2 the line of
`src/main.txt` comes between them. -/
theorem C11_tree_depth_limit_witness :
    ((treeLines exStyle ToLowerASCII (Except.ok exTree) 1).filter
        (fun l => decide (l.path = ["src"]))).length = 1
      ∧ (["src", "main.txt"]
            ∈ (treeLines exStyle ToLowerASCII (Except.ok exTree) 1).map (fun l => l.path)
          ↔ ["src", "main.txt"] ≠ []
              ∧ (∃ x, exTree.lookup ["src", "main.txt"] = some x)
              ∧ ((["src", "main.txt"] : List String).length : Int) ≤ 1)
      ∧ (∃ l ∈ treeLines exStyle ToLowerASCII (Except.ok exTree) 1,
            l.path = ["src"] ∧ l.text = "├╼  src\n")
      ∧ GetFileTree exStyle ToLowerASCII (Except.ok exTree) 1 = "├╼  src\n└╼ README.md\n"
      ∧ GetFileTree exStyle ToLowerASCII (Except.ok exTree) 2
          = "├╼  src\n│  └╼ main.txt\n└╼ README.md\n" :=
  ⟨(C11_tree_depth_limit exStyle ToLowerASCII exTree 1 (by decide) (by decide)
      (by decide)).2.2.1 "src" ⟨_, rfl⟩,
   (C11_tree_depth_limit exStyle ToLowerASCII exTree 1 (by decide) (by decide)
      (by decide)).2.2.2.2.2.1 (by decide) ["src", "main.txt"],
   (C11_tree_depth_limit exStyle ToLowerASCII exTree 1 (by decide) (by decide)
      (by decide)).2.2.2.2.2.2.2.2.2.1 "src" _ rfl,
   by decide, by decide⟩

/-- C13 at a concrete run: enter search mode, type `w`, move down, delete the character. -/
theorem C13_cursors_stay_in_range_witness :
    ∃ m, runEvents { newModel ["api", "web-app", "worker"] with treeDepth := 2 }
            [(exEnv, Msg.KeyMsg (keyRune '/')), (exEnv, Msg.KeyMsg (keyRune 'w')),
             (exEnv, Msg.KeyMsg keyDown),
             (exEnv, Msg.KeyMsg { type := .KeyBackspace, Runes := [], Alt := false,
                                  Paste := false })] = some m
      ∧ (m.templates ≠ [] ∧ 0 ≤ m.cursor ∧ m.cursor < (m.templates.length : Int)
            ∧ ∃ tmpl, index m.templates m.cursor = some tmpl)
      ∧ (∀ (st : TreeStyle) (env : Env), ∃ screen, View st env m = some screen) :=
  match C13_cursors_stay_in_range (Except.ok ["api", "web-app", "worker"])
      (newModel ["api", "web-app", "worker"]) 2
      [(exEnv, Msg.KeyMsg (keyRune '/')), (exEnv, Msg.KeyMsg (keyRune 'w')),
       (exEnv, Msg.KeyMsg keyDown),
       (exEnv, Msg.KeyMsg { type := .KeyBackspace, Runes := [], Alt := false,
                            Paste := false })] (by decide) with
  | ⟨m, h1, _, h3, _, h5⟩ => ⟨m, h1, h3, h5⟩

end OpenTemplate
